import Mathlib

/-!
Verification development for the PivotScale clique-counting code base.

The C++ sources are shallowly embedded: vectors become lists, machine
integers become natural numbers (with an explicit modulus 2^w where
wrap-around matters), stateful classes become explicit state records,
and potentially out-of-bounds accesses return Option values.
-/

namespace PivotScale

/-! ### List helpers -/

/-- Bitmap read: entry i of a list of booleans, false out of range. -/
def getB (l : List Bool) (i : Nat) : Bool := l.getD i false

/-- Read entry i of a list of naturals, 0 out of range. -/
def getN (l : List Nat) (i : Nat) : Nat := l.getD i 0

/-- Read entry i of a list of lists, empty out of range. -/
def getL (l : List (List Nat)) (i : Nat) : List Nat := l.getD i []

theorem getD_set {α : Type} (l : List α) (i j : Nat) (a d : α) :
    (l.set i a).getD j d = if i = j ∧ i < l.length then a else l.getD j d := by
  rw [List.getD_eq_getElem?_getD, List.getD_eq_getElem?_getD, List.getElem?_set]
  by_cases hij : i = j
  · subst hij
    by_cases hlen : i < l.length
    · simp [hlen]
    · simp [hlen, List.getElem?_eq_none (Nat.le_of_not_lt hlen)]
  · simp [hij]

theorem getB_set (l : List Bool) (i j : Nat) (a : Bool) :
    getB (l.set i a) j = if i = j ∧ i < l.length then a else getB l j := by
  rw [getB, getB, getD_set]

theorem getN_set (l : List Nat) (i j : Nat) (a : Nat) :
    getN (l.set i a) j = if i = j ∧ i < l.length then a else getN l j := by
  rw [getN, getN, getD_set]

theorem getL_set (l : List (List Nat)) (i j : Nat) (a : List Nat) :
    getL (l.set i a) j = if i = j ∧ i < l.length then a else getL l j := by
  rw [getL, getL, getD_set]

/-- Clear bitmap entries at all indices in xs (in order). -/
def clearAll (act : List Bool) (xs : List Nat) : List Bool :=
  xs.foldl (fun a n => a.set n false) act

/-- Set bitmap entries at all indices in xs (in order). -/
def setAll (act : List Bool) (xs : List Nat) : List Bool :=
  xs.foldl (fun a n => a.set n true) act

theorem clearAll_length (act : List Bool) (xs : List Nat) :
    (clearAll act xs).length = act.length := by
  induction xs generalizing act with
  | nil => rfl
  | cons x xs ih => simp [clearAll, List.foldl_cons] at *; simpa using ih (act.set x false)

theorem setAll_length (act : List Bool) (xs : List Nat) :
    (setAll act xs).length = act.length := by
  induction xs generalizing act with
  | nil => rfl
  | cons x xs ih => simp [setAll, List.foldl_cons] at *; simpa using ih (act.set x true)

theorem getB_clearAll (act : List Bool) (xs : List Nat) (i : Nat) :
    getB (clearAll act xs) i =
      if i ∈ xs ∧ i < act.length then false else getB act i := by
  induction xs generalizing act with
  | nil => simp [clearAll]
  | cons x xs ih =>
    rw [clearAll, List.foldl_cons, ← clearAll, ih, List.length_set, getB_set]
    by_cases hx : x = i
    · subst hx
      by_cases hlen : x < act.length <;> simp [hlen]
    · have hix : ¬ i = x := fun h => hx h.symm
      by_cases hmem : i ∈ xs <;> simp [hx, hix, hmem]

theorem getB_setAll (act : List Bool) (xs : List Nat) (i : Nat) :
    getB (setAll act xs) i =
      if i ∈ xs ∧ i < act.length then true else getB act i := by
  induction xs generalizing act with
  | nil => simp [setAll]
  | cons x xs ih =>
    rw [setAll, List.foldl_cons, ← setAll, ih, List.length_set, getB_set]
    by_cases hx : x = i
    · subst hx
      by_cases hlen : x < act.length <;> simp [hlen]
    · have hix : ¬ i = x := fun h => hx h.symm
      by_cases hmem : i ∈ xs <;> simp [hx, hix, hmem]

/-! ### Combination cache (src/comb_cache.h)

`CombCache<T_>` precomputes a 100 by 100 table of binomial coefficients by
the Pascal recurrence and falls back to a multiplicative loop for larger
arguments.  Two embeddings are given: a wrapping one (arithmetic reduced
mod `M = 2^w`, matching the fixed-width integer type `T_`) and an exact one
over unbounded naturals (matching the mathematical intent when no overflow
occurs). -/

/-- Table size `kNumPrecompute` from the source. -/
def kNumPrecompute : Nat := 100

/-- Pascal-recurrence table entry, wrapping mod M.  Mirrors the constructor
loop of `CombCache`: boundary entries store 1, interior entries store the sum
of the two entries above (which wraps in the fixed-width type).  Entries with
k > n are never written by the constructor and are not modelled. -/
def combMemoW (M : Nat) : Nat → Nat → Nat
  | _, 0 => 1
  | 0, _ + 1 => 0
  | n + 1, k + 1 => if k + 1 = n + 1 then 1 else (combMemoW M n k + combMemoW M n (k + 1)) % M

/-- Multiplicative fallback `CombCache::compute`, wrapping mod M: the running
product wraps before each truncating division, exactly as `result * (n-(k-i))`
does in the fixed-width type. -/
def combComputeW (M n k0 : Nat) : Nat :=
  if k0 > n then 0
  else if k0 = 0 ∨ k0 = n then 1
  else
    let k := min k0 (n - k0)
    (List.range k).foldl (fun r i => (r * (n - (k - (i + 1)))) % M / (i + 1)) 1

/-- Query path `CombCache::operator()`, wrapping mod M. -/
def combQueryW (M n k : Nat) : Nat :=
  if n < kNumPrecompute ∧ k < kNumPrecompute then combMemoW M n k else combComputeW M n k

/-- Pascal-recurrence table entry over unbounded naturals. -/
def combMemo : Nat → Nat → Nat
  | _, 0 => 1
  | 0, _ + 1 => 0
  | n + 1, k + 1 => if k + 1 = n + 1 then 1 else combMemo n k + combMemo n (k + 1)

/-- Multiplicative fallback over unbounded naturals. -/
def combCompute (n k0 : Nat) : Nat :=
  if k0 > n then 0
  else if k0 = 0 ∨ k0 = n then 1
  else
    let k := min k0 (n - k0)
    (List.range k).foldl (fun r i => r * (n - (k - (i + 1))) / (i + 1)) 1

/-- Query path over unbounded naturals; this is the `n_choose_k` used by the
clique counters, whose count type is modelled as an unbounded natural (the
data model requires the count type to be wide enough to hold the answer). -/
def nChooseK (n k : Nat) : Nat :=
  if n < kNumPrecompute ∧ k < kNumPrecompute then combMemo n k else combCompute n k

theorem combMemoW_eq_choose (M : Nat) (hM : 2 ≤ M) :
    ∀ n k, k ≤ n → combMemoW M n k = Nat.choose n k % M := by
  intro n
  induction n with
  | zero =>
    intro k hk
    interval_cases k
    simp [combMemoW, Nat.mod_eq_of_lt hM]
  | succ n ih =>
    intro k hk
    match k with
    | 0 => simp [combMemoW, Nat.mod_eq_of_lt hM]
    | k + 1 =>
      by_cases hkn : k + 1 = n + 1
      · have hke : k = n := by omega
        subst hke
        simp [combMemoW, Nat.choose_self, Nat.mod_eq_of_lt hM]
      · have hklt : k + 1 ≤ n := by omega
        rw [combMemoW, if_neg hkn, ih k (by omega), ih (k + 1) hklt, Nat.choose_succ_succ,
          ← Nat.add_mod]

theorem combMemo_eq_choose : ∀ n k, k ≤ n → combMemo n k = Nat.choose n k := by
  intro n
  induction n with
  | zero =>
    intro k hk
    interval_cases k
    simp [combMemo]
  | succ n ih =>
    intro k hk
    match k with
    | 0 => simp [combMemo]
    | k + 1 =>
      by_cases hkn : k + 1 = n + 1
      · have hke : k = n := by omega
        subst hke
        simp [combMemo, Nat.choose_self]
      · have hklt : k + 1 ≤ n := by omega
        rw [combMemo, if_neg hkn, ih k (by omega), ih (k + 1) hklt, Nat.choose_succ_succ]

theorem combCompute_loop (n k : Nat) (hk : k ≤ n) :
    ∀ j ≤ k, (List.range j).foldl (fun r i => r * (n - (k - (i + 1))) / (i + 1)) 1 =
      Nat.choose (n - k + j) j := by
  intro j
  induction j with
  | zero => simp
  | succ j ih =>
    intro hj
    rw [List.range_succ, List.foldl_append, ih (by omega)]
    simp only [List.foldl_cons, List.foldl_nil]
    have harg : n - (k - (j + 1)) = n - k + j + 1 := by omega
    rw [harg]
    have hpascal := Nat.succ_mul_choose_eq (n - k + j) j
    have hdvd : Nat.choose (n - k + j) j * (n - k + j + 1) =
        Nat.choose (n - k + j + 1) (j + 1) * (j + 1) := by
      rw [mul_comm (Nat.choose (n - k + j) j)]
      exact hpascal
    calc Nat.choose (n - k + j) j * (n - k + j + 1) / (j + 1)
        = Nat.choose (n - k + j + 1) (j + 1) * (j + 1) / (j + 1) := by rw [hdvd]
      _ = Nat.choose (n - k + j + 1) (j + 1) := Nat.mul_div_cancel _ (by omega)

theorem combCompute_eq_choose (n k : Nat) (hk : k ≤ n) :
    combCompute n k = Nat.choose n k := by
  rw [combCompute]
  rcases Nat.lt_or_ge n k with h | h
  · omega
  · rw [if_neg (by omega)]
    by_cases hek : k = 0 ∨ k = n
    · rcases hek with rfl | rfl <;> simp [Nat.choose_self]
    · rw [if_neg hek]
      push_neg at hek
      have hmin : min k (n - k) ≤ n := by omega
      have := combCompute_loop n (min k (n - k)) (by omega) (min k (n - k)) le_rfl
      simp only []
      rw [this]
      rcases Nat.le_total k (n - k) with hle | hle
      · rw [min_eq_left hle]
        have : n - k + k = n := by omega
        rw [this]
      · rw [min_eq_right hle]
        have : n - (n - k) + (n - k) = n := by omega
        rw [this, Nat.choose_symm (by omega)]

theorem nChooseK_eq_choose (n k : Nat) (hk : k ≤ n) :
    nChooseK n k = Nat.choose n k := by
  rw [nChooseK]
  by_cases h : n < kNumPrecompute ∧ k < kNumPrecompute
  · rw [if_pos h, combMemo_eq_choose n k hk]
  · rw [if_neg h, combCompute_eq_choose n k hk]

/-- C8, counterexample: the claim asserts that for every 0 ≤ k ≤ n the
multiplicative fallback path also returns C(n,k) reduced mod 2^w (w = 64 by
default).  It does not: at n = 4000000, k = 3 (n and k fit the `int`
parameters of `operator()`, and n ≥ 100 selects the fallback) the running
product wraps mod 2^64 at the last step — (C(n-1,2) · n) ≈ 3.2·10^19 exceeds
2^64 — and the subsequent truncating division by 3 loses the wrapped
multiples of 2^64, so the result differs from C(n,k) mod 2^64. -/
theorem combQueryW_fallback_not_choose_mod :
    combQueryW (2 ^ 64) 4000000 3 ≠ Nat.choose 4000000 3 % 2 ^ 64 := by
  rw [Nat.choose_eq_descFactorial_div_factorial]
  decide

/-- C8, amended: for 0 ≤ k ≤ n with n below the table size, a CombCache query
takes the table path and returns exactly C(n,k) reduced mod 2^w (the Pascal
additions wrap, and addition commutes with reduction mod 2^w); the
multiplicative fallback path does not satisfy this in general, because the
wrapped product is divided by a truncating division. -/
theorem combQueryW_table_eq_choose_mod (w n k : Nat) (hw : 1 ≤ w) (hk : k ≤ n)
    (hn : n < kNumPrecompute) :
    combQueryW (2 ^ w) n k = Nat.choose n k % 2 ^ w := by
  have hM : 2 ≤ 2 ^ w := by
    calc 2 = 2 ^ 1 := (pow_one 2).symm
    _ ≤ 2 ^ w := Nat.pow_le_pow_right (by omega) hw
  rw [combQueryW, if_pos ⟨hn, lt_of_le_of_lt hk hn⟩]
  exact combMemoW_eq_choose _ hM n k hk

/-- C8, witness for the amended theorem at w = 64, n = 10, k = 5. -/
theorem combQueryW_table_eq_choose_mod_witness :
    1 ≤ 64 ∧ 5 ≤ 10 ∧ 10 < kNumPrecompute ∧
      combQueryW (2 ^ 64) 10 5 = Nat.choose 10 5 % 2 ^ 64 :=
  ⟨by decide, by decide, by decide,
    combQueryW_table_eq_choose_mod 64 10 5 (by decide) (by decide) (by decide)⟩

/-! ### Graph model (the CSR view of src/graph.h, as used by the core)

A graph is a vertex count and an out-adjacency function.  `USimple` captures
an undirected simple input: strictly ascending adjacency (hence no
duplicates), in-range neighbours, no self-loops, symmetry, and empty
adjacency out of range. -/

structure GraphM where
  n : Nat
  adj : Nat → List Nat

/-- Out-degree of u, `g.out_degree(u)`. -/
def outDegree (g : GraphM) (u : Nat) : Nat := (g.adj u).length

/-- An undirected simple graph in CSR form. -/
structure USimple (g : GraphM) : Prop where
  sorted : ∀ u, (g.adj u).Pairwise (· < ·)
  mem_lt : ∀ u v, v ∈ g.adj u → v < g.n
  no_self : ∀ u, u ∉ g.adj u
  symm : ∀ u v, v ∈ g.adj u → u ∈ g.adj v
  oob : ∀ u, g.n ≤ u → g.adj u = []

/-- Build a graph from a finite adjacency table (used for concrete inputs). -/
def tableGraph (t : List (List Nat)) : GraphM :=
  ⟨t.length, fun u => getL t u⟩

/-- Decidable check that a table describes an undirected simple graph. -/
def tableUSimpleB (t : List (List Nat)) : Bool :=
  (List.range t.length).all fun u =>
    decide ((getL t u).Pairwise (· < ·)) &&
      (getL t u).all fun v =>
        decide (v < t.length) && decide (u ∈ getL t v) && decide (v ≠ u)

theorem getL_oob (t : List (List Nat)) (u : Nat) (h : t.length ≤ u) : getL t u = [] := by
  rw [getL, List.getD_eq_getElem?_getD, List.getElem?_eq_none h]
  rfl

theorem tableGraph_uSimple (t : List (List Nat)) (h : tableUSimpleB t = true) :
    USimple (tableGraph t) := by
  rw [tableUSimpleB, List.all_eq_true] at h
  have hrng : ∀ u, u < t.length →
      (getL t u).Pairwise (· < ·) ∧ ∀ v ∈ getL t u, v < t.length ∧ u ∈ getL t v ∧ v ≠ u := by
    intro u hu
    have := h u (List.mem_range.mpr hu)
    rw [Bool.and_eq_true, List.all_eq_true] at this
    refine ⟨by simpa using this.1, fun v hv => ?_⟩
    have hb := this.2 v hv
    simp only [Bool.and_eq_true, decide_eq_true_eq] at hb
    exact ⟨hb.1.1, hb.1.2, hb.2⟩
  constructor
  · intro u
    by_cases hu : u < t.length
    · exact (hrng u hu).1
    · rw [show (tableGraph t).adj u = getL t u from rfl, getL_oob t u (by omega)]
      exact List.Pairwise.nil
  · intro u v hv
    by_cases hu : u < t.length
    · exact ((hrng u hu).2 v hv).1
    · rw [show (tableGraph t).adj u = getL t u from rfl, getL_oob t u (by omega)] at hv
      cases hv
  · intro u hv
    by_cases hu : u < t.length
    · exact (((hrng u hu).2 u hv).2.2) rfl
    · rw [show (tableGraph t).adj u = getL t u from rfl, getL_oob t u (by omega)] at hv
      cases hv
  · intro u v hv
    by_cases hu : u < t.length
    · exact ((hrng u hu).2 v hv).2.1
    · rw [show (tableGraph t).adj u = getL t u from rfl, getL_oob t u (by omega)] at hv
      cases hv
  · intro u hu
    exact getL_oob t u hu

/-! ### CoreIsAdvantageous (src/ordering.h lines 36-62)

The heuristic finds the (leftmost) highest-degree vertex, its (leftmost)
highest-degree neighbour, and intersects their sorted adjacency lists by a
merging scan.  The scan iterator over `out_neigh(biggest_id)` is modelled by
an index; a dereference at or past the end yields `none` (undefined behaviour
in the C++).  Real-valued fractions are modelled by rationals. -/

/-- Leftmost vertex of maximal out-degree (`std::ranges::max` over the id
range with `compare_by_degree`; undefined for an empty range, modelled as 0). -/
def maxDegVertex (g : GraphM) : Nat :=
  (List.range g.n).foldl (fun b u => if outDegree g b < outDegree g u then u else b) 0

/-- Leftmost neighbour of u of maximal out-degree (`std::ranges::max` over
`out_neigh(u)`; undefined for an isolated u, modelled as 0). -/
def maxDegNeighbor (g : GraphM) (u : Nat) : Nat :=
  match g.adj u with
  | [] => 0
  | v :: rest => rest.foldl (fun b w => if outDegree g b < outDegree g w then w else b) v

/-- Advance the scan iterator while `*it < w`, walking the suffix of A that
starts at position it; `none` models an out-of-bounds dereference. -/
def scanAdvanceL (w : Nat) : List Nat → Nat → Option Nat
  | [], _ => none
  | a :: rest, it => if a < w then scanAdvanceL w rest (it + 1) else some it

/-- Advance the scan iterator from index it; `none` models an out-of-bounds
dereference. -/
def scanAdvance (A : List Nat) (w it : Nat) : Option Nat :=
  scanAdvanceL w (A.drop it) it

/-- The merging scan of `CoreIsAdvantageous`: for each w in B, advance the
iterator over A while `*it < w`, then count a hit if `w == *it`. -/
def scanLoop (A : List Nat) : List Nat → Nat → Nat → Option Nat
  | [], _, cnt => some cnt
  | w :: rest, it, cnt =>
    match scanAdvance A w it with
    | none => none
    | some it2 => scanLoop A rest it2 (cnt + if w = getN A it2 then 1 else 0)

/-- The `intersection_size` computation of `CoreIsAdvantageous`. -/
def intersectionSizeM (g : GraphM) : Option Nat :=
  scanLoop (g.adj (maxDegVertex g)) (g.adj (maxDegNeighbor g (maxDegVertex g))) 0 0

/-- `CoreIsAdvantageous` with its default thresholds a = 0.0015, b = 0.1.
When the merging scan dereferences out of bounds the C++ behaviour is
undefined; the model then reads 0, and every theorem below that mentions this
heuristic holds for either branch of the resulting choice. -/
def coreIsAdvantageous (g : GraphM) : Bool :=
  let biggestNeigh := maxDegNeighbor g (maxDegVertex g)
  let isize : Nat := (intersectionSizeM g).getD 0
  let largestNeighFrac : ℚ := (outDegree g biggestNeigh : ℚ) / (g.n : ℚ)
  let intersectionFrac : ℚ := (isize : ℚ) / (outDegree g biggestNeigh : ℚ)
  decide (1000000 < g.n) &&
    (decide ((3 : ℚ) / 2000 < largestNeighFrac) || decide ((1 : ℚ) / 10 < intersectionFrac))

/-- The 10-vertex undirected simple graph on which the merging scan of
`CoreIsAdvantageous` runs past the end of `out_neigh(biggest_id)`:
vertex 0 (degree 3, the leftmost maximum) has neighbours 1, 2, 3; its
highest-degree neighbour 1 has neighbours 0, 4, 9, and while scanning for
w = 4 the iterator over [1, 2, 3] is dereferenced at the end position. -/
def coreAdvCexTable : List (List Nat) :=
  [[1, 2, 3], [0, 4, 9], [0], [0], [1], [], [], [], [], [1]]

/-- C10: the claim states that every dereference of the merging-scan iterator
stays in bounds on every undirected simple input.  The concrete legal input
`coreAdvCexTable` refutes this: the embedding returns `none`, i.e. the C++
dereferences `out_neigh(biggest_id)` past its end (undefined behaviour). -/
theorem coreAdv_scan_out_of_bounds :
    USimple (tableGraph coreAdvCexTable) ∧
      intersectionSizeM (tableGraph coreAdvCexTable) = none :=
  ⟨tableGraph_uSimple coreAdvCexTable (by decide), by decide⟩

/-! ### Approximate core decomposition (src/ordering.h, CoreApprox)

Sequential embedding of the parallel peeling loop: one thread owns all of
`remaining`, the barriers collapse, and the lock-free min reduction becomes a
fold.  Doubles are modelled by rationals, the NodeID cast by truncation
toward zero. -/

/-- Read entry i of a list of integers, 0 out of range. -/
def getZ (l : List Int) (i : Nat) : Int := l.getD i 0

/-- `g.num_edges_directed()`: total number of directed edges (out-entries). -/
def numEdgesDirected (g : GraphM) : Nat :=
  (List.range g.n).foldl (fun a u => a + outDegree g u) 0

/-- Truncation toward zero of a rational, as the C cast double to NodeID. -/
def ratTrunc (q : ℚ) : Int := if 0 ≤ q then Int.floor q else Int.ceil q

/-- Threshold `(NodeID)((1 + epsilon) * avg_deg)`. -/
def degThresh (eps : ℚ) (adt : Int) (numRem : Nat) : Int :=
  ratTrunc ((1 + eps) * ((adt : ℚ) / (numRem : ℚ)))

/-- Level-0 examination of one vertex u: if its static degree is at or below
the threshold it is ranked 0 and its still-heavy neighbours are decremented;
otherwise it goes to the remaining list.  State: rankings, current degrees,
edges removed, remaining list. -/
def levelZeroStep (g : GraphM) (thresh : Int)
    (st : List Int × List Int × Int × List Nat) (u : Nat) :
    List Int × List Int × Int × List Nat :=
  let (rk, cd, er, rem) := st
  if (outDegree g u : Int) ≤ thresh then
    let p := (g.adj u).foldl
      (fun (p : List Int × Int) v =>
        if thresh < (outDegree g v : Int) then (p.1.set v (getZ p.1 v - 1), p.2 + 1) else p)
      (cd, er)
    (rk.set u 0, p.1, p.2 + getZ p.1 u, rem)
  else (rk, cd, er, rem ++ [u])

/-- The level-0 iteration of CoreApprox over all vertices. -/
def levelZero (g : GraphM) (eps : ℚ) : List Int × List Int × Int × List Nat :=
  let thresh := degThresh eps (numEdgesDirected g : Int) g.n
  let rk0 : List Int := List.replicate g.n (-1)
  let cd0 : List Int := (List.range g.n).map (fun u => (outDegree g u : Int))
  (List.range g.n).foldl (levelZeroStep g thresh) (rk0, cd0, 0, [])

/-- The lock-free min reduction `min_deg_active`, initialised to num_nodes. -/
def minDegActive (g : GraphM) (cd : List Int) (rem : List Nat) : Int :=
  rem.foldl (fun m u => min m (getZ cd u)) (g.n : Int)

/-- Effective threshold: `if (deg_thresh < min_deg_active) deg_thresh =
min_deg_active`, i.e. max of the two. -/
def effectiveThresh (g : GraphM) (cd : List Int) (t0 : Int) (rem : List Nat) : Int :=
  if t0 < minDegActive g cd rem then minDegActive g cd rem else t0

/-- Vertices selected for removal at a level past 0. -/
def peelSelected (g : GraphM) (cd : List Int) (t0 : Int) (rem : List Nat) : List Nat :=
  rem.filter fun u => decide (getZ cd u ≤ effectiveThresh g cd t0 rem)

/-- Vertices kept for the next level. -/
def peelNextRemaining (g : GraphM) (cd : List Int) (t0 : Int) (rem : List Nat) : List Nat :=
  rem.filter fun u => !decide (getZ cd u ≤ effectiveThresh g cd t0 rem)

/-- Removal pass for one removed vertex u: decrement each still-unranked
neighbour, tally the removed edges, and account the remaining degree of u. -/
def peelRemove (g : GraphM) (rk : List Int) (st : List Int × Int) (u : Nat) :
    List Int × Int :=
  let q := (g.adj u).foldl
    (fun (q : List Int × Int) v =>
      if getZ rk v = -1 then (q.1.set v (getZ q.1 v - 1), q.2 + 1) else q) st
  (q.1, q.2 + getZ q.1 u)

/-- The peeling iterations at levels 1, 2, ...; structural fuel bounds the
number of iterations (`coreApprox` supplies `remaining.length + 1`, which the
progress theorem shows is enough). -/
def peelGo (g : GraphM) (eps : ℚ) :
    Nat → List Int → List Int → Int → List Nat → Nat → List Int
  | 0, rk, _, _, _, _ => rk
  | fuel + 1, rk, cd, adt, rem, level =>
    if rem = [] then rk
    else
      let t0 := degThresh eps adt rem.length
      let sel := peelSelected g cd t0 rem
      let nextRem := peelNextRemaining g cd t0 rem
      let rk2 := sel.foldl (fun r u => r.set u (level : Int)) rk
      let p := sel.foldl (peelRemove g rk2) (cd, 0)
      peelGo g eps fuel rk2 p.1 (adt - p.2) nextRem (level + 1)

/-- `Ordering::CoreApprox`, sequentially embedded. -/
def coreApprox (g : GraphM) (eps : ℚ) : List Int :=
  let z := levelZero g eps
  peelGo g eps (z.2.2.2.length + 1) z.1 z.2.1 ((numEdgesDirected g : Int) - z.2.2.1)
    z.2.2.2 1

theorem foldl_min_le_start (f : Nat → Int) (l : List Nat) (i : Int) :
    l.foldl (fun m u => min m (f u)) i ≤ i := by
  induction l generalizing i with
  | nil => exact le_rfl
  | cons x l ih => exact le_trans (ih (min i (f x))) (min_le_left _ _)

theorem foldl_min_le (f : Nat → Int) (l : List Nat) (i : Int) :
    ∀ u ∈ l, l.foldl (fun m u => min m (f u)) i ≤ f u := by
  induction l generalizing i with
  | nil => intro u hu; cases hu
  | cons x l ih =>
    intro u hu
    rcases List.mem_cons.mp hu with rfl | hu
    · exact le_trans (foldl_min_le_start f l (min i (f u))) (min_le_right _ _)
    · exact ih (min i (f x)) u hu

theorem foldl_min_attained (f : Nat → Int) (l : List Nat) (i : Int) :
    l.foldl (fun m u => min m (f u)) i = i ∨
      ∃ u ∈ l, l.foldl (fun m u => min m (f u)) i = f u := by
  induction l generalizing i with
  | nil => exact Or.inl rfl
  | cons x l ih =>
    rcases ih (min i (f x)) with h | ⟨u, hu, h⟩
    · rcases min_choice i (f x) with hm | hm
      · exact Or.inl (by rw [List.foldl_cons, h, hm])
      · exact Or.inr ⟨x, List.mem_cons_self x l, by rw [List.foldl_cons, h, hm]⟩
    · exact Or.inr ⟨u, List.mem_cons_of_mem x hu, by rw [List.foldl_cons, h]⟩

/-- Progress at levels past 0: if anything remains and every remaining vertex
has current degree below num_nodes (true of all states the program reaches),
the effective threshold removes at least one vertex. -/
theorem peel_progress (g : GraphM) (cd : List Int) (t0 : Int) (rem : List Nat)
    (hne : rem ≠ []) (hlt : ∀ u ∈ rem, getZ cd u < (g.n : Int)) :
    (peelNextRemaining g cd t0 rem).length < rem.length := by
  have hmem : ∃ u ∈ rem, minDegActive g cd rem = getZ cd u := by
    rcases foldl_min_attained (getZ cd) rem ((g.n : Int)) with h | h
    · exfalso
      obtain ⟨u0, hu0⟩ := List.exists_mem_of_ne_nil rem hne
      have h1 := foldl_min_le (getZ cd) rem ((g.n : Int)) u0 hu0
      have h2 := hlt u0 hu0
      omega
    · exact h
  obtain ⟨u0, hu0, hmin⟩ := hmem
  have hsel : getZ cd u0 ≤ effectiveThresh g cd t0 rem := by
    rw [effectiveThresh]
    split <;> omega
  rw [peelNextRemaining, List.length_filter_lt_length_iff_exists]
  exact ⟨u0, hu0, by simp [hsel]⟩

theorem setFold_length (l : List Nat) (z : Int) (rk : List Int) :
    (l.foldl (fun r u => r.set u z) rk).length = rk.length := by
  induction l generalizing rk with
  | nil => rfl
  | cons x l ih => simpa using ih (rk.set x z)

theorem setFold_getD (l : List Nat) (z : Int) (rk : List Int) (u : Nat) (d : Int) :
    (l.foldl (fun r u => r.set u z) rk).getD u d =
      if u ∈ l ∧ u < rk.length then z else rk.getD u d := by
  induction l generalizing rk with
  | nil => simp
  | cons x l ih =>
    rw [List.foldl_cons, ih, List.length_set, getD_set]
    by_cases hx : x = u
    · subst hx
      by_cases hlen : x < rk.length
      · by_cases hmem : x ∈ l <;> simp [hlen, hmem]
      · by_cases hmem : x ∈ l <;> simp [hlen, hmem]
    · have hux : ¬ u = x := fun h => hx h.symm
      by_cases hmem : u ∈ l <;> simp [hx, hux, hmem]

theorem lz_inner_cd_le (g : GraphM) (thresh : Int) (l : List Nat) (st : List Int × Int)
    (w : Nat) :
    getZ (l.foldl (fun p v =>
        if thresh < (outDegree g v : Int) then (p.1.set v (getZ p.1 v - 1), p.2 + 1) else p)
      st).1 w ≤ getZ st.1 w := by
  induction l generalizing st with
  | nil => exact le_rfl
  | cons x l ih =>
    rw [List.foldl_cons]
    refine le_trans (ih _) ?_
    by_cases hc : thresh < (outDegree g x : Int)
    · rw [if_pos hc]
      show getZ (st.1.set x (getZ st.1 x - 1)) w ≤ getZ st.1 w
      rw [getZ, getZ, getD_set]
      split
      · rename_i hcond
        obtain ⟨rfl, -⟩ := hcond
        rw [getZ]
        omega
      · exact le_rfl
    · rw [if_neg hc]

theorem peel_inner_cd_le (g : GraphM) (rk : List Int) (l : List Nat) (st : List Int × Int)
    (w : Nat) :
    getZ (l.foldl (fun q v =>
        if getZ rk v = -1 then (q.1.set v (getZ q.1 v - 1), q.2 + 1) else q) st).1 w ≤
      getZ st.1 w := by
  induction l generalizing st with
  | nil => exact le_rfl
  | cons x l ih =>
    rw [List.foldl_cons]
    refine le_trans (ih _) ?_
    by_cases hc : getZ rk x = -1
    · rw [if_pos hc]
      show getZ (st.1.set x (getZ st.1 x - 1)) w ≤ getZ st.1 w
      rw [getZ, getZ, getD_set]
      split
      · rename_i hcond
        obtain ⟨rfl, -⟩ := hcond
        rw [getZ]
        omega
      · exact le_rfl
    · rw [if_neg hc]

theorem peelRemoveFold_cd_le (g : GraphM) (rk : List Int) (l : List Nat)
    (st : List Int × Int) (w : Nat) :
    getZ (l.foldl (peelRemove g rk) st).1 w ≤ getZ st.1 w := by
  induction l generalizing st with
  | nil => exact le_rfl
  | cons x l ih =>
    rw [List.foldl_cons]
    refine le_trans (ih _) ?_
    show getZ (peelRemove g rk st x).1 w ≤ getZ st.1 w
    rw [peelRemove]
    exact peel_inner_cd_le g rk (g.adj x) st w

theorem lzFold_rk_length (g : GraphM) (thresh : Int) (l : List Nat)
    (st : List Int × List Int × Int × List Nat) :
    (l.foldl (levelZeroStep g thresh) st).1.length = st.1.length := by
  induction l generalizing st with
  | nil => rfl
  | cons x l ih =>
    rw [List.foldl_cons, ih]
    rw [levelZeroStep]
    split <;> simp

theorem lzFold_cd_le (g : GraphM) (thresh : Int) (l : List Nat)
    (st : List Int × List Int × Int × List Nat) (w : Nat) :
    getZ (l.foldl (levelZeroStep g thresh) st).2.1 w ≤ getZ st.2.1 w := by
  induction l generalizing st with
  | nil => exact le_rfl
  | cons x l ih =>
    rw [List.foldl_cons]
    refine le_trans (ih _) ?_
    rw [levelZeroStep]
    split
    · exact lz_inner_cd_le g thresh (g.adj x) (st.2.1, st.2.2.1) w
    · exact le_rfl

theorem lzFold_rem (g : GraphM) (thresh : Int) (l : List Nat)
    (st : List Int × List Int × Int × List Nat) :
    (l.foldl (levelZeroStep g thresh) st).2.2.2 =
      st.2.2.2 ++ l.filter (fun u => !decide ((outDegree g u : Int) ≤ thresh)) := by
  induction l generalizing st with
  | nil => simp
  | cons x l ih =>
    rw [List.foldl_cons, ih]
    rw [levelZeroStep]
    by_cases hc : (outDegree g x : Int) ≤ thresh
    · rw [if_pos hc, List.filter_cons]
      simp [hc]
    · rw [if_neg hc, List.filter_cons]
      simp [hc]

theorem lzFold_rk_getD (g : GraphM) (thresh : Int) (l : List Nat)
    (st : List Int × List Int × Int × List Nat) (u : Nat) (hu : u < st.1.length) :
    (l.foldl (levelZeroStep g thresh) st).1.getD u (-1) =
      if u ∈ l ∧ (outDegree g u : Int) ≤ thresh then 0 else st.1.getD u (-1) := by
  induction l generalizing st with
  | nil => simp
  | cons x l ih =>
    rw [List.foldl_cons]
    have hlen : u < ((levelZeroStep g thresh st x)).1.length := by
      rw [levelZeroStep]
      split <;> simpa using hu
    rw [ih _ hlen]
    rw [levelZeroStep]
    by_cases hc : (outDegree g x : Int) ≤ thresh
    · rw [if_pos hc]
      show (if u ∈ l ∧ _ then (0 : Int) else (st.1.set x 0).getD u (-1)) = _
      rw [getD_set]
      by_cases hx : x = u
      · subst hx
        by_cases hmem : x ∈ l <;> simp [hmem, hc, hu]
      · have hux : ¬ u = x := fun h => hx h.symm
        by_cases hmem : u ∈ l <;> simp [hmem, hx, hux]
    · rw [if_neg hc]
      show (if u ∈ l ∧ _ then (0 : Int) else st.1.getD u (-1)) = _
      by_cases hx : x = u
      · subst hx
        by_cases hmem : x ∈ l <;> simp [hmem, hc]
      · have hux : ¬ u = x := fun h => hx h.symm
        by_cases hmem : u ∈ l <;> simp [hmem, hx, hux]

theorem outDegree_lt_of_uSimple (g : GraphM) (hg : USimple g) (u : Nat) (hu : u < g.n) :
    outDegree g u < g.n := by
  have hnd : (g.adj u).Nodup := (hg.sorted u).imp (fun h => Nat.ne_of_lt h)
  have hsub : (g.adj u).toFinset ⊆ (Finset.range g.n).erase u := by
    intro v hv
    rw [List.mem_toFinset] at hv
    rw [Finset.mem_erase, Finset.mem_range]
    exact ⟨fun he => hg.no_self u (he ▸ hv), hg.mem_lt u v hv⟩
  have hcard := Finset.card_le_card hsub
  rw [List.toFinset_card_of_nodup hnd, Finset.card_erase_of_mem (Finset.mem_range.mpr hu),
    Finset.card_range] at hcard
  rw [outDegree]
  omega

theorem peelGo_all_ranked (g : GraphM) (eps : ℚ) :
    ∀ (fuel : Nat) (rk cd : List Int) (adt : Int) (rem : List Nat) (level : Nat),
      rem.length < fuel →
      rk.length = g.n →
      (∀ u, u < g.n → rk.getD u (-1) ≠ -1 ∨ u ∈ rem) →
      (∀ u ∈ rem, u < g.n ∧ getZ cd u < (g.n : Int)) →
      ∀ u, u < g.n → (peelGo g eps fuel rk cd adt rem level).getD u (-1) ≠ -1 := by
  intro fuel
  induction fuel with
  | zero => intro rk cd adt rem level hfuel; omega
  | succ fuel ih =>
    intro rk cd adt rem level hfuel hlen hrk hcd u hu
    rw [peelGo]
    by_cases hrem : rem = []
    · rw [if_pos hrem]
      rcases hrk u hu with h | h
      · exact h
      · rw [hrem] at h
        cases h
    · rw [if_neg hrem]
      set t0 := degThresh eps adt rem.length with ht0
      set sel := peelSelected g cd t0 rem with hsel
      set nextRem := peelNextRemaining g cd t0 rem with hnext
      set rk2 := sel.foldl (fun r u => r.set u (level : Int)) rk with hrk2
      have hlen2 : rk2.length = g.n := by rw [hrk2, setFold_length, hlen]
      have hprog : nextRem.length < rem.length :=
        peel_progress g cd t0 rem hrem (fun v hv => (hcd v hv).2)
      refine ih rk2 _ _ nextRem (level + 1) (by omega) hlen2 ?_ ?_ u hu
      · intro v hv
        rw [hrk2, setFold_getD, hlen]
        by_cases hvs : v ∈ sel
        · rw [if_pos ⟨hvs, hv⟩]
          left
          omega
        · rw [if_neg (fun h => hvs h.1)]
          rcases hrk v hv with h | h
          · exact Or.inl h
          · right
            rw [hnext, peelNextRemaining, List.mem_filter]
            refine ⟨h, ?_⟩
            rw [hsel, peelSelected, List.mem_filter] at hvs
            simp only [Bool.not_eq_true', decide_eq_false_iff_not]
            intro hle
            exact hvs ⟨h, by simpa using hle⟩
      · intro v hv
        have hvrem : v ∈ rem := List.mem_of_mem_filter hv
        refine ⟨(hcd v hvrem).1, lt_of_le_of_lt ?_ (hcd v hvrem).2⟩
        exact peelRemoveFold_cd_le g rk2 sel (cd, 0) v

/-- C9: the sequentially embedded CoreApprox peeling terminates.  First
conjunct: at any level past 0, whenever the remaining set is nonempty (and
its current degrees are below num_nodes, as the program maintains), the
effective threshold max(T, min_deg_active) removes at least one vertex.
Second conjunct: on termination every vertex has been assigned a level, i.e.
no ranking entry remains -1. -/
theorem coreApprox_progress_and_total (g : GraphM) (hg : USimple g) (eps : ℚ) :
    (∀ (cd : List Int) (t0 : Int) (rem : List Nat), rem ≠ [] →
        (∀ u ∈ rem, getZ cd u < (g.n : Int)) →
        (peelNextRemaining g cd t0 rem).length < rem.length) ∧
    ∀ u, u < g.n → (coreApprox g eps).getD u (-1) ≠ -1 := by
  constructor
  · exact fun cd t0 rem h1 h2 => peel_progress g cd t0 rem h1 h2
  · intro u hu
    rw [coreApprox]
    refine peelGo_all_ranked g eps _ _ _ _ _ _ (by omega) ?_ ?_ ?_ u hu
    · show (levelZero g eps).1.length = g.n
      rw [levelZero, lzFold_rk_length]
      exact List.length_replicate g.n (-1)
    · intro v hv
      show (levelZero g eps).1.getD v (-1) ≠ -1 ∨ v ∈ (levelZero g eps).2.2.2
      rw [levelZero, lzFold_rk_getD g _ _ _ v (by simpa using hv), lzFold_rem]
      by_cases hcond : v ∈ List.range g.n ∧
          (outDegree g v : Int) ≤ degThresh eps (numEdgesDirected g : Int) g.n
      · rw [if_pos hcond]
        left
        omega
      · rw [if_neg hcond]
        right
        rw [List.nil_append, List.mem_filter]
        have hvr : v ∈ List.range g.n := List.mem_range.mpr hv
        refine ⟨hvr, ?_⟩
        simp only [Bool.not_eq_true', decide_eq_false_iff_not]
        exact fun hle => hcond ⟨hvr, hle⟩
    · intro v hv
      rw [levelZero, lzFold_rem, List.nil_append, List.mem_filter] at hv
      have hvn : v < g.n := List.mem_range.mp hv.1
      refine ⟨hvn, ?_⟩
      have hle : getZ (levelZero g eps).2.1 v ≤
          getZ ((List.range g.n).map (fun u => (outDegree g u : Int))) v := by
        rw [levelZero]
        exact lzFold_cd_le g _ _ _ v
      have hmap : getZ ((List.range g.n).map (fun u => (outDegree g u : Int))) v =
          (outDegree g v : Int) := by
        rw [getZ, List.getD_eq_getElem?_getD, List.getElem?_map, List.getElem?_range hvn]
        rfl
      have hdeg := outDegree_lt_of_uSimple g hg v hvn
      rw [hmap] at hle
      omega

/-- Concrete triangle graph used as a witness input. -/
def triTable : List (List Nat) := [[1, 2], [0, 2], [0, 1]]

/-- C9, witness: the theorem applied to the triangle with epsilon = -0.5. -/
theorem coreApprox_progress_and_total_witness :
    (coreApprox (tableGraph triTable) (-1/2)).getD 0 (-1) ≠ -1 :=
  (coreApprox_progress_and_total (tableGraph triTable)
    (tableGraph_uSimple triTable (by decide)) (-1/2)).2 0 (by decide)

/-! ### Directionalization (src/builder.h and Ordering::Directionalize)

`DirectGraphByFunc` keeps edge u to v iff filter(u,v) and sorts each new
out-adjacency ascending; both ordering branches instantiate the filter with a
strict total order on vertices, which is what makes the result acyclic. -/

/-- `BuilderBase::GreaterDegreeOrID`: v beats u on (degree, id). -/
def greaterDegreeOrID (g : GraphM) (u v : Nat) : Bool :=
  decide (outDegree g u < outDegree g v) ||
    (decide (outDegree g v = outDegree g u) && decide (u < v))

/-- `BuilderBase::DirectGraphByFunc`. -/
def directGraphByFunc (g : GraphM) (f : Nat → Nat → Bool) : GraphM :=
  ⟨g.n, fun u =>
    if u < g.n then ((g.adj u).filter (f u)).mergeSort (fun a b => decide (a ≤ b)) else []⟩

/-- `BuilderBase::DirectGraphDegree`. -/
def directGraphDegree (g : GraphM) : GraphM :=
  directGraphByFunc g (fun u v => greaterDegreeOrID g u v)

/-- `BuilderBase::DirectGraphCore`: rank first, then (degree, id) on ties. -/
def directGraphCore (g : GraphM) (ranking : List Int) : GraphM :=
  directGraphByFunc g (fun u v =>
    decide (getZ ranking u < getZ ranking v) ||
      (decide (getZ ranking u = getZ ranking v) && greaterDegreeOrID g u v))

/-- `Ordering::Directionalize` with the published epsilon = -0.5. -/
def directionalize (g : GraphM) : GraphM :=
  if coreIsAdvantageous g then directGraphCore g (coreApprox g (-1/2))
  else directGraphDegree g

/-- A filter that is a strict total order on vertex ids. -/
structure StrictFilter (f : Nat → Nat → Bool) : Prop where
  irrefl : ∀ u, f u u = false
  trans : ∀ u v w, f u v = true → f v w = true → f u w = true
  total : ∀ u v, u ≠ v → f u v = true ∨ f v u = true

theorem greaterDegreeOrID_strict (g : GraphM) :
    StrictFilter (fun u v => greaterDegreeOrID g u v) := by
  constructor
  · intro u
    simp [greaterDegreeOrID]
  · intro u v w h1 h2
    simp only [greaterDegreeOrID, Bool.or_eq_true, Bool.and_eq_true, decide_eq_true_eq]
      at h1 h2 ⊢
    omega
  · intro u v huv
    simp only [greaterDegreeOrID, Bool.or_eq_true, Bool.and_eq_true, decide_eq_true_eq]
    rcases Nat.lt_or_ge u v with h | h
    · omega
    · omega

theorem rankThenDeg_strict (g : GraphM) (r : Nat → Int) :
    StrictFilter (fun u v =>
      decide (r u < r v) || (decide (r u = r v) && greaterDegreeOrID g u v)) := by
  have hd := greaterDegreeOrID_strict g
  constructor
  · intro u
    simp [(hd.irrefl u)]
  · intro u v w h1 h2
    simp only [Bool.or_eq_true, Bool.and_eq_true, decide_eq_true_eq] at h1 h2 ⊢
    rcases h1 with h1 | ⟨h1e, h1d⟩ <;> rcases h2 with h2 | ⟨h2e, h2d⟩
    · left; omega
    · left; omega
    · left; omega
    · right; exact ⟨by omega, hd.trans u v w h1d h2d⟩
  · intro u v huv
    rcases lt_trichotomy (r u) (r v) with h | h | h
    · left; simp [h]
    · rcases hd.total u v huv with hf | hf
      · left
        simp only [Bool.or_eq_true, Bool.and_eq_true, decide_eq_true_eq]
        exact Or.inr ⟨h, hf⟩
      · right
        simp only [Bool.or_eq_true, Bool.and_eq_true, decide_eq_true_eq]
        exact Or.inr ⟨h.symm, hf⟩
    · right; simp [h]

theorem mem_directGraphByFunc (g : GraphM) (f : Nat → Nat → Bool) (u v : Nat) :
    (v ∈ (directGraphByFunc g f).adj u) ↔ u < g.n ∧ v ∈ g.adj u ∧ f u v = true := by
  show (v ∈ if u < g.n then _ else []) ↔ _
  by_cases hu : u < g.n
  · rw [if_pos hu]
    rw [List.Perm.mem_iff (List.mergeSort_perm _ _), List.mem_filter]
    tauto
  · rw [if_neg hu]
    simp [hu]

theorem directGraphByFunc_sorted (g : GraphM) (hg : USimple g) (f : Nat → Nat → Bool)
    (u : Nat) : ((directGraphByFunc g f).adj u).Pairwise (· < ·) := by
  show List.Pairwise _ (if u < g.n then _ else [])
  by_cases hu : u < g.n
  · rw [if_pos hu]
    have hsons : List.Pairwise (fun a b => decide (a ≤ b) = true)
        (((g.adj u).filter (f u)).mergeSort (fun a b => decide (a ≤ b))) := by
      refine List.sorted_mergeSort ?_ ?_ _
      · intro a b c hab hbc
        simp only [decide_eq_true_eq] at *
        omega
      · intro a b
        simp only [Bool.or_eq_true, decide_eq_true_eq]
        omega
    have hnd : (((g.adj u).filter (f u)).mergeSort (fun a b => decide (a ≤ b))).Nodup := by
      rw [List.Perm.nodup_iff (List.mergeSort_perm _ _)]
      exact List.Nodup.filter _ ((hg.sorted u).imp (fun h => Nat.ne_of_lt h))
    have hle : List.Sorted (· ≤ ·)
        (((g.adj u).filter (f u)).mergeSort (fun a b => decide (a ≤ b))) := by
      refine hsons.imp ?_
      intro a b h
      simpa using h
    exact List.Sorted.lt_of_le hle hnd
  · rw [if_neg hu]
    exact List.Pairwise.nil

theorem directGraphByFunc_no_self (g : GraphM) (f : Nat → Nat → Bool)
    (hf : StrictFilter f) (u : Nat) : u ∉ (directGraphByFunc g f).adj u := by
  intro hmem
  rw [mem_directGraphByFunc] at hmem
  rw [hf.irrefl u] at hmem
  exact Bool.false_ne_true hmem.2.2

theorem directGraphByFunc_acyclic (g : GraphM) (f : Nat → Nat → Bool)
    (hf : StrictFilter f) (u : Nat) :
    ¬ Relation.TransGen (fun a b => b ∈ (directGraphByFunc g f).adj a) u u := by
  intro hcyc
  have hsub : ∀ a b, (b ∈ (directGraphByFunc g f).adj a) → f a b = true := by
    intro a b h
    exact ((mem_directGraphByFunc g f a b).mp h).2.2
  have htrans : Transitive (fun a b => f a b = true) := fun a b c => hf.trans a b c
  have hmono := Relation.TransGen.mono hsub hcyc
  rw [Relation.transGen_eq_self htrans] at hmono
  rw [hf.irrefl u] at hmono
  exact Bool.false_ne_true hmono

/-- C6: after Directionalize (either ordering branch), every out-adjacency is
strictly ascending (hence duplicate-free) with no self-loop, and the directed
graph has no cycle. -/
theorem directionalize_no_cycle_sorted (g : GraphM) (hg : USimple g) :
    (∀ u, ((directionalize g).adj u).Pairwise (· < ·) ∧ u ∉ (directionalize g).adj u) ∧
      ∀ u, ¬ Relation.TransGen (fun a b => b ∈ (directionalize g).adj a) u u := by
  rw [directionalize]
  by_cases hb : coreIsAdvantageous g = true
  · rw [if_pos hb]
    have hf := rankThenDeg_strict g (getZ (coreApprox g (-1/2)))
    exact ⟨fun u => ⟨directGraphByFunc_sorted g hg _ u, directGraphByFunc_no_self g _ hf u⟩,
      fun u => directGraphByFunc_acyclic g _ hf u⟩
  · rw [if_neg hb]
    have hf := greaterDegreeOrID_strict g
    exact ⟨fun u => ⟨directGraphByFunc_sorted g hg _ u, directGraphByFunc_no_self g _ hf u⟩,
      fun u => directGraphByFunc_acyclic g _ hf u⟩

/-- C6, witness: the theorem applied to the triangle graph at vertex 0. -/
theorem directionalize_no_cycle_sorted_witness :
    ((directionalize (tableGraph triTable)).adj 0).Pairwise (· < ·) ∧
      0 ∉ (directionalize (tableGraph triTable)).adj 0 :=
  (directionalize_no_cycle_sorted (tableGraph triTable)
    (tableGraph_uSimple triTable (by decide))).1 0

/-! ### Grouped stack (src/grouped_stack.h)

The backing store is `elems` plus a vector `starts` of frame starting
offsets, exactly as in the source; `reserve` is a capacity hint with no
observable effect and is not modelled. -/

structure GroupedStack where
  elems : List Nat
  starts : List Nat
deriving DecidableEq

/-- A cleared stack (`clear()` and the initial state). -/
def GroupedStack.empty : GroupedStack := ⟨[], []⟩

/-- `create_new_frame()`: record the current top as a new frame start. -/
def createNewFrame (s : GroupedStack) : GroupedStack :=
  ⟨s.elems, s.starts ++ [s.elems.length]⟩

/-- `push_back(x)`: append to the current frame. -/
def pushBack (s : GroupedStack) (x : Nat) : GroupedStack :=
  ⟨s.elems ++ [x], s.starts⟩

/-- `last_frame_iter()`: view of the elements from the last start on
(`starts_.back()` on an empty frame vector is undefined; modelled as 0). -/
def lastFrameIter (s : GroupedStack) : List Nat :=
  s.elems.drop (s.starts.getLastD 0)

/-- `pop_frame()`: shrink back to the last start and drop it. -/
def popFrame (s : GroupedStack) : GroupedStack :=
  ⟨s.elems.take (s.starts.getLastD 0), s.starts.dropLast⟩

/-- The frames of a grouped stack, top frame first. -/
def framesOfAux : List Nat → List Nat → List (List Nat)
  | _, [] => []
  | elems, st :: rest => elems.drop st :: framesOfAux (elems.take st) rest

/-- Frames of the stack, top first. -/
def framesOf (s : GroupedStack) : List (List Nat) :=
  framesOfAux s.elems s.starts.reverse

/-! ### SubGraph (src/subgraph.h)

State record and the five mutating operations.  The imperative loops are
embedded as structurally recursive functions whose fuel argument is the
loop variant at entry, so that all definitions compute by reduction. -/

structure SubGraph where
  active : List Bool
  activeList : List Nat
  adjList : List (List Nat)
  activeTails : List Nat
  droppedVerts : GroupedStack
  pivotNonNeighs : GroupedStack
deriving DecidableEq

/-- `Neighs(u)`: the active prefix `adj[u][0 .. tail[u])`. -/
def neighsOf (s : SubGraph) (u : Nat) : List Nat :=
  (getL s.adjList u).take (getN s.activeTails u)

/-- `NumActive()`. -/
def numActive (s : SubGraph) : Nat := s.activeList.length

/-- `FindPivot()`: first active vertex of maximal tail. -/
def findPivot (s : SubGraph) : Nat :=
  s.activeList.foldl
    (fun m n => if getN s.activeTails m < getN s.activeTails n then n else m)
    (s.activeList.headD 0)

/-- `ActiveUnreachableFromPivot(u)`: push a frame, clear the bitmap on
Neighs(u), then walk the active list pushing still-set vertices and
restoring cleared ones. -/
def activeUnreachableFromPivot (s : SubGraph) (u : Nat) : SubGraph :=
  let act1 := clearAll s.active (neighsOf s u)
  let p := s.activeList.foldl
    (fun (p : List Bool × GroupedStack) n =>
      if getB p.1 n then (p.1, pushBack p.2 n) else (p.1.set n true, p.2))
    (act1, createNewFrame s.pivotNonNeighs)
  { s with active := p.1, pivotNonNeighs := p.2 }

/-- Exclusion-list pass of `InduceFromSelfMutate`: clear bits of excluded
vertices with smaller local id than the induced vertex. -/
def exclClear (act : List Bool) (u : Nat) (excl : List Nat) : List Bool :=
  excl.foldl (fun a n => if n < u then a.set n false else a) act

/-- Inner while loop of the neighbour-list compaction: scan downward from
position t for the first active entry not below j. -/
def findActive (act : List Bool) (adjn : List Nat) (j : Nat) : Nat → Nat
  | 0 => 0
  | t + 1 =>
    if j < t + 1 ∧ getB act (getN adjn (t + 1)) = false then findActive act adjn j t
    else t + 1

/-- The two-pointer compaction loop over one neighbour list: j scans forward,
inactive entries are swapped back to a shrinking tail.  The fuel is the loop
variant t - j at entry. -/
def compactGo (act : List Bool) : Nat → List Nat → Nat → Nat → List Nat × Nat
  | 0, adjn, t, _ => (adjn, t)
  | fuel + 1, adjn, t, j =>
    if j < t then
      if getB act (getN adjn j) then compactGo act fuel adjn t (j + 1)
      else
        compactGo act fuel
          (if j < findActive act adjn j (t - 1) then
            (adjn.set j (getN adjn (findActive act adjn j (t - 1)))).set
              (findActive act adjn j (t - 1)) (getN adjn j)
          else adjn)
          (findActive act adjn j (t - 1)) (j + 1)
    else (adjn, t)

/-- Compact one neighbour list against the new bitmap. -/
def compact (act : List Bool) (adjn : List Nat) (t : Nat) : List Nat × Nat :=
  compactGo act t adjn t 0

/-- `swap(active_list_[i], active_list_.back()); active_list_.pop_back()`. -/
def removeSwap (l : List Nat) (i : Nat) : List Nat :=
  (l.set i (l.getLastD 0)).dropLast

/-- Main loop of `InduceFromSelfMutate`: walk the active list; compact
still-active vertices, swap-remove deactivated ones onto the dropped frame
(the i-- of the source is the recursive call at the same i).  The fuel is
the loop variant (length - i) at entry. -/
def mutateGo (act : List Bool) :
    Nat → Nat → List Nat → List (List Nat) → List Nat → GroupedStack →
      List Nat × List (List Nat) × List Nat × GroupedStack
  | 0, _, alist, adj, tails, drp => (alist, adj, tails, drp)
  | fuel + 1, i, alist, adj, tails, drp =>
    if i < alist.length then
      if getB act (getN alist i) then
        mutateGo act fuel (i + 1) alist
          (adj.set (getN alist i)
            (compact act (getL adj (getN alist i)) (getN tails (getN alist i))).1)
          (tails.set (getN alist i)
            (compact act (getL adj (getN alist i)) (getN tails (getN alist i))).2)
          drp
      else
        mutateGo act fuel i (removeSwap alist i) adj tails (pushBack drp (getN alist i))
    else (alist, adj, tails, drp)

/-- `InduceFromSelfMutate(u, excl)`. -/
def induceFromSelfMutate (s : SubGraph) (u : Nat) (excl : List Nat) : SubGraph :=
  let act1 := clearAll s.active s.activeList
  let act2 := setAll act1 (neighsOf s u)
  let act3 := exclClear act2 u excl
  let m := mutateGo act3 s.activeList.length 0 s.activeList s.adjList s.activeTails
    (createNewFrame s.droppedVerts)
  { active := act3, activeList := m.1, adjList := m.2.1, activeTails := m.2.2.1,
    droppedVerts := m.2.2.2, pivotNonNeighs := s.pivotNonNeighs }

/-- Inner while loop of `UndoSelfMutate`: extend a tail forward over the
suffix of the neighbour list while its entries are active. -/
def extendGo (act : List Bool) : List Nat → Nat → Nat
  | [], t => t
  | v :: rest, t => if getB act v then extendGo act rest (t + 1) else t

/-- Extend tail t of one neighbour list while entries are active. -/
def extendT (act : List Bool) (adjn : List Nat) (t : Nat) : Nat :=
  extendGo act (adjn.drop t) t

/-- `UndoSelfMutate()`: re-activate the last dropped frame, append it to the
active list, pop the frame, then extend every active tail. -/
def undoSelfMutate (s : SubGraph) : SubGraph :=
  let frame := lastFrameIter s.droppedVerts
  let act2 := setAll s.active frame
  let al2 := s.activeList ++ frame
  let tails2 := al2.foldl
    (fun t u => t.set u (extendT act2 (getL s.adjList u) (getN t u))) s.activeTails
  { s with
    active := act2, activeList := al2, activeTails := tails2,
    droppedVerts := popFrame s.droppedVerts }

/-- `PopNonNeighbors()`. -/
def popNonNeighbors (s : SubGraph) : SubGraph :=
  { s with pivotNonNeighs := popFrame s.pivotNonNeighs }

/-- `InduceFromDAG(dag, u)`: local ids are positions in `dag.out_neigh(u)`
(the remapper inserts them in order, so the id of v is its index); the local
adjacency adds each DAG edge between two out-neighbours in both directions.
The remapper requires distinct out-neighbours, which the theorems assume of
the DAG. -/
def induceFromDAG (dag : GraphM) (u : Nat) : SubGraph :=
  let nbrs := dag.adj u
  let d := nbrs.length
  let adj1 := nbrs.foldl
    (fun acc v =>
      (dag.adj v).foldl
        (fun acc2 w =>
          if w ∈ nbrs then
            let vr := nbrs.indexOf v
            let wr := nbrs.indexOf w
            let acc3 := acc2.set vr (getL acc2 vr ++ [wr])
            acc3.set wr (getL acc3 wr ++ [vr])
          else acc2)
        acc)
    (List.replicate d [])
  { active := List.replicate d true,
    activeList := List.range d,
    adjList := adj1,
    activeTails := adj1.map (fun l => l.length),
    droppedVerts := GroupedStack.empty,
    pivotNonNeighs := GroupedStack.empty }

/-! ### List and stack lemmas for the SubGraph proofs -/

theorem getN_eq_getElem (l : List Nat) (n : Nat) (h : n < l.length) : getN l n = l[n] :=
  List.getD_eq_getElem l 0 h

theorem getN_take_of_lt (l : List Nat) (t j : Nat) (hj : j < t) :
    getN (l.take t) j = getN l j := by
  by_cases h : j < l.length
  · have hjt : j < (l.take t).length := by
      rw [List.length_take]
      omega
    rw [getN_eq_getElem _ _ hjt, getN_eq_getElem _ _ h, List.getElem_take]
  · have h2 : ¬ j < (l.take t).length := by
      rw [List.length_take]
      omega
    rw [getN, getN, List.getD_eq_getElem?_getD, List.getD_eq_getElem?_getD,
      List.getElem?_eq_none (by omega), List.getElem?_eq_none (by omega)]

theorem drop_ext (l1 l2 : List Nat) (c : Nat) (hlen : l1.length = l2.length)
    (h : ∀ m, c ≤ m → m < l1.length → getN l1 m = getN l2 m) :
    l1.drop c = l2.drop c := by
  apply List.ext_getElem
  · simp [hlen]
  · intro m h1 h2
    rw [List.getElem_drop, List.getElem_drop]
    have hm : c + m < l1.length := by
      simp at h1
      omega
    rw [← getN_eq_getElem _ _ hm, ← getN_eq_getElem _ _ (by omega), h (c + m) (by omega) hm]

theorem cons_getD_set_perm (t : List Nat) (k x : Nat) (hk : k < t.length) :
    ((t.getD k 0) :: (t.set k x)).Perm (x :: t) := by
  induction t generalizing k with
  | nil => simp at hk
  | cons y t ih =>
    match k with
    | 0 => exact List.Perm.swap x y t
    | k + 1 =>
      have hk2 : k < t.length := by simpa using hk
      have s1 : ((y :: t).getD (k + 1) 0) :: ((y :: t).set (k + 1) x)
          = (t.getD k 0) :: y :: (t.set k x) := rfl
      rw [s1]
      exact ((List.Perm.swap y (t.getD k 0) (t.set k x)).trans
        (List.Perm.cons y (ih k hk2))).trans (List.Perm.swap x y t)

theorem set_set_perm (l : List Nat) (i j : Nat) (hij : i < j) (hj : j < l.length) :
    ((l.set i (l.getD j 0)).set j (l.getD i 0)).Perm l := by
  induction l generalizing i j with
  | nil => simp at hj
  | cons a t ih =>
    match i, j with
    | 0, k + 1 =>
      have hk : k < t.length := by simpa using hj
      show ((t.getD k 0) :: (t.set k a)).Perm (a :: t)
      exact cons_getD_set_perm t k a hk
    | i + 1, j + 1 =>
      have hj2 : j < t.length := by simpa using hj
      show (a :: ((t.set i (t.getD j 0)).set j (t.getD i 0))).Perm (a :: t)
      exact List.Perm.cons a (ih i j (by omega) hj2)

theorem take_of_set (l : List Nat) (t i : Nat) (a : Nat) :
    (l.set i a).take t = (l.take t).set i a :=
  List.set_take

theorem swap_take_perm (l : List Nat) (i j t : Nat) (hij : i < j) (hjt : j < t)
    (ht : t ≤ l.length) :
    (((l.set i (l.getD j 0)).set j (l.getD i 0)).take t).Perm (l.take t) := by
  have hlen : j < (l.take t).length := by
    rw [List.length_take]
    omega
  rw [take_of_set, take_of_set]
  have e1 : l.getD j 0 = (l.take t).getD j 0 := (getN_take_of_lt l t j hjt).symm
  have e2 : l.getD i 0 = (l.take t).getD i 0 := (getN_take_of_lt l t i (by omega)).symm
  rw [show ((l.take t).set i (l.getD j 0)).set j (l.getD i 0)
      = ((l.take t).set i ((l.take t).getD j 0)).set j ((l.take t).getD i 0) by
    rw [← e1, ← e2]]
  exact set_set_perm (l.take t) i j hij hlen

theorem removeSwap_length (l : List Nat) (i : Nat) (h : i < l.length) :
    (removeSwap l i).length = l.length - 1 := by
  rw [removeSwap, List.length_dropLast, List.length_set]

theorem set_append_len (A : List Nat) (n v : Nat) (B : List Nat) :
    (A ++ n :: B).set A.length v = A ++ v :: B := by
  induction A with
  | nil => rfl
  | cons a A ih => simpa using ih

theorem concat_decomp (A : List Nat) (n : Nat) (B : List Nat) (hb : B ≠ []) :
    A ++ n :: B = (A ++ n :: B.dropLast) ++ [B.getLast hb] := by
  conv_lhs => rw [← List.dropLast_append_getLast hb]
  simp

theorem removeSwap_concat_nil (A : List Nat) (n : Nat) :
    removeSwap (A ++ [n]) A.length = A := by
  rw [removeSwap, List.getLastD_concat, set_append_len, List.dropLast_concat]

theorem removeSwap_concat (A : List Nat) (n : Nat) (B : List Nat) (hb : B ≠ []) :
    removeSwap (A ++ n :: B) A.length = A ++ (B.getLast hb) :: B.dropLast := by
  have hgl : (A ++ n :: B).getLastD 0 = B.getLast hb := by
    rw [concat_decomp A n B hb, List.getLastD_concat]
  rw [removeSwap, hgl, set_append_len]
  rw [concat_decomp A (B.getLast hb) B hb, List.dropLast_concat]

theorem exists_decomp (l : List Nat) (i : Nat) (h : i < l.length) :
    ∃ A n B, l = A ++ n :: B ∧ A.length = i := by
  refine ⟨l.take i, l[i], l.drop (i + 1), ?_, ?_⟩
  · conv_lhs => rw [← List.take_append_drop i l]
    rw [List.drop_eq_getElem_cons h]
  · rw [List.length_take]
    omega

theorem removeSwap_take (l : List Nat) (i : Nat) (h : i < l.length) :
    (removeSwap l i).take i = l.take i := by
  obtain ⟨A, n, B, rfl, rfl⟩ := exists_decomp l i h
  by_cases hb : B = []
  · subst hb
    rw [removeSwap_concat_nil, List.take_left, List.take_length]
  · rw [removeSwap_concat A n B hb, List.take_left, List.take_left]

theorem removeSwap_drop_perm (l : List Nat) (i : Nat) (h : i < l.length) :
    ((removeSwap l i).drop i).Perm (l.drop (i + 1)) := by
  obtain ⟨A, n, B, rfl, rfl⟩ := exists_decomp l i h
  have hdrop : (A ++ n :: B).drop (A.length + 1) = B := by
    rw [show A.length + 1 = (A ++ [n]).length by simp, show A ++ n :: B = (A ++ [n]) ++ B by simp,
      List.drop_left]
  rw [hdrop]
  by_cases hb : B = []
  · subst hb
    rw [removeSwap_concat_nil, List.drop_eq_nil_of_le le_rfl]
  · rw [removeSwap_concat A n B hb, List.drop_left]
    have h1 : (B.dropLast ++ [B.getLast hb]).Perm ((B.getLast hb) :: B.dropLast) :=
      List.perm_append_singleton _ _
    have h2 : B.dropLast ++ [B.getLast hb] = B := List.dropLast_append_getLast hb
    exact (h2 ▸ h1).symm

theorem removeSwap_perm (l : List Nat) (i : Nat) (h : i < l.length) :
    (removeSwap l i).Perm (l.take i ++ l.drop (i + 1)) := by
  conv_lhs => rw [← List.take_append_drop i (removeSwap l i)]
  rw [removeSwap_take l i h]
  exact List.Perm.append_left _ (removeSwap_drop_perm l i h)

/-! Stack bookkeeping lemmas. -/

theorem framesOf_push_new (e ds st : List Nat) :
    framesOf ⟨e ++ ds, st ++ [e.length]⟩ = ds :: framesOf ⟨e, st⟩ := by
  rw [framesOf, framesOf, List.reverse_append, List.reverse_singleton, List.singleton_append,
    framesOfAux, List.drop_left, List.take_left]

theorem popFrame_push_new (e ds st : List Nat) :
    popFrame ⟨e ++ ds, st ++ [e.length]⟩ = ⟨e, st⟩ := by
  rw [popFrame, List.getLastD_concat, List.take_left, List.dropLast_concat]

theorem lastFrameIter_push_new (e ds st : List Nat) :
    lastFrameIter ⟨e ++ ds, st ++ [e.length]⟩ = ds := by
  rw [lastFrameIter, List.getLastD_concat, List.drop_left]

theorem framesOf_length (s : GroupedStack) : (framesOf s).length = s.starts.length := by
  rw [framesOf, ← List.length_reverse s.starts]
  generalize s.starts.reverse = r
  generalize s.elems = e
  induction r generalizing e with
  | nil => rfl
  | cons x r ih =>
    rw [framesOfAux]
    simp [ih (e.take x)]

theorem framesOf_pop (s : GroupedStack) (D : List Nat) (rest : List (List Nat))
    (h : framesOf s = D :: rest) :
    framesOf (popFrame s) = rest ∧ lastFrameIter s = D := by
  match hs : s.starts.reverse with
  | [] =>
    rw [framesOf, hs] at h
    cases h
  | le :: r2 =>
    have hst : s.starts = r2.reverse ++ [le] := by
      rw [← List.reverse_reverse s.starts, hs]
      simp
    have hgl : s.starts.getLastD 0 = le := by
      rw [hst, List.getLastD_concat]
    rw [framesOf, hs, framesOfAux] at h
    obtain ⟨hD, hrest⟩ := List.cons.inj h
    constructor
    · have he : popFrame s = ⟨s.elems.take le, r2.reverse⟩ := by
        rw [popFrame, hgl, hst, List.dropLast_concat]
      rw [he, framesOf, List.reverse_reverse]
      exact hrest
    · rw [lastFrameIter, hgl, hD]

/-! Bitmap phase characterizations. -/

theorem exclClear_length (act : List Bool) (u : Nat) (excl : List Nat) :
    (exclClear act u excl).length = act.length := by
  induction excl generalizing act with
  | nil => rfl
  | cons x xs ih =>
    rw [exclClear, List.foldl_cons, ← exclClear]
    by_cases hx : x < u
    · rw [if_pos hx, ih, List.length_set]
    · rw [if_neg hx, ih]

theorem getB_exclClear (act : List Bool) (u : Nat) (excl : List Nat) (i : Nat) :
    getB (exclClear act u excl) i =
      if (i ∈ excl ∧ i < u) ∧ i < act.length then false else getB act i := by
  induction excl generalizing act with
  | nil => simp [exclClear]
  | cons x xs ih =>
    rw [exclClear, List.foldl_cons, ← exclClear]
    by_cases hx : x < u
    · rw [if_pos hx, ih, List.length_set, getB_set]
      by_cases hxi : x = i
      · subst hxi
        by_cases hlen : x < act.length <;> by_cases hmem : x ∈ xs <;> simp_all
      · have hix : ¬ i = x := fun hh => hxi hh.symm
        by_cases hlen : i < act.length <;> by_cases hmem : i ∈ xs <;>
          by_cases hiu : i < u <;> simp_all
    · rw [if_neg hx, ih]
      by_cases hxi : x = i
      · subst hxi
        by_cases hlen : x < act.length <;> by_cases hmem : x ∈ xs <;> simp_all
      · have hix : ¬ i = x := fun hh => hxi hh.symm
        by_cases hlen : i < act.length <;> by_cases hmem : i ∈ xs <;>
          by_cases hiu : i < u <;> simp_all

/-! Tail extension lemmas. -/

theorem extendT_step (act : List Bool) (adjn : List Nat) (t : Nat) :
    extendT act adjn t =
      if t < adjn.length then
        (if getB act (getN adjn t) then extendT act adjn (t + 1) else t)
      else t := by
  by_cases ht : t < adjn.length
  · rw [if_pos ht, extendT, List.drop_eq_getElem_cons ht, extendGo, ← getN_eq_getElem _ _ ht]
    by_cases ha : getB act (getN adjn t)
    · rw [if_pos ha, if_pos ha, extendT]
    · rw [if_neg ha, if_neg ha]
  · rw [if_neg ht, extendT, List.drop_eq_nil_of_le (by omega), extendGo]

theorem extendT_eq (act : List Bool) (adjn : List Nat) (t T : Nat)
    (htT : t ≤ T) (hT : T ≤ adjn.length)
    (hact : ∀ m, t ≤ m → m < T → getB act (getN adjn m) = true)
    (hstop : T = adjn.length ∨ getB act (getN adjn T) = false) :
    extendT act adjn t = T := by
  have hgen : ∀ k t, t ≤ T → T - t ≤ k →
      (∀ m, t ≤ m → m < T → getB act (getN adjn m) = true) →
      extendT act adjn t = T := by
    intro k
    induction k with
    | zero =>
      intro t ht1 ht2 _
      have : t = T := by omega
      subst this
      rw [extendT_step]
      rcases hstop with h | h
      · rw [if_neg (by omega)]
      · rw [h]
        split <;> simp
    | succ k ih =>
      intro t ht1 ht2 hact2
      by_cases hTt : t = T
      · exact ih t (by omega) (by omega) hact2
      · rw [extendT_step, if_pos (by omega), hact2 t le_rfl (by omega), if_pos rfl]
        exact ih (t + 1) (by omega) (by omega) (fun m h1 h2 => hact2 m (by omega) h2)
  exact hgen (T - t) t htT le_rfl hact

/-- The extension read through a bitmap agrees with the extension read through
a predicate that matches it on all list entries. -/
theorem extendT_congr (act1 act2 : List Bool) (adjn : List Nat) (t : Nat)
    (h : ∀ v ∈ adjn, getB act1 v = getB act2 v) :
    extendT act1 adjn t = extendT act2 adjn t := by
  have hgen : ∀ k t, adjn.length - t ≤ k → extendT act1 adjn t = extendT act2 adjn t := by
    intro k
    induction k with
    | zero =>
      intro t ht
      rw [extendT_step, if_neg (by omega), extendT_step, if_neg (by omega)]
    | succ k ih =>
      intro t ht
      by_cases hlt : t < adjn.length
      · rw [extendT_step, if_pos hlt]
        conv_rhs => rw [extendT_step, if_pos hlt]
        have hmem : getN adjn t ∈ adjn := by
          rw [getN_eq_getElem _ _ hlt]
          exact List.getElem_mem hlt
        rw [h _ hmem]
        by_cases ha : getB act2 (getN adjn t)
        · rw [if_pos ha, if_pos ha]
          exact ih (t + 1) (by omega)
        · rw [if_neg ha, if_neg ha]
      · rw [extendT_step, if_neg hlt, extendT_step, if_neg hlt]
  exact hgen (adjn.length - t) t le_rfl

/-- Extension only reads the suffix of the neighbour list from t on. -/
theorem extendT_drop_congr (act : List Bool) (l1 l2 : List Nat) (t : Nat)
    (h : l1.drop t = l2.drop t) : extendT act l1 t = extendT act l2 t := by
  rw [extendT, extendT, h]

theorem extendT_ge (act : List Bool) (adjn : List Nat) (t : Nat) :
    t ≤ extendT act adjn t := by
  have hgen : ∀ k t, adjn.length - t ≤ k → t ≤ extendT act adjn t := by
    intro k
    induction k with
    | zero =>
      intro t ht
      rw [extendT_step, if_neg (by omega)]
    | succ k ih =>
      intro t ht
      rw [extendT_step]
      by_cases hlt : t < adjn.length
      · rw [if_pos hlt]
        by_cases ha : getB act (getN adjn t)
        · rw [if_pos ha]
          have := ih (t + 1) (by omega)
          omega
        · rw [if_neg ha]
      · rw [if_neg hlt]
  exact hgen (adjn.length - t) t le_rfl

/-! The tail-extension fold of `UndoSelfMutate`, pointwise. -/

theorem tailsFold_length (adj : List (List Nat)) (act : List Bool) (l : List Nat)
    (tails : List Nat) :
    (l.foldl (fun t u => t.set u (extendT act (getL adj u) (getN t u))) tails).length =
      tails.length := by
  induction l generalizing tails with
  | nil => rfl
  | cons x xs ih => simpa using ih (tails.set x (extendT act (getL adj x) (getN tails x)))

theorem tailsFold_getN (adj : List (List Nat)) (act : List Bool) (l : List Nat)
    (hnd : l.Nodup) (tails : List Nat) (x : Nat) :
    getN (l.foldl (fun t u => t.set u (extendT act (getL adj u) (getN t u))) tails) x =
      if x ∈ l ∧ x < tails.length then extendT act (getL adj x) (getN tails x)
      else getN tails x := by
  induction l generalizing tails with
  | nil => simp
  | cons u l ih =>
    rw [List.foldl_cons]
    have hnd2 := (List.nodup_cons.mp hnd).2
    have hu : u ∉ l := (List.nodup_cons.mp hnd).1
    rw [ih hnd2]
    rw [List.length_set]
    by_cases hxu : x = u
    · subst hxu
      rw [if_neg (fun hc => hu hc.1)]
      rw [getN_set]
      by_cases hlen : x < tails.length
      · simp [hlen]
      · simp [hlen]
    · by_cases hmem : x ∈ l
      · by_cases hlen : x < tails.length
        · rw [if_pos ⟨hmem, hlen⟩, if_pos ⟨List.mem_cons_of_mem u hmem, hlen⟩]
          rw [getN_set, if_neg (fun hc => hxu hc.1.symm)]
        · rw [if_neg (fun hc => hlen hc.2), if_neg (fun hc => hlen hc.2)]
          rw [getN_set, if_neg (fun hc => hxu hc.1.symm)]
      · have hnm : ¬ (x ∈ u :: l) := by
          rw [List.mem_cons]
          rintro (h | h)
          · exact hxu h
          · exact hmem h
        rw [if_neg (fun hc => hmem hc.1), if_neg (fun hc => hnm hc.1)]
        rw [getN_set, if_neg (fun hc => hxu hc.1.symm)]

/-! The scan fold of `ActiveUnreachableFromPivot`. -/

theorem auFold_spec (l : List Nat) (hnd : l.Nodup) (act : List Bool) (pn : GroupedStack) :
    (∀ x, getB (l.foldl (fun (p : List Bool × GroupedStack) n =>
        if getB p.1 n then (p.1, pushBack p.2 n) else (p.1.set n true, p.2)) (act, pn)).1 x =
      if x ∈ l ∧ x < act.length ∧ getB act x = false then true else getB act x) ∧
    (l.foldl (fun (p : List Bool × GroupedStack) n =>
        if getB p.1 n then (p.1, pushBack p.2 n) else (p.1.set n true, p.2)) (act, pn)).2 =
      ⟨pn.elems ++ l.filter (fun n => getB act n), pn.starts⟩ := by
  induction l generalizing act pn with
  | nil =>
    refine ⟨fun x => by simp, ?_⟩
    simp
  | cons n l ih =>
    have hu : n ∉ l := (List.nodup_cons.mp hnd).1
    have hnd2 := (List.nodup_cons.mp hnd).2
    rw [List.foldl_cons]
    by_cases ha : getB act n
    · rw [if_pos ha]
      obtain ⟨ih1, ih2⟩ := ih hnd2 act (pushBack pn n)
      constructor
      · intro x
        rw [ih1 x]
        by_cases hxn : x = n
        · subst hxn
          simp [ha, hu]
        · have hnx : ¬ x = n := hxn
          by_cases hmem : x ∈ l <;> simp [hmem, hnx]
      · rw [ih2, pushBack, List.filter_cons, if_pos (by simpa using ha)]
        simp
    · rw [if_neg (by simpa using ha)]
      obtain ⟨ih1, ih2⟩ := ih hnd2 (act.set n true) pn
      constructor
      · intro x
        rw [ih1 x]
        rw [List.length_set, getB_set]
        by_cases hxn : x = n
        · subst hxn
          by_cases hlen : x < act.length
          · simp [hlen, ha, hu]
          · simp [hlen, ha, hu]
        · have hnx2 : ¬ n = x := fun hh => hxn hh.symm
          by_cases hmem : x ∈ l <;> by_cases hlen : x < act.length <;>
            simp [hmem, hxn, hnx2, hlen]
      · rw [ih2, List.filter_cons, if_neg (by simpa using ha)]
        congr 2
        apply List.filter_congr
        intro m hm
        rw [getB_set, if_neg ?_]
        intro hc
        exact hu (hc.1 ▸ hm)

/-! ### Compaction loop lemmas -/

theorem findActive_le (act : List Bool) (adjn : List Nat) (j : Nat) :
    ∀ t, j ≤ t → j ≤ findActive act adjn j t ∧ findActive act adjn j t ≤ t := by
  intro t
  induction t with
  | zero =>
    intro h
    rw [findActive]
    omega
  | succ t ih =>
    intro h
    rw [findActive]
    by_cases hc : j < t + 1 ∧ getB act (getN adjn (t + 1)) = false
    · rw [if_pos hc]
      have := ih (by omega)
      omega
    · rw [if_neg hc]
      omega

theorem findActive_stop (act : List Bool) (adjn : List Nat) (j : Nat) :
    ∀ t, j ≤ t → findActive act adjn j t = j ∨
      getB act (getN adjn (findActive act adjn j t)) = true := by
  intro t
  induction t with
  | zero =>
    intro h
    left
    rw [findActive]
    omega
  | succ t ih =>
    intro h
    rw [findActive]
    by_cases hc : j < t + 1 ∧ getB act (getN adjn (t + 1)) = false
    · rw [if_pos hc]
      exact ih (by omega)
    · rw [if_neg hc]
      push_neg at hc
      by_cases hj : j < t + 1
      · right
        simpa using hc hj
      · left
        omega

theorem findActive_above (act : List Bool) (adjn : List Nat) (j : Nat) :
    ∀ t m, findActive act adjn j t < m → m ≤ t → getB act (getN adjn m) = false := by
  intro t
  induction t with
  | zero =>
    intro m h1 h2
    omega
  | succ t ih =>
    intro m h1 h2
    rw [findActive] at h1
    by_cases hc : j < t + 1 ∧ getB act (getN adjn (t + 1)) = false
    · rw [if_pos hc] at h1
      by_cases hm : m ≤ t
      · exact ih m h1 hm
      · have he : m = t + 1 := by omega
        rw [he]
        exact hc.2
    · rw [if_neg hc] at h1
      omega

theorem getN_swap (l : List Nat) (i j m : Nat) (hij : i ≠ j) (hi : i < l.length)
    (hj : j < l.length) :
    getN ((l.set i (getN l j)).set j (getN l i)) m =
      if m = j then getN l i else if m = i then getN l j else getN l m := by
  rw [getN_set, List.length_set, getN_set]
  by_cases hmj : m = j
  · subst hmj
    simp [hj]
  · have hjm : ¬ j = m := fun hh => hmj hh.symm
    by_cases hmi : m = i
    · subst hmi
      simp [hi, hjm, hmj]
    · have him : ¬ i = m := fun hh => hmi hh.symm
      simp [hjm, hmj, him, hmi]

theorem compactGo_exit (act : List Bool) (fuel : Nat) (adjn : List Nat) (t j : Nat)
    (h : ¬ j < t) : compactGo act fuel adjn t j = (adjn, t) := by
  cases fuel with
  | zero => rw [compactGo]
  | succ fuel => rw [compactGo, if_neg h]

theorem compactGo_spec (act : List Bool) :
    ∀ (fuel : Nat) (adjn : List Nat) (t j : Nat),
      t - j ≤ fuel → t ≤ adjn.length →
      (∀ m, m < j → getB act (getN adjn m) = true) →
      ((compactGo act fuel adjn t j).1.length = adjn.length) ∧
      ((compactGo act fuel adjn t j).2 ≤ t) ∧
      (∀ m, m < j ∨ t ≤ m → getN (compactGo act fuel adjn t j).1 m = getN adjn m) ∧
      (((compactGo act fuel adjn t j).1.take t).Perm (adjn.take t)) ∧
      (∀ m, m < (compactGo act fuel adjn t j).2 →
        getB act (getN (compactGo act fuel adjn t j).1 m) = true) ∧
      (∀ m, (compactGo act fuel adjn t j).2 ≤ m → m < t →
        getB act (getN (compactGo act fuel adjn t j).1 m) = false) := by
  intro fuel
  induction fuel with
  | zero =>
    intro adjn t j hfuel hlen hpre
    rw [compactGo]
    exact ⟨rfl, le_rfl, fun m _ => rfl, List.Perm.refl _,
      fun m hm => hpre m (by omega), fun m h1 h2 => by omega⟩
  | succ fuel ih =>
    intro adjn t j hfuel hlen hpre
    by_cases hjt : j < t
    case neg =>
      rw [compactGo, if_neg hjt]
      exact ⟨rfl, le_rfl, fun m _ => rfl, List.Perm.refl _,
        fun m hm => hpre m (by omega), fun m h1 h2 => by omega⟩
    case pos =>
      rw [compactGo, if_pos hjt]
      by_cases hact : getB act (getN adjn j)
      · rw [if_pos hact]
        obtain ⟨c1, c2, c3, c4, c5, c6⟩ := ih adjn t (j + 1) (by omega) hlen
          (fun m hm => by
            rcases Nat.lt_or_ge m j with h | h
            · exact hpre m h
            · have he : m = j := by omega
              rw [he]
              exact hact)
        exact ⟨c1, c2, fun m hm => c3 m (by omega), c4, c5, c6⟩
      · rw [if_neg hact]
        have hfa := findActive_le act adjn j (t - 1) (by omega)
        set nt := findActive act adjn j (t - 1) with hnt
        by_cases hj : j < nt
        case neg =>
          have hnj : nt = j := by omega
          rw [if_neg hj, hnj, compactGo_exit act fuel adjn j (j + 1) (by omega)]
          refine ⟨rfl, by omega, fun m _ => rfl, List.Perm.refl _,
            fun m hm => hpre m (by omega), ?_⟩
          intro m h1 h2
          rcases Nat.lt_or_ge j m with h | h
          · exact findActive_above act adjn j (t - 1) m (by omega) (by omega)
          · have he : m = j := by omega
            rw [he]
            simpa using hact
        case pos =>
          rw [if_pos hj]
          have hswact : getB act (getN adjn nt) = true := by
            rcases findActive_stop act adjn j (t - 1) (by omega) with h | h
            · omega
            · exact h
          have hjlen : j < adjn.length := by omega
          have hntlen : nt < adjn.length := by omega
          have hget : ∀ m, getN ((adjn.set j (getN adjn nt)).set nt (getN adjn j)) m =
              if m = nt then getN adjn j else if m = j then getN adjn nt else getN adjn m :=
            fun m => getN_swap adjn j nt m (by omega) hjlen hntlen
          have hlen2 : ((adjn.set j (getN adjn nt)).set nt (getN adjn j)).length =
              adjn.length := by
            rw [List.length_set, List.length_set]
          obtain ⟨c1, c2, c3, c4, c5, c6⟩ :=
            ih ((adjn.set j (getN adjn nt)).set nt (getN adjn j)) nt (j + 1)
              (by omega) (by omega)
              (fun m hm => by
                rw [hget m]
                rcases Nat.lt_or_ge m j with h | h
                · rw [if_neg (by omega), if_neg (by omega)]
                  exact hpre m h
                · have he : m = j := by omega
                  rw [he, if_neg (by omega), if_pos rfl]
                  exact hswact)
          refine ⟨by rw [c1, hlen2], by omega, ?_, ?_, c5, ?_⟩
          · intro m hm
            have := c3 m (by omega)
            rw [this, hget m, if_neg (by omega), if_neg (by omega)]
          · have hdropeq :
                (compactGo act fuel ((adjn.set j (getN adjn nt)).set nt (getN adjn j))
                  nt (j + 1)).1.drop nt =
                ((adjn.set j (getN adjn nt)).set nt (getN adjn j)).drop nt := by
              apply drop_ext _ _ nt (by rw [c1])
              intro m h1 h2
              exact c3 m (Or.inr h1)
            have htsplit : t = nt + (t - nt) := by omega
            have e1 : (compactGo act fuel ((adjn.set j (getN adjn nt)).set nt
                (getN adjn j)) nt (j + 1)).1.take t =
                (compactGo act fuel ((adjn.set j (getN adjn nt)).set nt
                  (getN adjn j)) nt (j + 1)).1.take nt ++
                (((adjn.set j (getN adjn nt)).set nt (getN adjn j)).drop nt).take (t - nt) := by
              conv_lhs => rw [htsplit]
              rw [List.take_add, hdropeq]
            have e2 : ((adjn.set j (getN adjn nt)).set nt (getN adjn j)).take t =
                ((adjn.set j (getN adjn nt)).set nt (getN adjn j)).take nt ++
                (((adjn.set j (getN adjn nt)).set nt (getN adjn j)).drop nt).take (t - nt) := by
              conv_lhs => rw [htsplit]
              rw [List.take_add]
            have hp1 : ((compactGo act fuel ((adjn.set j (getN adjn nt)).set nt
                (getN adjn j)) nt (j + 1)).1.take t).Perm
                (((adjn.set j (getN adjn nt)).set nt (getN adjn j)).take t) := by
              rw [e1, e2]
              exact List.Perm.append c4 (List.Perm.refl _)
            have hp2 : (((adjn.set j (getN adjn nt)).set nt (getN adjn j)).take t).Perm
                (adjn.take t) := by
              have := swap_take_perm adjn j nt t hj (by omega) hlen
              simpa [getN] using this
            exact hp1.trans hp2
          · intro m h1 h2
            rcases Nat.lt_or_ge m nt with h | h
            · exact c6 m h1 h
            · have hm2 := c3 m (Or.inr h)
              rw [hm2, hget m]
              rcases Nat.lt_or_ge nt m with h3 | h3
              · rw [if_neg (by omega), if_neg (by omega)]
                exact findActive_above act adjn j (t - 1) m (by omega) (by omega)
              · have he : m = nt := by omega
                rw [if_pos he]
                simpa using hact

theorem compact_spec (act : List Bool) (adjn : List Nat) (t : Nat) (hlen : t ≤ adjn.length) :
    (compact act adjn t).1.length = adjn.length ∧
    (compact act adjn t).2 ≤ t ∧
    (∀ m, t ≤ m → getN (compact act adjn t).1 m = getN adjn m) ∧
    ((compact act adjn t).1.take t).Perm (adjn.take t) ∧
    (∀ m, m < (compact act adjn t).2 → getB act (getN (compact act adjn t).1 m) = true) ∧
    (∀ m, (compact act adjn t).2 ≤ m → m < t →
      getB act (getN (compact act adjn t).1 m) = false) := by
  obtain ⟨c1, c2, c3, c4, c5, c6⟩ :=
    compactGo_spec act t adjn t 0 (by omega) hlen (fun m hm => by omega)
  exact ⟨c1, c2, fun m hm => c3 m (Or.inr hm), c4, c5, c6⟩

/-! ### Main induce loop lemmas -/

theorem mutateGo_exit (act : List Bool) (fuel i : Nat) (alist : List Nat)
    (adj : List (List Nat)) (tails : List Nat) (drp : GroupedStack)
    (h : ¬ i < alist.length) :
    mutateGo act fuel i alist adj tails drp = (alist, adj, tails, drp) := by
  cases fuel with
  | zero => rw [mutateGo]
  | succ fuel => rw [mutateGo, if_neg h]

theorem mutateGo_spec (act : List Bool) :
    ∀ (fuel i : Nat) (alist : List Nat) (adj : List (List Nat)) (tails : List Nat)
      (drp : GroupedStack),
      alist.length - i ≤ fuel →
      alist.Nodup →
      (∀ n ∈ alist, n < adj.length ∧ n < tails.length) →
      ((mutateGo act fuel i alist adj tails drp).1.Perm
        (alist.take i ++ (alist.drop i).filter (fun n => getB act n))) ∧
      (∃ ds, (mutateGo act fuel i alist adj tails drp).2.2.2.elems = drp.elems ++ ds ∧
        (mutateGo act fuel i alist adj tails drp).2.2.2.starts = drp.starts ∧
        ds.Perm ((alist.drop i).filter (fun n => getB act n = false))) ∧
      ((mutateGo act fuel i alist adj tails drp).2.1.length = adj.length) ∧
      ((mutateGo act fuel i alist adj tails drp).2.2.1.length = tails.length) ∧
      (∀ n, n ∈ alist.drop i → getB act n = true →
        getL (mutateGo act fuel i alist adj tails drp).2.1 n =
          (compact act (getL adj n) (getN tails n)).1 ∧
        getN (mutateGo act fuel i alist adj tails drp).2.2.1 n =
          (compact act (getL adj n) (getN tails n)).2) ∧
      (∀ n, (n ∉ alist.drop i ∨ getB act n = false) →
        getL (mutateGo act fuel i alist adj tails drp).2.1 n = getL adj n ∧
        getN (mutateGo act fuel i alist adj tails drp).2.2.1 n = getN tails n) := by
  intro fuel
  induction fuel with
  | zero =>
    intro i alist adj tails drp hfuel hnd hbnd
    have hge : ¬ i < alist.length := by omega
    rw [mutateGo_exit act 0 i alist adj tails drp hge]
    have hdrop : alist.drop i = [] := List.drop_eq_nil_of_le (by omega)
    rw [hdrop]
    refine ⟨?_, ⟨[], by simp, rfl, by simp⟩, rfl, rfl, ?_, ?_⟩
    · rw [List.take_of_length_le (by omega)]
      simp
    · intro n hn
      exact absurd hn (List.not_mem_nil n)
    · intro n hcond
      exact ⟨rfl, rfl⟩
  | succ fuel ih =>
    intro i alist adj tails drp hfuel hnd hbnd
    by_cases hlt : i < alist.length
    case neg =>
      rw [mutateGo_exit act (fuel + 1) i alist adj tails drp hlt]
      have hdrop : alist.drop i = [] := List.drop_eq_nil_of_le (by omega)
      rw [hdrop]
      refine ⟨?_, ⟨[], by simp, rfl, by simp⟩, rfl, rfl, ?_, ?_⟩
      · rw [List.take_of_length_le (by omega)]
        simp
      · intro n hn
        exact absurd hn (List.not_mem_nil n)
      · intro n hcond
        exact ⟨rfl, rfl⟩
    case pos =>
      have hdropc : alist.drop i = getN alist i :: alist.drop (i + 1) := by
        rw [List.drop_eq_getElem_cons hlt, getN_eq_getElem alist i hlt]
      have hmemi : getN alist i ∈ alist := by
        rw [getN_eq_getElem alist i hlt]
        exact List.getElem_mem hlt
      have hndd : (alist.drop i).Nodup := List.Nodup.sublist (List.drop_sublist i alist) hnd
      have hni : getN alist i ∉ alist.drop (i + 1) := by
        rw [hdropc] at hndd
        exact (List.nodup_cons.mp hndd).1
      rw [mutateGo, if_pos hlt]
      by_cases hact : getB act (getN alist i)
      case pos =>
        rw [if_pos hact]
        have hbnd2 : ∀ n ∈ alist,
            n < (adj.set (getN alist i)
              (compact act (getL adj (getN alist i)) (getN tails (getN alist i))).1).length ∧
            n < (tails.set (getN alist i)
              (compact act (getL adj (getN alist i)) (getN tails (getN alist i))).2).length := by
          intro n hn
          rw [List.length_set, List.length_set]
          exact hbnd n hn
        obtain ⟨m1, m2, m3, m4, m5, m6⟩ := ih (i + 1) alist _ _ drp (by omega) hnd hbnd2
        have htk : alist.take (i + 1) = alist.take i ++ [getN alist i] := by
          rw [List.take_succ, List.getElem?_eq_getElem hlt]
          rw [getN_eq_getElem alist i hlt]
          rfl
        have hfl : (alist.drop i).filter (fun n => getB act n) =
            getN alist i :: (alist.drop (i + 1)).filter (fun n => getB act n) := by
          rw [hdropc, List.filter_cons, if_pos (by simpa using hact)]
        have hfl2 : (alist.drop i).filter (fun n => getB act n = false) =
            (alist.drop (i + 1)).filter (fun n => getB act n = false) := by
          rw [hdropc, List.filter_cons, if_neg (by simp [hact])]
        have hglset : getL (adj.set (getN alist i)
            (compact act (getL adj (getN alist i)) (getN tails (getN alist i))).1)
            (getN alist i) =
            (compact act (getL adj (getN alist i)) (getN tails (getN alist i))).1 := by
          rw [getL_set, if_pos ⟨rfl, (hbnd _ hmemi).1⟩]
        have hgnset : getN (tails.set (getN alist i)
            (compact act (getL adj (getN alist i)) (getN tails (getN alist i))).2)
            (getN alist i) =
            (compact act (getL adj (getN alist i)) (getN tails (getN alist i))).2 := by
          rw [getN_set, if_pos ⟨rfl, (hbnd _ hmemi).2⟩]
        refine ⟨?_, ?_, ?_, ?_, ?_, ?_⟩
        · refine m1.trans ?_
          rw [htk, hfl, List.append_assoc, List.singleton_append]
        · obtain ⟨ds, h1, h2, h3⟩ := m2
          exact ⟨ds, h1, h2, by rw [hfl2]; exact h3⟩
        · rw [m3, List.length_set]
        · rw [m4, List.length_set]
        · intro n hn ha
          rw [hdropc] at hn
          rcases List.mem_cons.mp hn with he | hn2
          · rw [he]
            have h6 := m6 (getN alist i) (Or.inl hni)
            rw [h6.1, h6.2, hglset, hgnset]
            exact ⟨rfl, rfl⟩
          · have hne : n ≠ getN alist i := by
              intro he
              rw [he] at hn2
              exact hni hn2
            have := m5 n hn2 ha
            rw [this.1, this.2, getL_set, getN_set, if_neg (fun hc => hne hc.1.symm),
              if_neg (fun hc => hne hc.1.symm)]
            exact ⟨rfl, rfl⟩
        · intro n hcond
          have hcond2 : n ∉ alist.drop (i + 1) ∨ getB act n = false := by
            rcases hcond with h | h
            · left
              intro hc
              apply h
              rw [hdropc]
              exact List.mem_cons_of_mem _ hc
            · right
              exact h
          have := m6 n hcond2
          have hne : ¬ (getN alist i = n) := by
            intro he
            rcases hcond with h | h
            · apply h
              rw [hdropc, ← he]
              exact List.mem_cons_self _ _
            · rw [← he] at h
              rw [hact] at h
              cases h
          rw [this.1, this.2, getL_set, getN_set, if_neg (fun hc => hne hc.1),
            if_neg (fun hc => hne hc.1)]
          exact ⟨rfl, rfl⟩
      case neg =>
        rw [if_neg hact]
        have hrsl : (removeSwap alist i).length = alist.length - 1 :=
          removeSwap_length alist i hlt
        have hrsp : (removeSwap alist i).Perm (alist.take i ++ alist.drop (i + 1)) :=
          removeSwap_perm alist i hlt
        have hsub : (alist.take i ++ alist.drop (i + 1)).Sublist alist := by
          conv_rhs => rw [← List.take_append_drop i alist]
          rw [hdropc]
          exact List.Sublist.append_left (List.sublist_cons_self _ _) _
        have hndr : (removeSwap alist i).Nodup :=
          (List.Perm.nodup_iff hrsp).mpr (List.Nodup.sublist hsub hnd)
        have hbndr : ∀ n ∈ removeSwap alist i, n < adj.length ∧ n < tails.length := by
          intro n hn
          exact hbnd n (hsub.mem ((List.Perm.mem_iff hrsp).mp hn))
        obtain ⟨m1, m2, m3, m4, m5, m6⟩ :=
          ih i (removeSwap alist i) adj tails (pushBack drp (getN alist i))
            (by omega) hndr hbndr
        have hdrp : ((removeSwap alist i).drop i).Perm (alist.drop (i + 1)) :=
          removeSwap_drop_perm alist i hlt
        have hfl : (alist.drop i).filter (fun n => getB act n) =
            (alist.drop (i + 1)).filter (fun n => getB act n) := by
          rw [hdropc, List.filter_cons, if_neg (by simp [hact])]
        have hfl2 : (alist.drop i).filter (fun n => getB act n = false) =
            getN alist i :: (alist.drop (i + 1)).filter (fun n => getB act n = false) := by
          rw [hdropc, List.filter_cons, if_pos (by simp [hact])]
        refine ⟨?_, ?_, m3, m4, ?_, ?_⟩
        · rw [hfl]
          refine m1.trans ?_
          rw [removeSwap_take alist i hlt]
          exact List.Perm.append_left _ (List.Perm.filter _ hdrp)
        · obtain ⟨ds, h1, h2, h3⟩ := m2
          refine ⟨getN alist i :: ds, ?_, h2, ?_⟩
          · rw [h1, pushBack]
            simp
          · rw [hfl2]
            exact List.Perm.cons _ (h3.trans (List.Perm.filter _ hdrp))
        · intro n hn ha
          rw [hdropc] at hn
          rcases List.mem_cons.mp hn with he | hn2
          · rw [he] at ha
            exact absurd ha hact
          · exact m5 n ((List.Perm.mem_iff hdrp).mpr hn2) ha
        · intro n hcond
          refine m6 n ?_
          rcases hcond with h | h
          · left
            intro hc
            apply h
            rw [hdropc]
            exact List.mem_cons_of_mem _ ((List.Perm.mem_iff hdrp).mp hc)
          · right
            exact h

/-! ### Predicate-based tail extension (used to state the frame invariants) -/

/-- Tail extension driven by a membership predicate instead of a bitmap. -/
def extendGoP (q : Nat → Bool) : List Nat → Nat → Nat
  | [], t => t
  | v :: rest, t => if q v then extendGoP q rest (t + 1) else t

/-- Predicate version of `extendT`. -/
def extendTP (q : Nat → Bool) (adjn : List Nat) (t : Nat) : Nat :=
  extendGoP q (adjn.drop t) t

theorem extendGo_eq_extendGoP (act : List Bool) (q : Nat → Bool) (l : List Nat) (t : Nat)
    (h : ∀ v ∈ l, getB act v = q v) : extendGo act l t = extendGoP q l t := by
  induction l generalizing t with
  | nil => rfl
  | cons v rest ih =>
    rw [extendGo, extendGoP, h v (List.mem_cons_self v rest)]
    by_cases hq : q v
    · rw [if_pos hq, if_pos hq, ih (t + 1) (fun w hw => h w (List.mem_cons_of_mem v hw))]
    · rw [if_neg hq, if_neg hq]

theorem extendT_eq_extendTP (act : List Bool) (q : Nat → Bool) (adjn : List Nat) (t : Nat)
    (h : ∀ v ∈ adjn, getB act v = q v) : extendT act adjn t = extendTP q adjn t :=
  extendGo_eq_extendGoP act q (adjn.drop t) t (fun v hv => h v (List.mem_of_mem_drop hv))

theorem extendTP_step (q : Nat → Bool) (adjn : List Nat) (t : Nat) :
    extendTP q adjn t =
      if t < adjn.length then
        (if q (getN adjn t) then extendTP q adjn (t + 1) else t)
      else t := by
  by_cases ht : t < adjn.length
  · rw [if_pos ht, extendTP, List.drop_eq_getElem_cons ht, extendGoP, ← getN_eq_getElem _ _ ht]
    by_cases hq : q (getN adjn t)
    · rw [if_pos hq, if_pos hq, extendTP]
    · rw [if_neg hq, if_neg hq]
  · rw [if_neg ht, extendTP, List.drop_eq_nil_of_le (by omega), extendGoP]

theorem extendTP_eq (q : Nat → Bool) (adjn : List Nat) (t T : Nat)
    (htT : t ≤ T) (hT : T ≤ adjn.length)
    (hact : ∀ m, t ≤ m → m < T → q (getN adjn m) = true)
    (hstop : T = adjn.length ∨ q (getN adjn T) = false) :
    extendTP q adjn t = T := by
  have hgen : ∀ k t, t ≤ T → T - t ≤ k →
      (∀ m, t ≤ m → m < T → q (getN adjn m) = true) →
      extendTP q adjn t = T := by
    intro k
    induction k with
    | zero =>
      intro t ht1 ht2 _
      have he : t = T := by omega
      subst he
      rw [extendTP_step]
      rcases hstop with h | h
      · rw [if_neg (by omega)]
      · rw [h]
        split <;> simp
    | succ k ih =>
      intro t ht1 ht2 hact2
      by_cases hTt : t = T
      · exact ih t (by omega) (by omega) hact2
      · rw [extendTP_step, if_pos (by omega), hact2 t le_rfl (by omega), if_pos rfl]
        exact ih (t + 1) (by omega) (by omega) (fun m h1 h2 => hact2 m (by omega) h2)
  exact hgen (T - t) t htT le_rfl hact

theorem extendTP_ge (q : Nat → Bool) (adjn : List Nat) (t : Nat) :
    t ≤ extendTP q adjn t := by
  have hgen : ∀ k t, adjn.length - t ≤ k → t ≤ extendTP q adjn t := by
    intro k
    induction k with
    | zero =>
      intro t ht
      rw [extendTP_step, if_neg (by omega)]
    | succ k ih =>
      intro t ht
      rw [extendTP_step]
      by_cases hlt : t < adjn.length
      · rw [if_pos hlt]
        by_cases hq : q (getN adjn t)
        · rw [if_pos hq]
          have := ih (t + 1) (by omega)
          omega
        · rw [if_neg hq]
      · rw [if_neg hlt]
  exact hgen (adjn.length - t) t le_rfl

theorem extendTP_le (q : Nat → Bool) (adjn : List Nat) (t : Nat) (ht : t ≤ adjn.length) :
    extendTP q adjn t ≤ adjn.length := by
  have hgen : ∀ k t, t ≤ adjn.length → adjn.length - t ≤ k →
      extendTP q adjn t ≤ adjn.length := by
    intro k
    induction k with
    | zero =>
      intro t h1 h2
      rw [extendTP_step, if_neg (by omega)]
      omega
    | succ k ih =>
      intro t h1 h2
      rw [extendTP_step]
      by_cases hlt : t < adjn.length
      · rw [if_pos hlt]
        by_cases hq : q (getN adjn t)
        · rw [if_pos hq]
          exact ih (t + 1) (by omega) (by omega)
        · rw [if_neg hq]
          omega
      · rw [if_neg hlt]
        omega
  exact hgen (adjn.length - t) t ht le_rfl

theorem extendTP_mid (q : Nat → Bool) (adjn : List Nat) (t : Nat) :
    ∀ m, t ≤ m → m < extendTP q adjn t → q (getN adjn m) = true := by
  have hgen : ∀ k t, adjn.length - t ≤ k → ∀ m, t ≤ m → m < extendTP q adjn t →
      q (getN adjn m) = true := by
    intro k
    induction k with
    | zero =>
      intro t ht m h1 h2
      rw [extendTP_step, if_neg (by omega)] at h2
      omega
    | succ k ih =>
      intro t ht m h1 h2
      rw [extendTP_step] at h2
      by_cases hlt : t < adjn.length
      · rw [if_pos hlt] at h2
        by_cases hq : q (getN adjn t)
        · rw [if_pos hq] at h2
          by_cases hm : m = t
          · rw [hm]
            exact hq
          · exact ih (t + 1) (by omega) m (by omega) h2
        · rw [if_neg hq] at h2
          omega
      · rw [if_neg hlt] at h2
        omega
  exact hgen (adjn.length - t) t le_rfl

theorem extendTP_congr (q1 q2 : Nat → Bool) (adjn : List Nat) (t : Nat)
    (h : ∀ v ∈ adjn, q1 v = q2 v) : extendTP q1 adjn t = extendTP q2 adjn t := by
  rw [extendTP, extendTP]
  have hgen : ∀ (l : List Nat) t, (∀ v ∈ l, q1 v = q2 v) →
      extendGoP q1 l t = extendGoP q2 l t := by
    intro l
    induction l with
    | nil => intro t _; rfl
    | cons v rest ih =>
      intro t hvs
      rw [extendGoP, extendGoP, hvs v (List.mem_cons_self v rest)]
      by_cases hq : q2 v
      · rw [if_pos hq, if_pos hq, ih (t + 1) (fun w hw => hvs w (List.mem_cons_of_mem v hw))]
      · rw [if_neg hq, if_neg hq]
  exact hgen (adjn.drop t) t (fun v hv => h v (List.mem_of_mem_drop hv))

theorem extendTP_drop_congr (q : Nat → Bool) (l1 l2 : List Nat) (t : Nat)
    (h : l1.drop t = l2.drop t) : extendTP q l1 t = extendTP q l2 t := by
  rw [extendTP, extendTP, h]

/-! ### Well-formedness of a SubGraph state -/

/-- Invariants of the current level of a SubGraph: the bitmap matches the
active list, each active tail partitions its neighbour list into active
entries then inactive entries, and the local adjacency is in-range,
loop-free and symmetric. -/
structure WF (s : SubGraph) : Prop where
  len_adj : s.adjList.length = s.active.length
  len_tails : s.activeTails.length = s.active.length
  nodupA : s.activeList.Nodup
  memA_lt : ∀ n ∈ s.activeList, n < s.active.length
  bitmap : ∀ n, getB s.active n = true ↔ n ∈ s.activeList
  tails_le : ∀ n ∈ s.activeList, getN s.activeTails n ≤ (getL s.adjList n).length
  headActive : ∀ n ∈ s.activeList, ∀ m, m < getN s.activeTails n →
    getN (getL s.adjList n) m ∈ s.activeList
  tailInactive : ∀ n ∈ s.activeList, ∀ m, getN s.activeTails n ≤ m →
    m < (getL s.adjList n).length → getN (getL s.adjList n) m ∉ s.activeList
  adj_lt : ∀ n, ∀ v ∈ getL s.adjList n, v < s.active.length
  no_self : ∀ n, n ∉ getL s.adjList n
  symm : ∀ n v, v ∈ getL s.adjList n → n ∈ getL s.adjList v

/-- Membership predicate of the union of two vertex lists. -/
def QB (P D : List Nat) : Nat → Bool := fun x => decide (x ∈ P) || decide (x ∈ D)

/-- Invariant of one dropped frame D relative to the current candidate list P
and current tails: D is disjoint from P, each dropped vertex keeps a frozen
partition of its neighbour list relative to P together with D, and each still-active
vertex has nothing of P together with D beyond the point its tail will extend to
on undo. -/
def frameSpec (adj : List (List Nat)) (len : Nat) (P D : List Nat) (tf : Nat → Nat) :
    Prop :=
  D.Nodup ∧
  (∀ n ∈ D, n < len ∧ n ∉ P ∧ tf n ≤ (getL adj n).length ∧
    (∀ m, m < tf n → QB P D (getN (getL adj n) m) = true) ∧
    (∀ m, tf n ≤ m → m < (getL adj n).length → QB P D (getN (getL adj n) m) = false)) ∧
  (∀ n ∈ P, ∀ m, extendTP (QB P D) (getL adj n) (tf n) ≤ m →
    m < (getL adj n).length → QB P D (getN (getL adj n) m) = false)

/-- Invariant of the whole dropped stack, top frame first: each frame is
coherent with the state obtained by undoing the frames above it. -/
def framesOK (adj : List (List Nat)) (len : Nat) :
    List Nat → (Nat → Nat) → List (List Nat) → Prop
  | _, _, [] => True
  | P, tf, D :: rest =>
    frameSpec adj len P D tf ∧
    framesOK adj len (P ++ D)
      (fun n => if n ∈ P ++ D then extendTP (QB P D) (getL adj n) (tf n) else tf n) rest

/-- Full coherence: current-level well-formedness plus the dropped-stack
invariant. -/
def Coherent (s : SubGraph) : Prop :=
  WF s ∧ framesOK s.adjList s.active.length s.activeList
    (fun n => getN s.activeTails n) (framesOf s.droppedVerts)

theorem QB_congr (P1 P2 D1 D2 : List Nat) (hP : ∀ x, x ∈ P1 ↔ x ∈ P2)
    (hD : ∀ x, x ∈ D1 ↔ x ∈ D2) : QB P1 D1 = QB P2 D2 := by
  funext x
  rw [QB, QB]
  by_cases h1 : x ∈ P1 <;> by_cases h2 : x ∈ D1 <;>
    simp [h1, h2, (hP x).symm, (hD x).symm, hP x, hD x]

theorem frameSpec_congr (adj : List (List Nat)) (len : Nat) (P1 P2 D : List Nat)
    (tf1 tf2 : Nat → Nat) (hP : ∀ x, x ∈ P1 ↔ x ∈ P2) (htf : ∀ n, tf1 n = tf2 n)
    (h : frameSpec adj len P1 D tf1) : frameSpec adj len P2 D tf2 := by
  obtain ⟨h1, h2, h3⟩ := h
  have hq : QB P1 D = QB P2 D := QB_congr P1 P2 D D hP (fun x => Iff.rfl)
  refine ⟨h1, ?_, ?_⟩
  · intro n hn
    obtain ⟨b1, b2, b3, b4, b5⟩ := h2 n hn
    refine ⟨b1, fun hc => b2 ((hP n).mpr hc), ?_, ?_, ?_⟩
    · rw [← htf n]
      exact b3
    · intro m hm
      rw [← hq]
      exact b4 m (by rw [htf n]; exact hm)
    · intro m hm1 hm2
      rw [← hq]
      exact b5 m (by rw [htf n]; exact hm1) hm2
  · intro n hn m hm1 hm2
    rw [← hq]
    refine h3 n ((hP n).mpr hn) m ?_ hm2
    rw [htf n, hq]
    exact hm1


theorem framesOK_congr (adj : List (List Nat)) (len : Nat) (fr : List (List Nat)) :
    ∀ (P1 P2 : List Nat) (tf1 tf2 : Nat → Nat),
      (∀ x, x ∈ P1 ↔ x ∈ P2) → (∀ n, tf1 n = tf2 n) →
      framesOK adj len P1 tf1 fr → framesOK adj len P2 tf2 fr := by
  induction fr with
  | nil =>
    intro _ _ _ _ _ _ _
    trivial
  | cons D rest ih =>
    intro P1 P2 tf1 tf2 hP htf h
    obtain ⟨h1, h2⟩ := h
    refine ⟨frameSpec_congr adj len P1 P2 D tf1 tf2 hP htf h1, ?_⟩
    refine ih (P1 ++ D) (P2 ++ D) _ _ ?_ ?_ h2
    · intro x
      simp [hP x]
    · intro n
      have hqe : QB P1 D = QB P2 D := QB_congr _ _ _ _ hP (fun _ => Iff.rfl)
      have hm : (n ∈ P1 ++ D) ↔ (n ∈ P2 ++ D) := by simp [hP n]
      by_cases hmem : n ∈ P1 ++ D
      · rw [if_pos hmem, if_pos (hm.mp hmem), hqe, htf n]
      · rw [if_neg hmem, if_neg (fun hc => hmem (hm.mpr hc)), htf n]

theorem framesOK_adj_congr (len : Nat) (fr : List (List Nat)) :
    ∀ (adj1 adj2 : List (List Nat)) (P : List Nat) (tf : Nat → Nat),
      (∀ n, (getL adj2 n).length = (getL adj1 n).length) →
      (∀ n, n ∈ P → ∀ m, tf n ≤ m → getN (getL adj2 n) m = getN (getL adj1 n) m) →
      (∀ n, n ∉ P → getL adj2 n = getL adj1 n) →
      framesOK adj1 len P tf fr → framesOK adj2 len P tf fr := by
  induction fr with
  | nil =>
    intro _ _ _ _ _ _ _ _
    trivial
  | cons D rest ih =>
    intro adj1 adj2 P tf hlen hup hout h
    obtain ⟨⟨f1, f2, f3⟩, h2⟩ := h
    have hdropeq : ∀ n ∈ P, (getL adj2 n).drop (tf n) = (getL adj1 n).drop (tf n) :=
      fun n hn => drop_ext _ _ (tf n) (hlen n) (fun m hm1 hm2 => hup n hn m hm1)
    have hext : ∀ n ∈ P, extendTP (QB P D) (getL adj2 n) (tf n) =
        extendTP (QB P D) (getL adj1 n) (tf n) :=
      fun n hn => extendTP_drop_congr _ _ _ _ (hdropeq n hn)
    constructor
    · refine ⟨f1, ?_, ?_⟩
      · intro n hn
        obtain ⟨b1, b2, b3, b4, b5⟩ := f2 n hn
        rw [hout n b2]
        exact ⟨b1, b2, b3, b4, b5⟩
      · intro n hn m hm1 hm2
        rw [hext n hn] at hm1
        have hge : tf n ≤ m := le_trans (extendTP_ge _ _ _) hm1
        rw [hup n hn m hge]
        exact f3 n hn m hm1 (by rw [← hlen n]; exact hm2)
    · have hih := ih adj1 adj2 (P ++ D)
        (fun n => if n ∈ P ++ D then extendTP (QB P D) (getL adj1 n) (tf n) else tf n)
        hlen ?_ ?_ h2
      · refine framesOK_congr adj2 len rest (P ++ D) (P ++ D) _ _ (fun x => Iff.rfl) ?_ hih
        intro n
        by_cases hmem : n ∈ P ++ D
        · rw [if_pos hmem, if_pos hmem]
          rcases List.mem_append.mp hmem with hp | hd
          · exact (hext n hp).symm
          · rw [hout n (f2 n hd).2.1]
        · rw [if_neg hmem, if_neg hmem]
      · intro n hn m hm
        have hm2 : (if n ∈ P ++ D then extendTP (QB P D) (getL adj1 n) (tf n) else tf n) ≤ m :=
          hm
        rcases List.mem_append.mp hn with hp | hd
        · rw [if_pos hn] at hm2
          have hge : tf n ≤ m := le_trans (extendTP_ge _ _ _) hm2
          exact hup n hp m hge
        · rw [hout n (f2 n hd).2.1]
      · intro n hn
        have hnp : n ∉ P := fun hc => hn (List.mem_append.mpr (Or.inl hc))
        exact hout n hnp

theorem ext_getB (l1 l2 : List Bool) (hlen : l1.length = l2.length)
    (h : ∀ i, getB l1 i = getB l2 i) : l1 = l2 := by
  apply List.ext_getElem hlen
  intro i h1 h2
  have := h i
  rw [getB, getB, List.getD_eq_getElem _ _ h1, List.getD_eq_getElem _ _ h2] at this
  exact this

theorem ext_getN (l1 l2 : List Nat) (hlen : l1.length = l2.length)
    (h : ∀ i, getN l1 i = getN l2 i) : l1 = l2 := by
  apply List.ext_getElem hlen
  intro i h1 h2
  have := h i
  rw [getN, getN, List.getD_eq_getElem _ _ h1, List.getD_eq_getElem _ _ h2] at this
  exact this

theorem mem_take_iff (l : List Nat) (t v : Nat) :
    v ∈ l.take t ↔ ∃ m, m < t ∧ m < l.length ∧ getN l m = v := by
  constructor
  · intro h
    obtain ⟨i, hi, he⟩ := List.mem_iff_getElem.mp h
    have hlen : i < t ∧ i < l.length := by
      have := hi
      rw [List.length_take] at this
      omega
    refine ⟨i, hlen.1, hlen.2, ?_⟩
    rw [getN_eq_getElem _ _ hlen.2, ← he, List.getElem_take]
  · rintro ⟨m, h1, h2, h3⟩
    rw [← h3, getN_eq_getElem _ _ h2]
    apply List.mem_iff_getElem.mpr
    refine ⟨m, ?_, ?_⟩
    · rw [List.length_take]
      omega
    · rw [List.getElem_take]

theorem neighs_subset (s : SubGraph) (hWF : WF s) (n : Nat) (hn : n ∈ s.activeList) :
    ∀ v ∈ neighsOf s n, v ∈ s.activeList := by
  intro v hv
  rw [neighsOf, mem_take_iff] at hv
  obtain ⟨m, h1, h2, h3⟩ := hv
  rw [← h3]
  exact hWF.headActive n hn m h1

theorem WF_transfer (s1 s2 : SubGraph) (h1 : s2.active = s1.active)
    (h2 : s2.activeList = s1.activeList) (h3 : s2.adjList = s1.adjList)
    (h4 : s2.activeTails = s1.activeTails) (hWF : WF s1) : WF s2 := by
  obtain ⟨w1, w2, w3, w4, w5, w6, w7, w8, w9, w10, w11⟩ := hWF
  exact ⟨by rw [h1, h3]; exact w1, by rw [h1, h4]; exact w2, by rw [h2]; exact w3,
    by rw [h1, h2]; exact w4, by rw [h1, h2]; exact w5, by rw [h2, h3, h4]; exact w6,
    by rw [h2, h3, h4]; exact w7, by rw [h2, h3, h4]; exact w8, by rw [h1, h3]; exact w9,
    by rw [h3]; exact w10, by rw [h3]; exact w11⟩

theorem coherent_transfer (s1 s2 : SubGraph) (h1 : s2.active = s1.active)
    (h2 : s2.activeList = s1.activeList) (h3 : s2.adjList = s1.adjList)
    (h4 : s2.activeTails = s1.activeTails) (h5 : s2.droppedVerts = s1.droppedVerts)
    (hC : Coherent s1) : Coherent s2 := by
  refine ⟨WF_transfer s1 s2 h1 h2 h3 h4 hC.1, ?_⟩
  rw [h1, h2, h3, h4, h5]
  exact hC.2

theorem activeUnreachable_spec (s : SubGraph) (hWF : WF s) (p : Nat)
    (hp : p ∈ s.activeList) :
    (activeUnreachableFromPivot s p).active = s.active ∧
    (activeUnreachableFromPivot s p).pivotNonNeighs =
      ⟨s.pivotNonNeighs.elems ++ s.activeList.filter (fun n => decide (n ∉ neighsOf s p)),
        s.pivotNonNeighs.starts ++ [s.pivotNonNeighs.elems.length]⟩ := by
  obtain ⟨hbm, hstack⟩ := auFold_spec s.activeList hWF.nodupA
    (clearAll s.active (neighsOf s p)) (createNewFrame s.pivotNonNeighs)
  have hact1 : ∀ n, getB (clearAll s.active (neighsOf s p)) n =
      if n ∈ neighsOf s p ∧ n < s.active.length then false else getB s.active n :=
    fun n => getB_clearAll s.active (neighsOf s p) n
  have hlen1 : (clearAll s.active (neighsOf s p)).length = s.active.length :=
    clearAll_length _ _
  refine ⟨?_, ?_⟩
  · have hgoal : (s.activeList.foldl (fun (p : List Bool × GroupedStack) n =>
        if getB p.1 n then (p.1, pushBack p.2 n) else (p.1.set n true, p.2))
        ((clearAll s.active (neighsOf s p)), createNewFrame s.pivotNonNeighs)).1 =
        s.active := by
      apply ext_getB
      · have hfl : ((s.activeList.foldl (fun (p : List Bool × GroupedStack) n =>
            if getB p.1 n then (p.1, pushBack p.2 n) else (p.1.set n true, p.2))
            ((clearAll s.active (neighsOf s p)), createNewFrame s.pivotNonNeighs)).1).length =
            (clearAll s.active (neighsOf s p)).length := by
          generalize hq : (clearAll s.active (neighsOf s p), createNewFrame s.pivotNonNeighs) = q
          have hql : q.1.length = (clearAll s.active (neighsOf s p)).length := by
            rw [← hq]
          clear hq hbm hstack
          induction s.activeList generalizing q with
          | nil => exact hql
          | cons x xs ih =>
            rw [List.foldl_cons]
            by_cases hb : getB q.1 x
            · rw [if_pos hb]
              exact ih (q.1, pushBack q.2 x) hql
            · rw [if_neg hb]
              refine ih (q.1.set x true, q.2) ?_
              rw [List.length_set]
              exact hql
        rw [hfl, hlen1]
      · intro i
        rw [hbm i, hact1 i, hlen1]
        by_cases hmem : i ∈ s.activeList
        · have hiact : getB s.active i = true := (hWF.bitmap i).mpr hmem
          by_cases hin : i ∈ neighsOf s p ∧ i < s.active.length
          · simp [hmem, hin, hiact]
          · simp [hmem, hin, hiact]
        · have hiact : getB s.active i = false := by
            by_cases hb : getB s.active i
            · exact absurd ((hWF.bitmap i).mp hb) hmem
            · simpa using hb
          have hnin : i ∉ neighsOf s p := by
            intro hc
            exact hmem (neighs_subset s hWF p hp i hc)
          simp [hmem, hnin, hiact]
    exact hgoal
  · have hfe : s.activeList.filter (fun n => getB (clearAll s.active (neighsOf s p)) n) =
        s.activeList.filter (fun n => decide (n ∉ neighsOf s p)) := by
      apply List.filter_congr
      intro n hn
      rw [hact1 n]
      have hiact : getB s.active n = true := (hWF.bitmap n).mpr hn
      by_cases hin : n ∈ neighsOf s p
      · simp [hin, hWF.memA_lt n hn, hiact]
      · simp [hin, hiact]
    have hgoal : (s.activeList.foldl (fun (p : List Bool × GroupedStack) n =>
        if getB p.1 n then (p.1, pushBack p.2 n) else (p.1.set n true, p.2))
        ((clearAll s.active (neighsOf s p)), createNewFrame s.pivotNonNeighs)).2 =
        (⟨s.pivotNonNeighs.elems ++ s.activeList.filter (fun n => decide (n ∉ neighsOf s p)),
          s.pivotNonNeighs.starts ++ [s.pivotNonNeighs.elems.length]⟩ : GroupedStack) := by
      rw [hstack, createNewFrame, hfe]
    exact hgoal

theorem coherent_activeUnreachable (s : SubGraph) (hC : Coherent s) (p : Nat)
    (hp : p ∈ s.activeList) : Coherent (activeUnreachableFromPivot s p) := by
  obtain ⟨e1, _⟩ := activeUnreachable_spec s hC.1 p hp
  exact coherent_transfer s _ e1 rfl rfl rfl rfl hC

theorem coherent_popNonNeighbors (s : SubGraph) (hC : Coherent s) :
    Coherent (popNonNeighbors s) :=
  coherent_transfer s _ rfl rfl rfl rfl rfl hC

/-! ### InduceFromSelfMutate: bitmap characterization and loop summary -/

/-- The bitmap built by the three preparatory passes of `InduceFromSelfMutate`:
clear the active vertices, set the neighbours of u, clear excluded smaller ids. -/
def inducedBitmap (s : SubGraph) (u : Nat) (excl : List Nat) : List Bool :=
  exclClear (setAll (clearAll s.active s.activeList) (neighsOf s u)) u excl

theorem inducedBitmap_length (s : SubGraph) (u : Nat) (excl : List Nat) :
    (inducedBitmap s u excl).length = s.active.length := by
  rw [inducedBitmap, exclClear_length, setAll_length, clearAll_length]

theorem getB_inducedBitmap (s : SubGraph) (hWF : WF s) (u : Nat) (excl : List Nat)
    (x : Nat) :
    getB (inducedBitmap s u excl) x =
      (decide (x ∈ neighsOf s u) && !(decide (x ∈ excl) && decide (x < u))) := by
  have hb : ∀ y, getB (clearAll s.active s.activeList) y = false := by
    intro y
    rw [getB_clearAll]
    by_cases hy : y ∈ s.activeList
    · rw [if_pos ⟨hy, hWF.memA_lt y hy⟩]
    · rw [if_neg (fun hc => hy hc.1)]
      by_cases hby : getB s.active y = true
      · exact absurd ((hWF.bitmap y).mp hby) hy
      · simpa using hby
  rw [inducedBitmap, getB_exclClear, getB_setAll, setAll_length, clearAll_length, hb x]
  by_cases hnb : x ∈ neighsOf s u
  · have hxlen : x < s.active.length :=
      hWF.adj_lt u x (List.take_subset _ _ hnb)
    by_cases hex : x ∈ excl ∧ x < u
    · simp [hex.1, hex.2, hnb, hxlen]
    · simp only [not_and] at hex
      simp [hnb, hxlen]
  · by_cases hex : x ∈ excl ∧ x < u
    · simp [hex.1, hex.2, hnb]
    · simp [hex, hnb]

theorem getB_inducedBitmap_iff (s : SubGraph) (hWF : WF s) (u : Nat) (excl : List Nat)
    (x : Nat) :
    getB (inducedBitmap s u excl) x = true ↔
      x ∈ neighsOf s u ∧ ¬ (x ∈ excl ∧ x < u) := by
  rw [getB_inducedBitmap s hWF u excl x]
  simp
  tauto

theorem inducedBitmap_mem_active (s : SubGraph) (hWF : WF s) (u : Nat)
    (hu : u ∈ s.activeList) (excl : List Nat) (x : Nat)
    (hx : getB (inducedBitmap s u excl) x = true) : x ∈ s.activeList := by
  rw [getB_inducedBitmap_iff s hWF u excl x] at hx
  exact neighs_subset s hWF u hu x hx.1

/-- Complete account of `InduceFromSelfMutate`: the bitmap, the permuted new
active list, the pushed dropped frame, the adjacency/tail updates for the kept
vertices, and the untouched fields elsewhere. -/
theorem induce_parts (s : SubGraph) (hWF : WF s) (u : Nat) (excl : List Nat) :
    (induceFromSelfMutate s u excl).active = inducedBitmap s u excl ∧
    (induceFromSelfMutate s u excl).activeList.Perm
      (s.activeList.filter (fun n => getB (inducedBitmap s u excl) n)) ∧
    (induceFromSelfMutate s u excl).adjList.length = s.adjList.length ∧
    (induceFromSelfMutate s u excl).activeTails.length = s.activeTails.length ∧
    (∃ ds, (induceFromSelfMutate s u excl).droppedVerts =
        ⟨s.droppedVerts.elems ++ ds,
          s.droppedVerts.starts ++ [s.droppedVerts.elems.length]⟩ ∧
      ds.Perm (s.activeList.filter (fun n => getB (inducedBitmap s u excl) n = false))) ∧
    (induceFromSelfMutate s u excl).pivotNonNeighs = s.pivotNonNeighs ∧
    (∀ n ∈ s.activeList, getB (inducedBitmap s u excl) n = true →
      getL (induceFromSelfMutate s u excl).adjList n =
        (compact (inducedBitmap s u excl) (getL s.adjList n) (getN s.activeTails n)).1 ∧
      getN (induceFromSelfMutate s u excl).activeTails n =
        (compact (inducedBitmap s u excl) (getL s.adjList n) (getN s.activeTails n)).2) ∧
    (∀ n, n ∉ s.activeList ∨ getB (inducedBitmap s u excl) n = false →
      getL (induceFromSelfMutate s u excl).adjList n = getL s.adjList n ∧
      getN (induceFromSelfMutate s u excl).activeTails n = getN s.activeTails n) := by
  have hbnd : ∀ n ∈ s.activeList, n < s.adjList.length ∧ n < s.activeTails.length := by
    intro n hn
    rw [hWF.len_adj, hWF.len_tails]
    exact ⟨hWF.memA_lt n hn, hWF.memA_lt n hn⟩
  obtain ⟨m1, m2, m3, m4, m5, m6⟩ :=
    mutateGo_spec (inducedBitmap s u excl) s.activeList.length 0 s.activeList s.adjList
      s.activeTails (createNewFrame s.droppedVerts) (by omega) hWF.nodupA hbnd
  have e1 : (induceFromSelfMutate s u excl).activeList =
      (mutateGo (inducedBitmap s u excl) s.activeList.length 0 s.activeList s.adjList
        s.activeTails (createNewFrame s.droppedVerts)).1 := rfl
  have e2 : (induceFromSelfMutate s u excl).adjList =
      (mutateGo (inducedBitmap s u excl) s.activeList.length 0 s.activeList s.adjList
        s.activeTails (createNewFrame s.droppedVerts)).2.1 := rfl
  have e3 : (induceFromSelfMutate s u excl).activeTails =
      (mutateGo (inducedBitmap s u excl) s.activeList.length 0 s.activeList s.adjList
        s.activeTails (createNewFrame s.droppedVerts)).2.2.1 := rfl
  have e4 : (induceFromSelfMutate s u excl).droppedVerts =
      (mutateGo (inducedBitmap s u excl) s.activeList.length 0 s.activeList s.adjList
        s.activeTails (createNewFrame s.droppedVerts)).2.2.2 := rfl
  refine ⟨rfl, ?_, ?_, ?_, ?_, rfl, ?_, ?_⟩
  · rw [e1]
    simpa using m1
  · rw [e2, m3]
  · rw [e3, m4]
  · obtain ⟨ds, h1, h2, h3⟩ := m2
    refine ⟨ds, ?_, by simpa using h3⟩
    have heta : (induceFromSelfMutate s u excl).droppedVerts =
        (⟨(induceFromSelfMutate s u excl).droppedVerts.elems,
          (induceFromSelfMutate s u excl).droppedVerts.starts⟩ : GroupedStack) := rfl
    rw [heta, e4, h1, h2]
    rfl
  · intro n hn hq
    have := m5 n (by simpa using hn) hq
    rw [e2, e3]
    exact this
  · intro n hcond
    have := m6 n (by simpa using hcond)
    rw [e2, e3]
    exact this

/-- Entry i of a dropped list. -/
theorem getN_drop (l : List Nat) (c m : Nat) : getN (l.drop c) m = getN l (c + m) := by
  by_cases h : c + m < l.length
  · have h2 : m < (l.drop c).length := by
      rw [List.length_drop]
      omega
    rw [getN_eq_getElem _ _ h2, getN_eq_getElem _ _ h, List.getElem_drop]
  · rw [getN, getN, List.getD_eq_default, List.getD_eq_default]
    · omega
    · rw [List.length_drop]
      omega

/-- Compaction permutes the whole neighbour list. -/
theorem compact_perm (act : List Bool) (adjn : List Nat) (t : Nat)
    (hlen : t ≤ adjn.length) : (compact act adjn t).1.Perm adjn := by
  obtain ⟨c1, c2, c3, c4, c5, c6⟩ := compact_spec act adjn t hlen
  have hdrop : (compact act adjn t).1.drop t = adjn.drop t :=
    drop_ext _ _ t c1 (fun m hm1 hm2 => c3 m hm1)
  have h1 : (compact act adjn t).1 =
      (compact act adjn t).1.take t ++ (compact act adjn t).1.drop t :=
    (List.take_append_drop t _).symm
  have h2 : ((compact act adjn t).1.take t ++ adjn.drop t).Perm
      (adjn.take t ++ adjn.drop t) := c4.append_right _
  rw [List.take_append_drop] at h2
  rw [h1, hdrop]
  exact h2

/-- `InduceFromSelfMutate` never changes the membership of any neighbour list. -/
theorem induce_adj_mem (s : SubGraph) (hWF : WF s) (u : Nat) (excl : List Nat)
    (n v : Nat) :
    v ∈ getL (induceFromSelfMutate s u excl).adjList n ↔ v ∈ getL s.adjList n := by
  obtain ⟨p1, p2, p3, p4, p5, p6, p7, p8⟩ := induce_parts s hWF u excl
  by_cases hn : n ∈ s.activeList
  · by_cases hq : getB (inducedBitmap s u excl) n = true
    · rw [(p7 n hn hq).1]
      exact (compact_perm _ _ _ (hWF.tails_le n hn)).mem_iff
    · rw [(p8 n (Or.inr (by simpa using hq))).1]
  · rw [(p8 n (Or.inl hn)).1]

/-- `InduceFromSelfMutate` preserves well-formedness. -/
theorem induce_WF (s : SubGraph) (hWF : WF s) (u : Nat) (hu : u ∈ s.activeList)
    (excl : List Nat) : WF (induceFromSelfMutate s u excl) := by
  obtain ⟨p1, p2, p3, p4, p5, p6, p7, p8⟩ := induce_parts s hWF u excl
  have hsub : ∀ n ∈ (induceFromSelfMutate s u excl).activeList,
      n ∈ s.activeList ∧ getB (inducedBitmap s u excl) n = true := by
    intro n hn
    have := p2.mem_iff.mp hn
    rw [List.mem_filter] at this
    exact this
  have hbm : ∀ n, getB (induceFromSelfMutate s u excl).active n = true ↔
      n ∈ (induceFromSelfMutate s u excl).activeList := by
    intro n
    rw [p1, p2.mem_iff, List.mem_filter]
    constructor
    · intro h
      exact ⟨inducedBitmap_mem_active s hWF u hu excl n h, h⟩
    · intro h
      exact h.2
  have hlen1 : (induceFromSelfMutate s u excl).active.length = s.active.length := by
    rw [p1, inducedBitmap_length]
  refine ⟨?_, ?_, ?_, ?_, hbm, ?_, ?_, ?_, ?_, ?_, ?_⟩
  · rw [hlen1, p3, hWF.len_adj]
  · rw [hlen1, p4, hWF.len_tails]
  · exact p2.nodup_iff.mpr (List.Nodup.filter _ hWF.nodupA)
  · intro n hn
    rw [hlen1]
    exact hWF.memA_lt n (hsub n hn).1
  · intro n hn
    obtain ⟨hmem, hq⟩ := hsub n hn
    obtain ⟨hadj, htl⟩ := p7 n hmem hq
    obtain ⟨c1, c2, c3, c4, c5, c6⟩ :=
      compact_spec (inducedBitmap s u excl) (getL s.adjList n) (getN s.activeTails n)
        (hWF.tails_le n hmem)
    rw [hadj, htl, c1]
    exact le_trans c2 (hWF.tails_le n hmem)
  · intro n hn m hm
    obtain ⟨hmem, hq⟩ := hsub n hn
    obtain ⟨hadj, htl⟩ := p7 n hmem hq
    rw [htl] at hm
    rw [hadj]
    obtain ⟨c1, c2, c3, c4, c5, c6⟩ :=
      compact_spec (inducedBitmap s u excl) (getL s.adjList n) (getN s.activeTails n)
        (hWF.tails_le n hmem)
    rw [← hbm]
    rw [p1]
    exact c5 m hm
  · intro n hn m hm1 hm2
    obtain ⟨hmem, hq⟩ := hsub n hn
    obtain ⟨hadj, htl⟩ := p7 n hmem hq
    rw [hadj] at hm2 ⊢
    rw [htl] at hm1
    obtain ⟨c1, c2, c3, c4, c5, c6⟩ :=
      compact_spec (inducedBitmap s u excl) (getL s.adjList n) (getN s.activeTails n)
        (hWF.tails_le n hmem)
    rw [c1] at hm2
    by_cases hcase : m < getN s.activeTails n
    · intro hc
      have hfalse := c6 m hm1 hcase
      have htrue := ((hbm _).mpr hc)
      rw [p1] at htrue
      rw [htrue] at hfalse
      cases hfalse
    · intro hc
      have hun := c3 m (by omega)
      rw [hun] at hc
      have hnot := hWF.tailInactive n hmem m (by omega) hm2
      exact hnot ((hsub _ hc).1)
  · intro n v hv
    rw [induce_adj_mem s hWF u excl n v] at hv
    rw [hlen1]
    exact hWF.adj_lt n v hv
  · intro n hc
    rw [induce_adj_mem s hWF u excl n n] at hc
    exact hWF.no_self n hc
  · intro n v hv
    rw [induce_adj_mem s hWF u excl n v] at hv
    rw [induce_adj_mem s hWF u excl v n]
    exact hWF.symm n v hv

/-- For a surviving vertex, the new neighbour span is (a permutation of) the
old span filtered by the new bitmap. -/
theorem induce_neighs_perm (s : SubGraph) (hWF : WF s) (u : Nat) (excl : List Nat)
    (n : Nat) (hn : n ∈ s.activeList) (hq : getB (inducedBitmap s u excl) n = true) :
    (neighsOf (induceFromSelfMutate s u excl) n).Perm
      ((neighsOf s n).filter (fun v => getB (inducedBitmap s u excl) v)) := by
  obtain ⟨p1, p2, p3, p4, p5, p6, p7, p8⟩ := induce_parts s hWF u excl
  obtain ⟨hadj, htl⟩ := p7 n hn hq
  obtain ⟨c1, c2, c3, c4, c5, c6⟩ :=
    compact_spec (inducedBitmap s u excl) (getL s.adjList n) (getN s.activeTails n)
      (hWF.tails_le n hn)
  rw [neighsOf, hadj, htl]
  set act := inducedBitmap s u excl with hact
  set c := (compact act (getL s.adjList n) (getN s.activeTails n)).1 with hc
  set t2 := (compact act (getL s.adjList n) (getN s.activeTails n)).2 with ht2
  set t := getN s.activeTails n with ht
  have hfilt_self : (c.take t2).filter (fun v => getB act v) = c.take t2 := by
    apply List.filter_eq_self.mpr
    intro a ha
    rw [mem_take_iff] at ha
    obtain ⟨m, hm1, hm2, hm3⟩ := ha
    rw [← hm3]
    exact c5 m hm1
  have hfilt_mid : ((c.drop t2).take (t - t2)).filter (fun v => getB act v) = [] := by
    rw [List.filter_eq_nil_iff]
    intro a ha
    rw [mem_take_iff] at ha
    obtain ⟨m, hm1, hm2, hm3⟩ := ha
    rw [← hm3, getN_drop]
    rw [c6 (t2 + m) (by omega) (by omega)]
    simp
  have hsplit : c.take t = c.take t2 ++ (c.drop t2).take (t - t2) := by
    have h : t2 + (t - t2) = t := by omega
    conv_lhs => rw [← h]
    rw [List.take_add]
  have hkey : (c.take t).filter (fun v => getB act v) = c.take t2 := by
    rw [hsplit, List.filter_append, hfilt_self, hfilt_mid, List.append_nil]
  rw [← hkey, neighsOf, ← ht]
  exact c4.filter _

/-- Surviving-vertex neighbour membership after an induce. -/
theorem induce_neighs_mem (s : SubGraph) (hWF : WF s) (u : Nat) (excl : List Nat)
    (n : Nat) (hn : n ∈ s.activeList) (hq : getB (inducedBitmap s u excl) n = true)
    (v : Nat) :
    v ∈ neighsOf (induceFromSelfMutate s u excl) n ↔
      v ∈ neighsOf s n ∧ getB (inducedBitmap s u excl) v = true := by
  rw [(induce_neighs_perm s hWF u excl n hn hq).mem_iff, List.mem_filter]

/-- The induced vertex itself is always dropped, so the active count strictly
decreases. -/
theorem induce_numActive_lt (s : SubGraph) (hWF : WF s) (u : Nat)
    (hu : u ∈ s.activeList) (excl : List Nat) :
    numActive (induceFromSelfMutate s u excl) < numActive s := by
  obtain ⟨p1, p2, p3, p4, p5, p6, p7, p8⟩ := induce_parts s hWF u excl
  have hqu : getB (inducedBitmap s u excl) u = false := by
    by_cases h : getB (inducedBitmap s u excl) u = true
    · rw [getB_inducedBitmap_iff s hWF u excl u] at h
      exact absurd (List.take_subset _ _ h.1) (hWF.no_self u)
    · simpa using h
  rw [numActive, numActive, p2.length_eq]
  obtain ⟨A, B, hAB⟩ := List.append_of_mem hu
  rw [hAB, List.filter_append, List.filter_cons, hqu]
  have h1 := List.length_filter_le (fun n => getB (inducedBitmap s u excl) n) A
  have h2 := List.length_filter_le (fun n => getB (inducedBitmap s u excl) n) B
  simp only [Bool.false_eq_true, if_false, List.length_append, List.length_cons]
  omega

/-! ### State equivalence up to reordering -/

/-- Two states are equivalent when they differ only by the order of the active
list and by a permutation of each active neighbour span: everything the
algorithm observes (bitmap, tails, stacks, neighbour-set of every vertex) is
identical. -/
def EquivSG (s s2 : SubGraph) : Prop :=
  s2.active = s.active ∧
  s2.activeList.Perm s.activeList ∧
  s2.activeTails = s.activeTails ∧
  s2.droppedVerts = s.droppedVerts ∧
  s2.pivotNonNeighs = s.pivotNonNeighs ∧
  s2.adjList.length = s.adjList.length ∧
  (∀ n, (getL s2.adjList n).length = (getL s.adjList n).length) ∧
  (∀ n ∈ s.activeList,
    ((getL s2.adjList n).take (getN s.activeTails n)).Perm
      ((getL s.adjList n).take (getN s.activeTails n)) ∧
    (getL s2.adjList n).drop (getN s.activeTails n) =
      (getL s.adjList n).drop (getN s.activeTails n)) ∧
  (∀ n, n ∉ s.activeList → getL s2.adjList n = getL s.adjList n)

theorem equivSG_refl (s : SubGraph) : EquivSG s s :=
  ⟨rfl, List.Perm.refl _, rfl, rfl, rfl, rfl, fun _ => rfl,
    fun n _ => ⟨List.Perm.refl _, rfl⟩, fun _ _ => rfl⟩

theorem equivSG_trans (s s2 s3 : SubGraph) (h1 : EquivSG s s2) (h2 : EquivSG s2 s3) :
    EquivSG s s3 := by
  obtain ⟨a1, a2, a3, a4, a5, a6, a7, a8, a9⟩ := h1
  obtain ⟨b1, b2, b3, b4, b5, b6, b7, b8, b9⟩ := h2
  refine ⟨by rw [b1, a1], b2.trans a2, by rw [b3, a3], by rw [b4, a4], by rw [b5, a5],
    by rw [b6, a6], fun n => by rw [b7 n, a7 n], ?_, ?_⟩
  · intro n hn
    have hn2 : n ∈ s2.activeList := a2.mem_iff.mpr hn
    obtain ⟨c1, c2⟩ := b8 n hn2
    obtain ⟨d1, d2⟩ := a8 n hn
    rw [a3] at c1 c2
    exact ⟨c1.trans d1, c2.trans d2⟩
  · intro n hn
    have hn2 : n ∉ s2.activeList := fun hc => hn (a2.mem_iff.mp hc)
    rw [b9 n hn2, a9 n hn]

/-- Equivalence preserves the membership of every neighbour list. -/
theorem equiv_adj_mem (s s2 : SubGraph) (h : EquivSG s s2) (n v : Nat) :
    v ∈ getL s2.adjList n ↔ v ∈ getL s.adjList n := by
  obtain ⟨a1, a2, a3, a4, a5, a6, a7, a8, a9⟩ := h
  by_cases hn : n ∈ s.activeList
  · obtain ⟨c1, c2⟩ := a8 n hn
    rw [← List.take_append_drop (getN s.activeTails n) (getL s2.adjList n),
      List.mem_append, c2, c1.mem_iff, ← List.mem_append,
      List.take_append_drop]
  · rw [a9 n hn]

/-- Equivalence preserves well-formedness. -/
theorem WF_equiv (s s2 : SubGraph) (h : EquivSG s s2) (hWF : WF s) : WF s2 := by
  obtain ⟨a1, a2, a3, a4, a5, a6, a7, a8, a9⟩ := h
  refine ⟨?_, ?_, ?_, ?_, ?_, ?_, ?_, ?_, ?_, ?_, ?_⟩
  · rw [a1, a6, hWF.len_adj]
  · rw [a1, a3, hWF.len_tails]
  · exact a2.nodup_iff.mpr hWF.nodupA
  · intro n hn
    rw [a1]
    exact hWF.memA_lt n (a2.mem_iff.mp hn)
  · intro n
    rw [a1, a2.mem_iff]
    exact hWF.bitmap n
  · intro n hn
    have hns : n ∈ s.activeList := a2.mem_iff.mp hn
    rw [a3, a7 n]
    exact hWF.tails_le n hns
  · intro n hn m hm
    have hns : n ∈ s.activeList := a2.mem_iff.mp hn
    rw [a3] at hm
    obtain ⟨c1, c2⟩ := a8 n hns
    have hmlen : m < (getL s2.adjList n).length := by
      rw [a7 n]
      exact lt_of_lt_of_le hm (hWF.tails_le n hns)
    have hmem : getN (getL s2.adjList n) m ∈ (getL s2.adjList n).take (getN s.activeTails n) := by
      rw [mem_take_iff]
      exact ⟨m, hm, hmlen, rfl⟩
    have hmem2 := c1.mem_iff.mp hmem
    rw [mem_take_iff] at hmem2
    obtain ⟨m2, hm2a, hm2b, hm2c⟩ := hmem2
    rw [a2.mem_iff, ← hm2c]
    exact hWF.headActive n hns m2 hm2a
  · intro n hn m hm1 hm2
    have hns : n ∈ s.activeList := a2.mem_iff.mp hn
    rw [a3] at hm1
    obtain ⟨c1, c2⟩ := a8 n hns
    have he : getN (getL s2.adjList n) m = getN (getL s.adjList n) m := by
      have h1 : getN ((getL s2.adjList n).drop (getN s.activeTails n))
          (m - getN s.activeTails n) =
          getN ((getL s.adjList n).drop (getN s.activeTails n)) (m - getN s.activeTails n) := by
        rw [c2]
      rw [getN_drop, getN_drop] at h1
      have hmm : getN s.activeTails n + (m - getN s.activeTails n) = m := by omega
      rw [hmm] at h1
      exact h1
    rw [he, a2.mem_iff]
    refine hWF.tailInactive n hns m hm1 ?_
    rw [← a7 n]
    exact hm2
  · intro n v hv
    rw [a1]
    exact hWF.adj_lt n v ((equiv_adj_mem s s2 ⟨a1, a2, a3, a4, a5, a6, a7, a8, a9⟩ n v).mp hv)
  · intro n hc
    exact hWF.no_self n ((equiv_adj_mem s s2 ⟨a1, a2, a3, a4, a5, a6, a7, a8, a9⟩ n n).mp hc)
  · intro n v hv
    rw [equiv_adj_mem s s2 ⟨a1, a2, a3, a4, a5, a6, a7, a8, a9⟩ v n]
    exact hWF.symm n v ((equiv_adj_mem s s2 ⟨a1, a2, a3, a4, a5, a6, a7, a8, a9⟩ n v).mp hv)

/-! ### Per-vertex facts about an induce, relative to the old tails -/

theorem induce_adjLen (s : SubGraph) (hWF : WF s) (u : Nat) (excl : List Nat) (n : Nat) :
    (getL (induceFromSelfMutate s u excl).adjList n).length = (getL s.adjList n).length := by
  obtain ⟨p1, p2, p3, p4, p5, p6, p7, p8⟩ := induce_parts s hWF u excl
  by_cases hn : n ∈ s.activeList
  · by_cases hq : getB (inducedBitmap s u excl) n = true
    · rw [(p7 n hn hq).1]
      exact (compact_spec _ _ _ (hWF.tails_le n hn)).1
    · rw [(p8 n (Or.inr (by simpa using hq))).1]
  · rw [(p8 n (Or.inl hn)).1]

theorem induce_tail_le (s : SubGraph) (hWF : WF s) (u : Nat) (excl : List Nat)
    (n : Nat) (hn : n ∈ s.activeList) :
    getN (induceFromSelfMutate s u excl).activeTails n ≤ getN s.activeTails n := by
  obtain ⟨p1, p2, p3, p4, p5, p6, p7, p8⟩ := induce_parts s hWF u excl
  by_cases hq : getB (inducedBitmap s u excl) n = true
  · rw [(p7 n hn hq).2]
    exact (compact_spec _ _ _ (hWF.tails_le n hn)).2.1
  · rw [(p8 n (Or.inr (by simpa using hq))).2]

theorem induce_drop_tail (s : SubGraph) (hWF : WF s) (u : Nat) (excl : List Nat)
    (n : Nat) (hn : n ∈ s.activeList) :
    (getL (induceFromSelfMutate s u excl).adjList n).drop (getN s.activeTails n) =
      (getL s.adjList n).drop (getN s.activeTails n) := by
  obtain ⟨p1, p2, p3, p4, p5, p6, p7, p8⟩ := induce_parts s hWF u excl
  by_cases hq : getB (inducedBitmap s u excl) n = true
  · obtain ⟨c1, c2, c3, c4, c5, c6⟩ := compact_spec (inducedBitmap s u excl)
      (getL s.adjList n) (getN s.activeTails n) (hWF.tails_le n hn)
    rw [(p7 n hn hq).1]
    exact drop_ext _ _ _ c1 (fun m hm1 hm2 => c3 m hm1)
  · rw [(p8 n (Or.inr (by simpa using hq))).1]

theorem induce_take_perm (s : SubGraph) (hWF : WF s) (u : Nat) (excl : List Nat)
    (n : Nat) (hn : n ∈ s.activeList) :
    ((getL (induceFromSelfMutate s u excl).adjList n).take (getN s.activeTails n)).Perm
      ((getL s.adjList n).take (getN s.activeTails n)) := by
  obtain ⟨p1, p2, p3, p4, p5, p6, p7, p8⟩ := induce_parts s hWF u excl
  by_cases hq : getB (inducedBitmap s u excl) n = true
  · rw [(p7 n hn hq).1]
    exact (compact_spec _ _ _ (hWF.tails_le n hn)).2.2.2.1
  · rw [(p8 n (Or.inr (by simpa using hq))).1]

/-- Central restoration fact: walking forward from the new tail over vertices of
the old active set recovers exactly the old tail, for every old active vertex. -/
theorem induce_extendTP_restore (s : SubGraph) (hWF : WF s) (u : Nat)
    (excl : List Nat) (n : Nat) (hn : n ∈ s.activeList) :
    extendTP (fun v => decide (v ∈ s.activeList))
      (getL (induceFromSelfMutate s u excl).adjList n)
      (getN (induceFromSelfMutate s u excl).activeTails n) = getN s.activeTails n := by
  obtain ⟨p1, p2, p3, p4, p5, p6, p7, p8⟩ := induce_parts s hWF u excl
  by_cases hq : getB (inducedBitmap s u excl) n = true
  · obtain ⟨hadj, htl⟩ := p7 n hn hq
    obtain ⟨c1, c2, c3, c4, c5, c6⟩ := compact_spec (inducedBitmap s u excl)
      (getL s.adjList n) (getN s.activeTails n) (hWF.tails_le n hn)
    rw [hadj, htl]
    refine extendTP_eq _ _ _ _ c2 (by rw [c1]; exact hWF.tails_le n hn) ?_ ?_
    · intro m hm1 hm2
      have hmlen : m < (compact (inducedBitmap s u excl) (getL s.adjList n)
          (getN s.activeTails n)).1.length := by
        rw [c1]
        exact lt_of_lt_of_le hm2 (hWF.tails_le n hn)
      have hmem : getN (compact (inducedBitmap s u excl) (getL s.adjList n)
          (getN s.activeTails n)).1 m ∈
          ((compact (inducedBitmap s u excl) (getL s.adjList n)
            (getN s.activeTails n)).1.take (getN s.activeTails n)) := by
        rw [mem_take_iff]
        exact ⟨m, hm2, hmlen, rfl⟩
      have hmem2 := c4.mem_iff.mp hmem
      have hmem3 : getN (compact (inducedBitmap s u excl) (getL s.adjList n)
          (getN s.activeTails n)).1 m ∈ s.activeList :=
        neighs_subset s hWF n hn _ hmem2
      simpa using hmem3
    · by_cases hend : getN s.activeTails n <
        (compact (inducedBitmap s u excl) (getL s.adjList n) (getN s.activeTails n)).1.length
      · refine Or.inr ?_
        rw [c3 _ (le_refl _)]
        rw [c1] at hend
        have := hWF.tailInactive n hn (getN s.activeTails n) (le_refl _) hend
        simpa using this
      · refine Or.inl ?_
        rw [c1] at hend ⊢
        have := hWF.tails_le n hn
        omega
  · obtain ⟨hadj, htl⟩ := p8 n (Or.inr (by simpa using hq))
    rw [hadj, htl]
    refine extendTP_eq _ _ _ _ (le_refl _) (hWF.tails_le n hn) (fun m hm1 hm2 => by omega) ?_
    by_cases hend : getN s.activeTails n < (getL s.adjList n).length
    · refine Or.inr ?_
      have := hWF.tailInactive n hn (getN s.activeTails n) (le_refl _) hend
      simpa using this
    · refine Or.inl ?_
      have := hWF.tails_le n hn
      omega

/-- Undoing an induce — after the recursion has possibly permuted the state
within the equivalence — restores a state equivalent to the original. -/
theorem undo_restore (s : SubGraph) (hWF : WF s) (u : Nat) (hu : u ∈ s.activeList)
    (excl : List Nat) (s2 : SubGraph)
    (heq : EquivSG (induceFromSelfMutate s u excl) s2) :
    EquivSG s (undoSelfMutate s2) := by
  obtain ⟨p1, p2, p3, p4, p5, p6, p7, p8⟩ := induce_parts s hWF u excl
  obtain ⟨ds, hdv, hds⟩ := p5
  obtain ⟨a1, a2, a3, a4, a5, a6, a7, a8, a9⟩ := heq
  have hmem1 : ∀ x, x ∈ s2.activeList ↔
      x ∈ s.activeList ∧ getB (inducedBitmap s u excl) x = true := by
    intro x
    rw [a2.mem_iff, p2.mem_iff, List.mem_filter]
  have hmem2 : ∀ x, x ∈ ds ↔
      x ∈ s.activeList ∧ getB (inducedBitmap s u excl) x = false := by
    intro x
    rw [hds.mem_iff, List.mem_filter]
    simp
  have hnotin1 : ∀ x, getB (inducedBitmap s u excl) x = false →
      x ∉ (induceFromSelfMutate s u excl).activeList := by
    intro x hq hc
    have := (List.mem_filter.mp (p2.mem_iff.mp hc)).2
    rw [hq] at this
    cases this
  have hframe : lastFrameIter s2.droppedVerts = ds := by
    rw [a4, hdv]
    exact lastFrameIter_push_new _ _ _
  have u1 : (undoSelfMutate s2).active =
      setAll s2.active (lastFrameIter s2.droppedVerts) := rfl
  have u2 : (undoSelfMutate s2).activeList =
      s2.activeList ++ lastFrameIter s2.droppedVerts := rfl
  have u3 : (undoSelfMutate s2).activeTails =
      (s2.activeList ++ lastFrameIter s2.droppedVerts).foldl
        (fun t v => t.set v (extendT (setAll s2.active (lastFrameIter s2.droppedVerts))
          (getL s2.adjList v) (getN t v))) s2.activeTails := rfl
  have u4 : (undoSelfMutate s2).droppedVerts = popFrame s2.droppedVerts := rfl
  have u5 : (undoSelfMutate s2).adjList = s2.adjList := rfl
  have u6 : (undoSelfMutate s2).pivotNonNeighs = s2.pivotNonNeighs := rfl
  have hact2 : ∀ x, getB (setAll s2.active ds) x = decide (x ∈ s.activeList) := by
    intro x
    rw [a1, p1, getB_setAll, inducedBitmap_length]
    by_cases hxds : x ∈ ds
    · have hx := (hmem2 x).mp hxds
      rw [if_pos ⟨hxds, hWF.memA_lt x hx.1⟩]
      simp [hx.1]
    · rw [if_neg (fun hc => hxds hc.1)]
      by_cases hq : getB (inducedBitmap s u excl) x = true
      · have hxa : x ∈ s.activeList := inducedBitmap_mem_active s hWF u hu excl x hq
        rw [hq]
        simp [hxa]
      · have hq2 : getB (inducedBitmap s u excl) x = false := by simpa using hq
        rw [hq2]
        by_cases hxa : x ∈ s.activeList
        · exact absurd ((hmem2 x).mpr ⟨hxa, hq2⟩) hxds
        · simp [hxa]
  have hbm_s : ∀ x, getB s.active x = decide (x ∈ s.activeList) := by
    intro x
    by_cases hxa : x ∈ s.activeList
    · rw [(hWF.bitmap x).mpr hxa]
      simp [hxa]
    · by_cases hb : getB s.active x = true
      · exact absurd ((hWF.bitmap x).mp hb) hxa
      · rw [decide_eq_false hxa]
        simpa using hb
  have e_active : (undoSelfMutate s2).active = s.active := by
    rw [u1, hframe]
    apply ext_getB
    · rw [setAll_length, a1, p1, inducedBitmap_length]
    · intro i
      rw [hact2 i, hbm_s i]
  have e_alist : (undoSelfMutate s2).activeList.Perm s.activeList := by
    rw [u2, hframe]
    have h1 : (s2.activeList ++ ds).Perm
        (s.activeList.filter (fun n => getB (inducedBitmap s u excl) n) ++
          s.activeList.filter (fun n => decide (getB (inducedBitmap s u excl) n = false))) :=
      (a2.trans p2).append hds
    have h2 : s.activeList.filter
          (fun n => decide (getB (inducedBitmap s u excl) n = false)) =
        s.activeList.filter (fun n => !(getB (inducedBitmap s u excl) n)) := by
      apply List.filter_congr
      intro x _
      cases hb : getB (inducedBitmap s u excl) x <;> simp
    refine h1.trans ?_
    rw [h2]
    exact List.filter_append_perm _ _
  have hnd2 : (s2.activeList ++ ds).Nodup := by
    refine List.Nodup.append ?_ ?_ ?_
    · exact a2.nodup_iff.mpr (p2.nodup_iff.mpr (hWF.nodupA.filter _))
    · exact hds.nodup_iff.mpr (hWF.nodupA.filter _)
    · intro x hx1 hx2
      have h1 := (hmem1 x).mp hx1
      have h2 := (hmem2 x).mp hx2
      rw [h1.2] at h2
      cases h2.2
  have e_tails : (undoSelfMutate s2).activeTails = s.activeTails := by
    rw [u3, hframe]
    apply ext_getN
    · rw [tailsFold_length, a3, p4]
    · intro x
      rw [tailsFold_getN _ _ _ hnd2 _ x]
      by_cases hx : x ∈ s2.activeList ++ ds
      · have hxa : x ∈ s.activeList := by
          rcases List.mem_append.mp hx with h | h
          · exact ((hmem1 x).mp h).1
          · exact ((hmem2 x).mp h).1
        have hxlen : x < s2.activeTails.length := by
          rw [a3, p4, hWF.len_tails]
          exact hWF.memA_lt x hxa
        rw [if_pos ⟨hx, hxlen⟩]
        rw [extendT_eq_extendTP (setAll s2.active ds)
          (fun v => decide (v ∈ s.activeList)) (getL s2.adjList x)
          (getN s2.activeTails x) (fun v _ => hact2 v)]
        rw [a3]
        rcases List.mem_append.mp hx with hxk | hxd
        · have hx1 : x ∈ (induceFromSelfMutate s u excl).activeList := a2.mem_iff.mp hxk
          rw [extendTP_drop_congr _ _ _ _ (a8 x hx1).2]
          exact induce_extendTP_restore s hWF u excl x hxa
        · have hq2 : getB (inducedBitmap s u excl) x = false := ((hmem2 x).mp hxd).2
          rw [a9 x (hnotin1 x hq2)]
          obtain ⟨hadj, htl⟩ := p8 x (Or.inr hq2)
          rw [hadj, htl]
          refine extendTP_eq _ _ _ _ (le_refl _) (hWF.tails_le x hxa)
            (fun m hm1 hm2 => by omega) ?_
          by_cases hend : getN s.activeTails x < (getL s.adjList x).length
          · refine Or.inr ?_
            have := hWF.tailInactive x hxa _ (le_refl _) hend
            simpa using this
          · refine Or.inl ?_
            have := hWF.tails_le x hxa
            omega
      · rw [if_neg (fun hc => hx hc.1), a3]
        by_cases hxa : x ∈ s.activeList
        · exfalso
          by_cases hq : getB (inducedBitmap s u excl) x = true
          · exact hx (List.mem_append.mpr (Or.inl ((hmem1 x).mpr ⟨hxa, hq⟩)))
          · exact hx (List.mem_append.mpr (Or.inr ((hmem2 x).mpr ⟨hxa, by simpa using hq⟩)))
        · exact (p8 x (Or.inl hxa)).2
  have e_dv : (undoSelfMutate s2).droppedVerts = s.droppedVerts := by
    rw [u4, a4, hdv, popFrame_push_new]
  have e_pnn : (undoSelfMutate s2).pivotNonNeighs = s.pivotNonNeighs := by
    rw [u6, a5, p6]
  have e_adjlen : (undoSelfMutate s2).adjList.length = s.adjList.length := by
    rw [u5, a6, p3]
  have e_adjlens : ∀ n, (getL (undoSelfMutate s2).adjList n).length =
      (getL s.adjList n).length := by
    intro n
    rw [u5, a7 n, induce_adjLen s hWF u excl n]
  have e_off : ∀ n, n ∉ s.activeList →
      getL (undoSelfMutate s2).adjList n = getL s.adjList n := by
    intro n hn
    have hn1 : n ∉ (induceFromSelfMutate s u excl).activeList := by
      intro hc
      exact hn (List.mem_filter.mp (p2.mem_iff.mp hc)).1
    rw [u5, a9 n hn1, (p8 n (Or.inl hn)).1]
  refine ⟨e_active, e_alist, e_tails, e_dv, e_pnn, e_adjlen, e_adjlens, ?_, e_off⟩
  intro n hn
  by_cases hq : getB (inducedBitmap s u excl) n = true
  · have hn1 : n ∈ (induceFromSelfMutate s u excl).activeList :=
      p2.mem_iff.mpr (List.mem_filter.mpr ⟨hn, hq⟩)
    obtain ⟨t1, t2⟩ := a8 n hn1
    have htle : getN (induceFromSelfMutate s u excl).activeTails n ≤
        getN s.activeTails n := induce_tail_le s hWF u excl n hn
    have hdrop : (getL (undoSelfMutate s2).adjList n).drop (getN s.activeTails n) =
        (getL s.adjList n).drop (getN s.activeTails n) := by
      have hd : ((getL s2.adjList n).drop
            (getN (induceFromSelfMutate s u excl).activeTails n)).drop
            (getN s.activeTails n - getN (induceFromSelfMutate s u excl).activeTails n) =
          ((getL (induceFromSelfMutate s u excl).adjList n).drop
            (getN (induceFromSelfMutate s u excl).activeTails n)).drop
            (getN s.activeTails n - getN (induceFromSelfMutate s u excl).activeTails n) := by
        rw [t2]
      rw [List.drop_drop, List.drop_drop] at hd
      first
        | rw [Nat.sub_add_cancel htle] at hd
        | rw [Nat.add_sub_cancel' htle] at hd
      rw [u5]
      exact hd.trans (induce_drop_tail s hWF u excl n hn)
    have htake : ((getL (undoSelfMutate s2).adjList n).take (getN s.activeTails n)).Perm
        ((getL s.adjList n).take (getN s.activeTails n)) := by
      have hsplit2 : (getL s2.adjList n).take (getN s.activeTails n) =
          (getL s2.adjList n).take (getN (induceFromSelfMutate s u excl).activeTails n) ++
          ((getL s2.adjList n).drop (getN (induceFromSelfMutate s u excl).activeTails n)).take
            (getN s.activeTails n - getN (induceFromSelfMutate s u excl).activeTails n) := by
        have h : getN (induceFromSelfMutate s u excl).activeTails n +
            (getN s.activeTails n - getN (induceFromSelfMutate s u excl).activeTails n) =
            getN s.activeTails n := by omega
        conv_lhs => rw [← h]
        rw [List.take_add]
      have hsplit1 : (getL (induceFromSelfMutate s u excl).adjList n).take
            (getN s.activeTails n) =
          (getL (induceFromSelfMutate s u excl).adjList n).take
            (getN (induceFromSelfMutate s u excl).activeTails n) ++
          ((getL (induceFromSelfMutate s u excl).adjList n).drop
            (getN (induceFromSelfMutate s u excl).activeTails n)).take
            (getN s.activeTails n - getN (induceFromSelfMutate s u excl).activeTails n) := by
        have h : getN (induceFromSelfMutate s u excl).activeTails n +
            (getN s.activeTails n - getN (induceFromSelfMutate s u excl).activeTails n) =
            getN s.activeTails n := by omega
        conv_lhs => rw [← h]
        rw [List.take_add]
      have hmid : ((getL s2.adjList n).drop
            (getN (induceFromSelfMutate s u excl).activeTails n)).take
            (getN s.activeTails n - getN (induceFromSelfMutate s u excl).activeTails n) =
          ((getL (induceFromSelfMutate s u excl).adjList n).drop
            (getN (induceFromSelfMutate s u excl).activeTails n)).take
            (getN s.activeTails n - getN (induceFromSelfMutate s u excl).activeTails n) := by
        rw [t2]
      have hstep : ((getL s2.adjList n).take (getN s.activeTails n)).Perm
          ((getL (induceFromSelfMutate s u excl).adjList n).take (getN s.activeTails n)) := by
        rw [hsplit2, hsplit1, hmid]
        exact t1.append_right _
      rw [u5]
      exact hstep.trans (induce_take_perm s hWF u excl n hn)
    exact ⟨htake, hdrop⟩
  · have hq2 : getB (inducedBitmap s u excl) n = false := by simpa using hq
    have heq2 : getL (undoSelfMutate s2).adjList n = getL s.adjList n := by
      rw [u5, a9 n (hnotin1 n hq2), (p8 n (Or.inr hq2)).1]
    rw [heq2]
    exact ⟨List.Perm.refl _, rfl⟩

/-! ### Coherence through induce and undo -/

theorem getN_eq_of_drop_eq (l1 l2 : List Nat) (t m : Nat) (h : l1.drop t = l2.drop t)
    (hm : t ≤ m) : getN l1 m = getN l2 m := by
  have h1 : getN (l1.drop t) (m - t) = getN (l2.drop t) (m - t) := by rw [h]
  rw [getN_drop, getN_drop] at h1
  have h2 : t + (m - t) = m := by omega
  rw [h2] at h1
  exact h1

/-- At an active vertex the old tail is already maximal: the walk stops at once. -/
theorem extendTP_stop_at_tail (s : SubGraph) (hWF : WF s) (n : Nat)
    (hn : n ∈ s.activeList) :
    extendTP (fun v => decide (v ∈ s.activeList)) (getL s.adjList n)
      (getN s.activeTails n) = getN s.activeTails n := by
  refine extendTP_eq _ _ _ _ (le_refl _) (hWF.tails_le n hn)
    (fun m hm1 hm2 => by omega) ?_
  by_cases hend : getN s.activeTails n < (getL s.adjList n).length
  · refine Or.inr ?_
    have := hWF.tailInactive n hn _ (le_refl _) hend
    simpa using this
  · refine Or.inl ?_
    have := hWF.tails_le n hn
    omega

theorem induce_getN_ge (s : SubGraph) (hWF : WF s) (u : Nat) (excl : List Nat)
    (n : Nat) (hn : n ∈ s.activeList) (m : Nat) (hm : getN s.activeTails n ≤ m) :
    getN (getL (induceFromSelfMutate s u excl).adjList n) m = getN (getL s.adjList n) m :=
  getN_eq_of_drop_eq _ _ _ m (induce_drop_tail s hWF u excl n hn) hm

/-- The union predicate after an induce is membership in the old active list. -/
theorem induce_QB (s : SubGraph) (hWF : WF s) (u : Nat) (hu : u ∈ s.activeList)
    (excl : List Nat) (ds : List Nat)
    (hds : ds.Perm (s.activeList.filter
      (fun n => decide (getB (inducedBitmap s u excl) n = false)))) :
    QB (induceFromSelfMutate s u excl).activeList ds =
      fun v => decide (v ∈ s.activeList) := by
  obtain ⟨p1, p2, p3, p4, p5, p6, p7, p8⟩ := induce_parts s hWF u excl
  funext x
  rw [QB]
  have hm1 : x ∈ (induceFromSelfMutate s u excl).activeList ↔
      x ∈ s.activeList ∧ getB (inducedBitmap s u excl) x = true := by
    rw [p2.mem_iff, List.mem_filter]
  have hm2 : x ∈ ds ↔ x ∈ s.activeList ∧ getB (inducedBitmap s u excl) x = false := by
    rw [hds.mem_iff, List.mem_filter]
    simp
  by_cases hxa : x ∈ s.activeList
  · by_cases hq : getB (inducedBitmap s u excl) x = true
    · simp [hm1.mpr ⟨hxa, hq⟩, hxa]
    · simp [hm2.mpr ⟨hxa, by simpa using hq⟩, hxa]
  · have h1 : x ∉ (induceFromSelfMutate s u excl).activeList :=
      fun hc => hxa (hm1.mp hc).1
    have h2 : x ∉ ds := fun hc => hxa (hm2.mp hc).1
    simp [h1, h2, hxa]

/-- `InduceFromSelfMutate` preserves full coherence. -/
theorem coherent_induce (s : SubGraph) (hC : Coherent s) (u : Nat)
    (hu : u ∈ s.activeList) (excl : List Nat) :
    Coherent (induceFromSelfMutate s u excl) := by
  obtain ⟨hWF, hOK⟩ := hC
  obtain ⟨p1, p2, p3, p4, p5, p6, p7, p8⟩ := induce_parts s hWF u excl
  obtain ⟨ds, hdv, hds⟩ := p5
  refine ⟨induce_WF s hWF u hu excl, ?_⟩
  have hlen : (induceFromSelfMutate s u excl).active.length = s.active.length := by
    rw [p1, inducedBitmap_length]
  have hframes : framesOf (induceFromSelfMutate s u excl).droppedVerts =
      ds :: framesOf s.droppedVerts := by
    rw [hdv]
    exact framesOf_push_new _ _ _
  rw [hframes, hlen]
  have hQB := induce_QB s hWF u hu excl ds hds
  have hnotin1 : ∀ x, getB (inducedBitmap s u excl) x = false →
      x ∉ (induceFromSelfMutate s u excl).activeList := by
    intro x hq hc
    have := (List.mem_filter.mp (p2.mem_iff.mp hc)).2
    rw [hq] at this
    cases this
  have hm2 : ∀ x, x ∈ ds ↔
      x ∈ s.activeList ∧ getB (inducedBitmap s u excl) x = false := by
    intro x
    rw [hds.mem_iff, List.mem_filter]
    simp
  constructor
  · -- the freshly pushed frame satisfies its invariant
    refine ⟨hds.nodup_iff.mpr (hWF.nodupA.filter _), ?_, ?_⟩
    · intro n hn
      beta_reduce
      obtain ⟨hna, hnq⟩ := (hm2 n).mp hn
      obtain ⟨hadj, htl⟩ := p8 n (Or.inr hnq)
      rw [hadj, htl]
      refine ⟨hWF.memA_lt n hna, hnotin1 n hnq, hWF.tails_le n hna, ?_, ?_⟩
      · intro m hm
        rw [hQB]
        have := hWF.headActive n hna m hm
        simpa using this
      · intro m hm1 hm2b
        rw [hQB]
        have := hWF.tailInactive n hna m hm1 hm2b
        simpa using this
    · intro n hn m hm1 hm2b
      beta_reduce at hm1
      have hna : n ∈ s.activeList := (List.mem_filter.mp (p2.mem_iff.mp hn)).1
      rw [hQB] at hm1 ⊢
      rw [induce_extendTP_restore s hWF u excl n hna] at hm1
      rw [induce_adjLen s hWF u excl n] at hm2b
      rw [induce_getN_ge s hWF u excl n hna m hm1]
      have := hWF.tailInactive n hna m hm1 hm2b
      simpa using this
  · -- the older frames: transfer the existing invariant
    have hstepA : framesOK (induceFromSelfMutate s u excl).adjList s.active.length
        s.activeList (fun n => getN s.activeTails n) (framesOf s.droppedVerts) := by
      refine framesOK_adj_congr s.active.length (framesOf s.droppedVerts)
        s.adjList (induceFromSelfMutate s u excl).adjList s.activeList
        (fun n => getN s.activeTails n) (fun n => induce_adjLen s hWF u excl n)
        ?_ ?_ hOK
      · intro n hn m hm
        exact induce_getN_ge s hWF u excl n hn m hm
      · intro n hn
        exact (p8 n (Or.inl hn)).1
    refine framesOK_congr (induceFromSelfMutate s u excl).adjList s.active.length
      (framesOf s.droppedVerts) s.activeList
      ((induceFromSelfMutate s u excl).activeList ++ ds)
      (fun n => getN s.activeTails n) _ ?_ ?_ hstepA
    · intro x
      rw [List.mem_append]
      constructor
      · intro hx
        by_cases hq : getB (inducedBitmap s u excl) x = true
        · exact Or.inl (p2.mem_iff.mpr (List.mem_filter.mpr ⟨hx, hq⟩))
        · exact Or.inr ((hm2 x).mpr ⟨hx, by simpa using hq⟩)
      · intro hx
        rcases hx with hx | hx
        · exact (List.mem_filter.mp (p2.mem_iff.mp hx)).1
        · exact ((hm2 x).mp hx).1
    · intro n
      beta_reduce
      by_cases hn : n ∈ (induceFromSelfMutate s u excl).activeList ++ ds
      · rw [if_pos hn, hQB]
        rcases List.mem_append.mp hn with hk | hd
        · have hna : n ∈ s.activeList := (List.mem_filter.mp (p2.mem_iff.mp hk)).1
          rw [induce_extendTP_restore s hWF u excl n hna]
        · obtain ⟨hna, hnq⟩ := (hm2 n).mp hd
          obtain ⟨hadj, htl⟩ := p8 n (Or.inr hnq)
          rw [hadj, htl, extendTP_stop_at_tail s hWF n hna]
      · rw [if_neg hn]
        by_cases hna : n ∈ s.activeList
        · exfalso
          apply hn
          rw [List.mem_append]
          by_cases hq : getB (inducedBitmap s u excl) n = true
          · exact Or.inl (p2.mem_iff.mpr (List.mem_filter.mpr ⟨hna, hq⟩))
          · exact Or.inr ((hm2 n).mpr ⟨hna, by simpa using hq⟩)
        · rw [(p8 n (Or.inl hna)).2]

/-- `UndoSelfMutate` preserves full coherence whenever a dropped frame exists. -/
theorem coherent_undo (s : SubGraph) (hC : Coherent s) (D : List Nat)
    (rest : List (List Nat)) (hfr : framesOf s.droppedVerts = D :: rest) :
    Coherent (undoSelfMutate s) := by
  obtain ⟨hWF, hOK⟩ := hC
  rw [hfr] at hOK
  obtain ⟨⟨f1, f2, f3⟩, hrest⟩ := hOK
  obtain ⟨hpop, hlast⟩ := framesOf_pop s.droppedVerts D rest hfr
  have h0 : undoSelfMutate s =
      { active := setAll s.active D,
        activeList := s.activeList ++ D,
        adjList := s.adjList,
        activeTails := (s.activeList ++ D).foldl
          (fun t v => t.set v (extendT (setAll s.active D) (getL s.adjList v) (getN t v)))
          s.activeTails,
        droppedVerts := popFrame s.droppedVerts,
        pivotNonNeighs := s.pivotNonNeighs } := by
    rw [← hlast]
    rfl
  rw [h0]
  have hdisj : ∀ x ∈ D, x ∉ s.activeList := fun x hx => (f2 x hx).2.1
  have hnd2 : (s.activeList ++ D).Nodup := by
    refine List.Nodup.append hWF.nodupA f1 ?_
    intro x hx1 hx2
    exact hdisj x hx2 hx1
  have hact2 : ∀ x, getB (setAll s.active D) x = QB s.activeList D x := by
    intro x
    rw [getB_setAll, QB]
    by_cases hxd : x ∈ D
    · rw [if_pos ⟨hxd, (f2 x hxd).1⟩]
      simp [hxd]
    · rw [if_neg (fun hc => hxd hc.1)]
      by_cases hxa : x ∈ s.activeList
      · rw [(hWF.bitmap x).mpr hxa]
        simp [hxa]
      · have hb : getB s.active x = false := by
          by_cases hb2 : getB s.active x = true
          · exact absurd ((hWF.bitmap x).mp hb2) hxa
          · simpa using hb2
        rw [hb]
        simp [hxa, hxd]
  have hQBiff : ∀ x, QB s.activeList D x = true ↔ x ∈ s.activeList ++ D := by
    intro x
    rw [QB, List.mem_append]
    simp
  have hlen2 : (setAll s.active D).length = s.active.length := setAll_length _ _
  have htle : ∀ x ∈ s.activeList ++ D,
      getN s.activeTails x ≤ (getL s.adjList x).length := by
    intro x hx
    rcases List.mem_append.mp hx with hxa | hxd
    · exact hWF.tails_le x hxa
    · exact (f2 x hxd).2.2.1
  have hxlt : ∀ x ∈ s.activeList ++ D, x < s.active.length := by
    intro x hx
    rcases List.mem_append.mp hx with hxa | hxd
    · exact hWF.memA_lt x hxa
    · exact (f2 x hxd).1
  have htails : ∀ x, getN ((s.activeList ++ D).foldl
      (fun t v => t.set v (extendT (setAll s.active D) (getL s.adjList v) (getN t v)))
      s.activeTails) x =
      if x ∈ s.activeList ++ D then
        extendTP (QB s.activeList D) (getL s.adjList x) (getN s.activeTails x)
      else getN s.activeTails x := by
    intro x
    rw [tailsFold_getN _ _ _ hnd2 _ x]
    by_cases hx : x ∈ s.activeList ++ D
    · have hxl : x < s.activeTails.length := by
        rw [hWF.len_tails]
        exact hxlt x hx
      rw [if_pos ⟨hx, hxl⟩, if_pos hx]
      exact extendT_eq_extendTP _ _ _ _ (fun v _ => hact2 v)
    · rw [if_neg (fun hc => hx hc.1), if_neg hx]
  have hstop_D : ∀ x ∈ D,
      extendTP (QB s.activeList D) (getL s.adjList x) (getN s.activeTails x) =
        getN s.activeTails x := by
    intro x hxd
    have hb3 : getN s.activeTails x ≤ (getL s.adjList x).length := (f2 x hxd).2.2.1
    have hb5 : ∀ m, getN s.activeTails x ≤ m → m < (getL s.adjList x).length →
        QB s.activeList D (getN (getL s.adjList x) m) = false := (f2 x hxd).2.2.2.2
    refine extendTP_eq _ _ _ _ (le_refl _) hb3 (fun m hm1 hm2 => by omega) ?_
    by_cases hend : getN s.activeTails x < (getL s.adjList x).length
    · exact Or.inr (hb5 _ (le_refl _) hend)
    · exact Or.inl (by omega)
  constructor
  · refine ⟨?_, ?_, ?_, ?_, ?_, ?_, ?_, ?_, ?_, ?_, ?_⟩
    · show s.adjList.length = (setAll s.active D).length
      rw [hlen2]
      exact hWF.len_adj
    · show ((s.activeList ++ D).foldl
          (fun t v => t.set v (extendT (setAll s.active D) (getL s.adjList v) (getN t v)))
          s.activeTails).length = (setAll s.active D).length
      rw [tailsFold_length, hlen2]
      exact hWF.len_tails
    · show (s.activeList ++ D).Nodup
      exact hnd2
    · show ∀ n ∈ s.activeList ++ D, n < (setAll s.active D).length
      intro n hn
      rw [hlen2]
      exact hxlt n hn
    · show ∀ n, getB (setAll s.active D) n = true ↔ n ∈ s.activeList ++ D
      intro n
      rw [hact2 n, hQBiff n]
    · show ∀ n ∈ s.activeList ++ D, getN ((s.activeList ++ D).foldl
          (fun t v => t.set v (extendT (setAll s.active D) (getL s.adjList v) (getN t v)))
          s.activeTails) n ≤ (getL s.adjList n).length
      intro n hn
      rw [htails n, if_pos hn]
      exact extendTP_le _ _ _ (htle n hn)
    · show ∀ n ∈ s.activeList ++ D, ∀ m, m < getN ((s.activeList ++ D).foldl
          (fun t v => t.set v (extendT (setAll s.active D) (getL s.adjList v) (getN t v)))
          s.activeTails) n → getN (getL s.adjList n) m ∈ s.activeList ++ D
      intro n hn m hm
      rw [htails n, if_pos hn] at hm
      rw [← hQBiff]
      by_cases hcase : m < getN s.activeTails n
      · rcases List.mem_append.mp hn with hna | hnd
        · have := hWF.headActive n hna m hcase
          rw [QB]
          simp [this]
        · exact (f2 n hnd).2.2.2.1 m hcase
      · exact extendTP_mid _ _ _ m (by omega) hm
    · show ∀ n ∈ s.activeList ++ D, ∀ m, getN ((s.activeList ++ D).foldl
          (fun t v => t.set v (extendT (setAll s.active D) (getL s.adjList v) (getN t v)))
          s.activeTails) n ≤ m → m < (getL s.adjList n).length →
          getN (getL s.adjList n) m ∉ s.activeList ++ D
      intro n hn m hm1 hm2
      rw [htails n, if_pos hn] at hm1
      intro hc
      have hc2 := (hQBiff _).mpr hc
      rcases List.mem_append.mp hn with hna | hnd
      · have := f3 n hna m ?_ hm2
        · rw [hc2] at this
          cases this
        · beta_reduce
          exact hm1
      · rw [hstop_D n hnd] at hm1
        have := (f2 n hnd).2.2.2.2 m hm1 hm2
        rw [hc2] at this
        cases this
    · show ∀ n, ∀ v ∈ getL s.adjList n, v < (setAll s.active D).length
      intro n v hv
      rw [hlen2]
      exact hWF.adj_lt n v hv
    · show ∀ n, n ∉ getL s.adjList n
      exact hWF.no_self
    · show ∀ n v, v ∈ getL s.adjList n → n ∈ getL s.adjList v
      exact hWF.symm
  · show framesOK s.adjList (setAll s.active D).length (s.activeList ++ D)
      (fun n => getN ((s.activeList ++ D).foldl
        (fun t v => t.set v (extendT (setAll s.active D) (getL s.adjList v) (getN t v)))
        s.activeTails) n)
      (framesOf (popFrame s.droppedVerts))
    rw [hlen2, hpop]
    refine framesOK_congr s.adjList s.active.length rest (s.activeList ++ D)
      (s.activeList ++ D) _ _ (fun x => Iff.rfl) ?_ hrest
    intro n
    beta_reduce
    rw [htails n]

/-! ### InduceFromDAG: local adjacency characterization and coherence -/

/-- One insertion step of `InduceFromDAG`: if w is also an out-neighbour of the
root, append each endpoint to the other endpoint's local list. -/
def dagStep (nbrs : List Nat) (v : Nat) (acc2 : List (List Nat)) (w : Nat) :
    List (List Nat) :=
  if w ∈ nbrs then
    (acc2.set (nbrs.indexOf v) (getL acc2 (nbrs.indexOf v) ++ [nbrs.indexOf w])).set
      (nbrs.indexOf w)
      (getL (acc2.set (nbrs.indexOf v) (getL acc2 (nbrs.indexOf v) ++ [nbrs.indexOf w]))
        (nbrs.indexOf w) ++ [nbrs.indexOf v])
  else acc2

/-- The local adjacency built by `InduceFromDAG`. -/
def dagAdj (dag : GraphM) (u : Nat) : List (List Nat) :=
  (dag.adj u).foldl
    (fun acc v => (dag.adj v).foldl (dagStep (dag.adj u) v) acc)
    (List.replicate (dag.adj u).length [])

theorem induceFromDAG_adjList (dag : GraphM) (u : Nat) :
    (induceFromDAG dag u).adjList = dagAdj dag u := rfl

theorem dagStep_length (nbrs : List Nat) (v : Nat) (acc2 : List (List Nat)) (w : Nat) :
    (dagStep nbrs v acc2 w).length = acc2.length := by
  rw [dagStep]
  by_cases hw : w ∈ nbrs
  · rw [if_pos hw, List.length_set, List.length_set]
  · rw [if_neg hw]

theorem innerFold_length (nbrs : List Nat) (v : Nat) (ws : List Nat) :
    ∀ acc2, ((ws.foldl (dagStep nbrs v) acc2)).length = acc2.length := by
  induction ws with
  | nil => intro acc2; rfl
  | cons w ws ih =>
    intro acc2
    rw [List.foldl_cons, ih, dagStep_length]

theorem dagStep_getL (nbrs : List Nat) (v : Nat) (acc2 : List (List Nat)) (w : Nat)
    (hlen : acc2.length = nbrs.length) (hv : v ∈ nbrs) (a : Nat) :
    getL (dagStep nbrs v acc2 w) a = getL acc2 a ++
      (if w ∈ nbrs then
        (if a = nbrs.indexOf v then [nbrs.indexOf w] else []) ++
        (if a = nbrs.indexOf w then [nbrs.indexOf v] else [])
      else []) := by
  rw [dagStep]
  by_cases hw : w ∈ nbrs
  · have hvr : nbrs.indexOf v < acc2.length := by
      rw [hlen]
      exact List.indexOf_lt_length.mpr hv
    have hwr : nbrs.indexOf w < acc2.length := by
      rw [hlen]
      exact List.indexOf_lt_length.mpr hw
    rw [if_pos hw, if_pos hw, getL_set]
    by_cases h2 : a = nbrs.indexOf w
    · rw [if_pos ⟨h2.symm, by rw [List.length_set]; exact hwr⟩, getL_set]
      by_cases h1 : a = nbrs.indexOf v
      · rw [if_pos ⟨by rw [← h1, h2], hvr⟩, if_pos h1, if_pos h2, ← h1,
          List.append_assoc]
      · rw [if_neg (fun hc => h1 (by rw [h2, ← hc.1])), if_neg h1, if_pos h2, ← h2,
          List.nil_append]
    · rw [if_neg (fun hc => h2 hc.1.symm), getL_set]
      by_cases h1 : a = nbrs.indexOf v
      · rw [if_pos ⟨h1.symm, hvr⟩, if_pos h1, if_neg h2, ← h1, List.append_nil]
      · rw [if_neg (fun hc => h1 hc.1.symm), if_neg h1, if_neg h2]
        simp
  · rw [if_neg hw, if_neg hw, List.append_nil]

theorem mem_dagStep (nbrs : List Nat) (v : Nat) (acc2 : List (List Nat)) (w : Nat)
    (hlen : acc2.length = nbrs.length) (hv : v ∈ nbrs) (a x : Nat) :
    x ∈ getL (dagStep nbrs v acc2 w) a ↔
      x ∈ getL acc2 a ∨ (w ∈ nbrs ∧
        ((a = nbrs.indexOf v ∧ x = nbrs.indexOf w) ∨
         (a = nbrs.indexOf w ∧ x = nbrs.indexOf v))) := by
  rw [dagStep_getL nbrs v acc2 w hlen hv a]
  by_cases hw : w ∈ nbrs <;> by_cases h1 : a = nbrs.indexOf v <;>
    by_cases h2 : a = nbrs.indexOf w <;> simp [hw, h1, h2] <;> tauto

theorem mem_innerFold (nbrs : List Nat) (v : Nat) (hv : v ∈ nbrs) (ws : List Nat) :
    ∀ acc2, acc2.length = nbrs.length → ∀ a x,
      (x ∈ getL (ws.foldl (dagStep nbrs v) acc2) a ↔
        x ∈ getL acc2 a ∨ ∃ w ∈ ws, w ∈ nbrs ∧
          ((a = nbrs.indexOf v ∧ x = nbrs.indexOf w) ∨
           (a = nbrs.indexOf w ∧ x = nbrs.indexOf v))) := by
  induction ws with
  | nil =>
    intro acc2 hlen a x
    simp
  | cons w ws ih =>
    intro acc2 hlen a x
    rw [List.foldl_cons, ih _ (by rw [dagStep_length]; exact hlen) a x,
      mem_dagStep nbrs v acc2 w hlen hv a x]
    constructor
    · rintro ((hx | hx) | ⟨w2, hw2, hx⟩)
      · exact Or.inl hx
      · exact Or.inr ⟨w, List.mem_cons_self _ _, hx⟩
      · exact Or.inr ⟨w2, List.mem_cons_of_mem _ hw2, hx⟩
    · rintro (hx | ⟨w2, hw2, hx⟩)
      · exact Or.inl (Or.inl hx)
      · rcases List.mem_cons.mp hw2 with hw2 | hw2
      

        · subst hw2
          exact Or.inl (Or.inr hx)
        · exact Or.inr ⟨w2, hw2, hx⟩

theorem mem_outerFold (dag : GraphM) (nbrs : List Nat) (vs : List Nat) :
    ∀ acc, (∀ v ∈ vs, v ∈ nbrs) → acc.length = nbrs.length → ∀ a x,
      (x ∈ getL (vs.foldl (fun acc2 v => (dag.adj v).foldl (dagStep nbrs v) acc2) acc) a ↔
        x ∈ getL acc a ∨ ∃ v ∈ vs, ∃ w ∈ dag.adj v, w ∈ nbrs ∧
          ((a = nbrs.indexOf v ∧ x = nbrs.indexOf w) ∨
           (a = nbrs.indexOf w ∧ x = nbrs.indexOf v))) := by
  induction vs with
  | nil =>
    intro acc hvs hlen a x
    simp
  | cons v vs ih =>
    intro acc hvs hlen a x
    have hv : v ∈ nbrs := hvs v (List.mem_cons_self _ _)
    rw [List.foldl_cons,
      ih _ (fun v2 hv2 => hvs v2 (List.mem_cons_of_mem _ hv2))
        (by rw [innerFold_length]; exact hlen) a x,
      mem_innerFold nbrs v hv (dag.adj v) acc hlen a x]
    constructor
    · rintro ((hx | ⟨w, hw, hx⟩) | ⟨v2, hv2, hx⟩)
      · exact Or.inl hx
      · exact Or.inr ⟨v, List.mem_cons_self _ _, w, hw, hx⟩
      · obtain ⟨w2, hw2, hx2⟩ := hx
        exact Or.inr ⟨v2, List.mem_cons_of_mem _ hv2, w2, hw2, hx2⟩
    · rintro (hx | ⟨v2, hv2, w2, hw2, hx⟩)
      · exact Or.inl (Or.inl hx)
      · rcases List.mem_cons.mp hv2 with hv2 | hv2
        · subst hv2
          exact Or.inl (Or.inr ⟨w2, hw2, hx⟩)
        · exact Or.inr ⟨v2, hv2, w2, hw2, hx⟩

theorem getL_replicate_nil (d a : Nat) : getL (List.replicate d ([] : List Nat)) a = [] := by
  rw [getL]
  by_cases h : a < d
  · rw [List.getD_eq_getElem _ _ (by simpa using h), List.getElem_replicate]
  · rw [List.getD_eq_default _ _ (by simpa using h)]

theorem outerFold_length (dag : GraphM) (nbrs : List Nat) (vs : List Nat) :
    ∀ acc, ((vs.foldl (fun acc2 v => (dag.adj v).foldl (dagStep nbrs v) acc2) acc)).length =
      acc.length := by
  induction vs with
  | nil => intro acc; rfl
  | cons v vs ih =>
    intro acc
    rw [List.foldl_cons, ih, innerFold_length]

theorem dagAdj_length (dag : GraphM) (u : Nat) :
    (dagAdj dag u).length = (dag.adj u).length := by
  rw [dagAdj, outerFold_length, List.length_replicate]

theorem mem_dagAdj (dag : GraphM) (u : Nat) (a x : Nat) :
    x ∈ getL (dagAdj dag u) a ↔
      ∃ v ∈ dag.adj u, ∃ w ∈ dag.adj v, w ∈ dag.adj u ∧
        ((a = (dag.adj u).indexOf v ∧ x = (dag.adj u).indexOf w) ∨
         (a = (dag.adj u).indexOf w ∧ x = (dag.adj u).indexOf v)) := by
  rw [dagAdj, mem_outerFold dag (dag.adj u) (dag.adj u) _ (fun v hv => hv)
    (by rw [List.length_replicate]) a x, getL_replicate_nil]
  simp

theorem getB_replicate_true (d a : Nat) :
    getB (List.replicate d true) a = decide (a < d) := by
  rw [getB]
  by_cases h : a < d
  · rw [List.getD_eq_getElem _ _ (by simpa using h), List.getElem_replicate]
    simp [h]
  · rw [List.getD_eq_default _ _ (by simpa using h)]
    simp [h]

theorem getN_map_length (l : List (List Nat)) (n : Nat) (hn : n < l.length) :
    getN (l.map (fun x => x.length)) n = (getL l n).length := by
  rw [getN, getL, List.getD_eq_getElem _ _ (by simpa using hn),
    List.getD_eq_getElem _ _ hn, List.getElem_map]

/-- Every entry of a local neighbour list is a legal local id. -/
theorem dagAdj_entry_lt (dag : GraphM) (u : Nat) (a x : Nat)
    (hx : x ∈ getL (dagAdj dag u) a) : x < (dag.adj u).length := by
  rw [mem_dagAdj] at hx
  obtain ⟨v, hv, w, hw, hwn, hcase⟩ := hx
  rcases hcase with ⟨h1, h2⟩ | ⟨h1, h2⟩
  · rw [h2]
    exact List.indexOf_lt_length.mpr hwn
  · rw [h2]
    exact List.indexOf_lt_length.mpr hv

/-- `InduceFromDAG` establishes well-formedness. -/
theorem induceFromDAG_WF (dag : GraphM) (u : Nat) (hnd : (dag.adj u).Nodup)
    (hns : ∀ v, v ∉ dag.adj v) : WF (induceFromDAG dag u) := by
  have e1 : (induceFromDAG dag u).active = List.replicate (dag.adj u).length true := rfl
  have e2 : (induceFromDAG dag u).activeList = List.range (dag.adj u).length := rfl
  have e3 : (induceFromDAG dag u).adjList = dagAdj dag u := rfl
  have e4 : (induceFromDAG dag u).activeTails =
      (dagAdj dag u).map (fun l => l.length) := rfl
  refine ⟨?_, ?_, ?_, ?_, ?_, ?_, ?_, ?_, ?_, ?_, ?_⟩
  · rw [e1, e3, dagAdj_length, List.length_replicate]
  · rw [e1, e4, List.length_map, dagAdj_length, List.length_replicate]
  · rw [e2]
    exact List.nodup_range _
  · intro n hn
    rw [e2, List.mem_range] at hn
    rw [e1, List.length_replicate]
    exact hn
  · intro n
    rw [e1, e2, getB_replicate_true, List.mem_range]
    simp
  · intro n hn
    rw [e2, List.mem_range] at hn
    rw [e3, e4, getN_map_length _ _ (by rw [dagAdj_length]; exact hn)]
  · intro n hn m hm
    rw [e2, List.mem_range] at hn
    rw [e4, getN_map_length _ _ (by rw [dagAdj_length]; exact hn)] at hm
    rw [e2, e3, List.mem_range]
    have hmem : getN (getL (dagAdj dag u) n) m ∈ getL (dagAdj dag u) n := by
      rw [getN_eq_getElem _ _ hm]
      exact List.getElem_mem hm
    exact dagAdj_entry_lt dag u n _ hmem
  · intro n hn m hm1 hm2
    rw [e2, List.mem_range] at hn
    rw [e3] at hm2
    rw [e4, getN_map_length _ _ (by rw [dagAdj_length]; exact hn)] at hm1
    omega
  · intro n v hv
    rw [e3] at hv
    rw [e1, List.length_replicate]
    exact dagAdj_entry_lt dag u n v hv
  · intro n hc
    rw [e3, mem_dagAdj] at hc
    obtain ⟨v, hv, w, hw, hwn, hcase⟩ := hc
    have hvw : v = w := by
      rcases hcase with ⟨h1, h2⟩ | ⟨h1, h2⟩
      · exact (List.indexOf_inj hv hwn).mp (by rw [← h1, ← h2])
      · exact (List.indexOf_inj hv hwn).mp (by rw [← h1, ← h2])
    rw [hvw] at hw
    exact hns w hw
  · intro n v hv
    rw [e3, mem_dagAdj] at hv ⊢
    obtain ⟨v2, hv2, w2, hw2, hwn2, hcase⟩ := hv
    refine ⟨v2, hv2, w2, hw2, hwn2, ?_⟩
    tauto

theorem coherent_induceFromDAG (dag : GraphM) (u : Nat) (hnd : (dag.adj u).Nodup)
    (hns : ∀ v, v ∉ dag.adj v) : Coherent (induceFromDAG dag u) := by
  refine ⟨induceFromDAG_WF dag u hnd hns, ?_⟩
  have e5 : framesOf (induceFromDAG dag u).droppedVerts = [] := rfl
  rw [e5]
  trivial

/-! ### The reachable states of the recursion -/

/-- States reachable by the sequence of `SubGraph` operations the recursion
actually performs, starting from `InduceFromDAG`. -/
inductive Reachable (dag : GraphM) : SubGraph → Prop where
  | init (u : Nat) : Reachable dag (induceFromDAG dag u)
  | pivotFrame {s : SubGraph} (p : Nat) (h : Reachable dag s) (hp : p ∈ s.activeList) :
      Reachable dag (activeUnreachableFromPivot s p)
  | popNN {s : SubGraph} (h : Reachable dag s) : Reachable dag (popNonNeighbors s)
  | induce {s : SubGraph} (v : Nat) (excl : List Nat) (h : Reachable dag s)
      (hv : v ∈ s.activeList) : Reachable dag (induceFromSelfMutate s v excl)
  | undo {s : SubGraph} (h : Reachable dag s) (hne : framesOf s.droppedVerts ≠ []) :
      Reachable dag (undoSelfMutate s)

/-- Every reachable state is coherent (in particular well-formed). -/
theorem reach_coherent (dag : GraphM) (hnd : ∀ x, (dag.adj x).Nodup)
    (hns : ∀ x, x ∉ dag.adj x) (s : SubGraph) (h : Reachable dag s) : Coherent s := by
  induction h with
  | init u => exact coherent_induceFromDAG dag u (hnd u) hns
  | pivotFrame p h hp ih => exact coherent_activeUnreachable _ ih p hp
  | popNN h ih => exact coherent_popNonNeighbors _ ih
  | induce v excl h hv ih => exact coherent_induce _ ih v hv excl
  | @undo s2 h hne ih =>
    cases hl : framesOf s2.droppedVerts with
    | nil => exact absurd hl hne
    | cons Dr rest => exact coherent_undo s2 ih Dr rest hl

/-! ### Concrete DAG for witnesses, and simplicity helpers -/

/-- Decidable check that a finite table is a legal DAG adjacency (duplicate-free
rows, no self-loops). -/
def tableDagOKB (t : List (List Nat)) : Bool :=
  (List.range t.length).all fun u => decide ((getL t u).Nodup) && decide (u ∉ getL t u)

theorem tableDag_nodup (t : List (List Nat)) (h : tableDagOKB t = true) :
    ∀ x, ((tableGraph t).adj x).Nodup := by
  intro x
  by_cases hx : x < t.length
  · rw [tableDagOKB, List.all_eq_true] at h
    have := h x (List.mem_range.mpr hx)
    rw [Bool.and_eq_true] at this
    simpa using this.1
  · show (getL t x).Nodup
    rw [getL_oob t x (by omega)]
    exact List.nodup_nil

theorem tableDag_noself (t : List (List Nat)) (h : tableDagOKB t = true) :
    ∀ x, x ∉ (tableGraph t).adj x := by
  intro x
  by_cases hx : x < t.length
  · rw [tableDagOKB, List.all_eq_true] at h
    have := h x (List.mem_range.mpr hx)
    rw [Bool.and_eq_true] at this
    simpa using this.2
  · show x ∉ getL t x
    rw [getL_oob t x (by omega)]
    exact List.not_mem_nil x

/-- A small DAG (out-lists of a 4-vertex acyclic orientation) used as the
concrete instance for the SubGraph claims. -/
def dagT : List (List Nat) := [[1, 2, 3], [2], [], []]

/-- Well-formedness packages the two halves of the tail partition. -/
theorem WF_partition (s : SubGraph) (hWF : WF s) (n : Nat) (hn : n ∈ s.activeList) :
    (∀ m, m < getN s.activeTails n →
      getB s.active (getN (getL s.adjList n) m) = true) ∧
    (∀ m, getN s.activeTails n ≤ m → m < (getL s.adjList n).length →
      getB s.active (getN (getL s.adjList n) m) = false) := by
  constructor
  · intro m hm
    exact (hWF.bitmap _).mpr (hWF.headActive n hn m hm)
  · intro m hm1 hm2
    have := hWF.tailInactive n hn m hm1 hm2
    by_cases hb : getB s.active (getN (getL s.adjList n) m) = true
    · exact absurd ((hWF.bitmap _).mp hb) this
    · simpa using hb

/-! ### Claim C3 -/

/-- C3: for a reachable state and an active pivot p, `ActiveUnreachableFromPivot`
returns exactly the active vertices outside `adj[p][0..tail[p])` — p included —
in active-list order, and the bitmap again matches the active list. -/
theorem activeUnreachable_frame_and_bitmap (dag : GraphM)
    (hnd : ∀ x, (dag.adj x).Nodup) (hns : ∀ x, x ∉ dag.adj x)
    (s : SubGraph) (hreach : Reachable dag s) (p : Nat) (hp : p ∈ s.activeList) :
    lastFrameIter (activeUnreachableFromPivot s p).pivotNonNeighs =
      s.activeList.filter (fun n => decide (n ∉ neighsOf s p)) ∧
    p ∈ lastFrameIter (activeUnreachableFromPivot s p).pivotNonNeighs ∧
    (∀ n, getB (activeUnreachableFromPivot s p).active n = true ↔
      n ∈ (activeUnreachableFromPivot s p).activeList) := by
  have hWF := (reach_coherent dag hnd hns s hreach).1
  obtain ⟨e1, e2⟩ := activeUnreachable_spec s hWF p hp
  have hfr : lastFrameIter (activeUnreachableFromPivot s p).pivotNonNeighs =
      s.activeList.filter (fun n => decide (n ∉ neighsOf s p)) := by
    rw [e2]
    exact lastFrameIter_push_new _ _ _
  refine ⟨hfr, ?_, ?_⟩
  · rw [hfr, List.mem_filter]
    refine ⟨hp, ?_⟩
    simp only [decide_eq_true_eq]
    intro hc
    exact hWF.no_self p (List.take_subset _ _ hc)
  · intro n
    have e3 : (activeUnreachableFromPivot s p).activeList = s.activeList := rfl
    rw [e1, e3]
    exact hWF.bitmap n

/-- Witness for C3 on the concrete DAG (root 0, pivot 0). -/
theorem activeUnreachable_frame_and_bitmap_witness :
    lastFrameIter (activeUnreachableFromPivot
        (induceFromDAG (tableGraph dagT) 0) 0).pivotNonNeighs =
      (induceFromDAG (tableGraph dagT) 0).activeList.filter
        (fun n => decide (n ∉ neighsOf (induceFromDAG (tableGraph dagT) 0) 0)) ∧
    0 ∈ lastFrameIter (activeUnreachableFromPivot
        (induceFromDAG (tableGraph dagT) 0) 0).pivotNonNeighs ∧
    (∀ n, getB (activeUnreachableFromPivot
        (induceFromDAG (tableGraph dagT) 0) 0).active n = true ↔
      n ∈ (activeUnreachableFromPivot (induceFromDAG (tableGraph dagT) 0) 0).activeList) :=
  activeUnreachable_frame_and_bitmap (tableGraph dagT)
    (tableDag_nodup dagT (by decide)) (tableDag_noself dagT (by decide))
    (induceFromDAG (tableGraph dagT) 0) (Reachable.init 0) 0 (by decide)

/-! ### Claim C2 -/

/-- C2 counterexample: the active list is not restored exactly — undoing the
induce of local vertex 2 from the root-0 subgraph of `dagT` yields active list
[0, 2, 1], not the original [0, 1, 2]. -/
theorem undo_induce_activeList_not_equal :
    Reachable (tableGraph dagT) (induceFromDAG (tableGraph dagT) 0) ∧
    2 ∈ (induceFromDAG (tableGraph dagT) 0).activeList ∧
    (undoSelfMutate (induceFromSelfMutate
        (induceFromDAG (tableGraph dagT) 0) 2 [])).activeList ≠
      (induceFromDAG (tableGraph dagT) 0).activeList :=
  ⟨Reachable.init 0, by decide, by decide⟩

/-- C2 (amended): undoing an induce restores the active bitmap and every tail
exactly, and restores the active list up to order (as a permutation). -/
theorem undo_induce_restores (dag : GraphM) (hnd : ∀ x, (dag.adj x).Nodup)
    (hns : ∀ x, x ∉ dag.adj x) (s : SubGraph) (hreach : Reachable dag s)
    (v : Nat) (hv : v ∈ s.activeList) (excl : List Nat) :
    (undoSelfMutate (induceFromSelfMutate s v excl)).activeList.Perm s.activeList ∧
    (undoSelfMutate (induceFromSelfMutate s v excl)).active = s.active ∧
    (undoSelfMutate (induceFromSelfMutate s v excl)).activeTails = s.activeTails := by
  have hWF := (reach_coherent dag hnd hns s hreach).1
  have h := undo_restore s hWF v hv excl (induceFromSelfMutate s v excl) (equivSG_refl _)
  exact ⟨h.2.1, h.1, h.2.2.1⟩

/-- Witness for the amended C2 on the concrete DAG. -/
theorem undo_induce_restores_witness :
    (undoSelfMutate (induceFromSelfMutate
        (induceFromDAG (tableGraph dagT) 0) 2 [])).activeList.Perm
      (induceFromDAG (tableGraph dagT) 0).activeList ∧
    (undoSelfMutate (induceFromSelfMutate
        (induceFromDAG (tableGraph dagT) 0) 2 [])).active =
      (induceFromDAG (tableGraph dagT) 0).active ∧
    (undoSelfMutate (induceFromSelfMutate
        (induceFromDAG (tableGraph dagT) 0) 2 [])).activeTails =
      (induceFromDAG (tableGraph dagT) 0).activeTails :=
  undo_induce_restores (tableGraph dagT)
    (tableDag_nodup dagT (by decide)) (tableDag_noself dagT (by decide))
    (induceFromDAG (tableGraph dagT) 0) (Reachable.init 0) 2 (by decide) []

/-! ### Claim C4 -/

/-- C4 counterexample: after an induce the tail partition fails for a vertex
outside the new candidate set (the spec table claims it for every n). -/
theorem induce_partition_not_all_verts :
    Reachable (tableGraph dagT) (induceFromDAG (tableGraph dagT) 0) ∧
    2 ∈ (induceFromDAG (tableGraph dagT) 0).activeList ∧
    ¬ (∀ n m, m < getN (induceFromSelfMutate
          (induceFromDAG (tableGraph dagT) 0) 2 []).activeTails n →
        getB (induceFromSelfMutate (induceFromDAG (tableGraph dagT) 0) 2 []).active
          (getN (getL (induceFromSelfMutate
            (induceFromDAG (tableGraph dagT) 0) 2 []).adjList n) m) = true) := by
  refine ⟨Reachable.init 0, by decide, fun hall => ?_⟩
  have h := hall 0 0 (by decide)
  revert h
  decide

/-- C4 (amended): after `InduceFromDAG` the tail partition holds for every local
vertex, and after every `InduceFromSelfMutate` from a reachable state it holds
for every vertex of the new candidate set P'. -/
theorem partition_after_induce (dag : GraphM) (hnd : ∀ x, (dag.adj x).Nodup)
    (hns : ∀ x, x ∉ dag.adj x) :
    (∀ u n,
      (∀ m, m < getN (induceFromDAG dag u).activeTails n →
        getB (induceFromDAG dag u).active
          (getN (getL (induceFromDAG dag u).adjList n) m) = true) ∧
      (∀ m, getN (induceFromDAG dag u).activeTails n ≤ m →
        m < (getL (induceFromDAG dag u).adjList n).length →
        getB (induceFromDAG dag u).active
          (getN (getL (induceFromDAG dag u).adjList n) m) = false)) ∧
    (∀ s, Reachable dag s → ∀ v ∈ s.activeList, ∀ excl,
      ∀ n ∈ (induceFromSelfMutate s v excl).activeList,
        (∀ m, m < getN (induceFromSelfMutate s v excl).activeTails n →
          getB (induceFromSelfMutate s v excl).active
            (getN (getL (induceFromSelfMutate s v excl).adjList n) m) = true) ∧
        (∀ m, getN (induceFromSelfMutate s v excl).activeTails n ≤ m →
          m < (getL (induceFromSelfMutate s v excl).adjList n).length →
          getB (induceFromSelfMutate s v excl).active
            (getN (getL (induceFromSelfMutate s v excl).adjList n) m) = false)) := by
  constructor
  · intro u n
    have hWF := induceFromDAG_WF dag u (hnd u) hns
    by_cases hn : n < (dag.adj u).length
    · have hmem : n ∈ (induceFromDAG dag u).activeList := by
        show n ∈ List.range (dag.adj u).length
        exact List.mem_range.mpr hn
      exact WF_partition _ hWF n hmem
    · constructor
      · intro m hm
        have hz : getN (induceFromDAG dag u).activeTails n = 0 := by
          show getN ((dagAdj dag u).map (fun l => l.length)) n = 0
          rw [getN, List.getD_eq_default]
          rw [List.length_map, dagAdj_length]
          omega
        omega
      · intro m hm1 hm2
        have hz : getL (induceFromDAG dag u).adjList n = [] := by
          show getL (dagAdj dag u) n = []
          exact getL_oob _ _ (by rw [dagAdj_length]; omega)
        rw [hz] at hm2
        simp at hm2
  · intro s hreach v hv excl n hn
    have hWF := (reach_coherent dag hnd hns s hreach).1
    exact WF_partition _ (induce_WF s hWF v hv excl) n hn

/-- Witness for the amended C4 on the concrete DAG. -/
theorem partition_after_induce_witness :
    (∀ u n,
      (∀ m, m < getN (induceFromDAG (tableGraph dagT) u).activeTails n →
        getB (induceFromDAG (tableGraph dagT) u).active
          (getN (getL (induceFromDAG (tableGraph dagT) u).adjList n) m) = true) ∧
      (∀ m, getN (induceFromDAG (tableGraph dagT) u).activeTails n ≤ m →
        m < (getL (induceFromDAG (tableGraph dagT) u).adjList n).length →
        getB (induceFromDAG (tableGraph dagT) u).active
          (getN (getL (induceFromDAG (tableGraph dagT) u).adjList n) m) = false)) ∧
    (∀ s, Reachable (tableGraph dagT) s → ∀ v ∈ s.activeList, ∀ excl,
      ∀ n ∈ (induceFromSelfMutate s v excl).activeList,
        (∀ m, m < getN (induceFromSelfMutate s v excl).activeTails n →
          getB (induceFromSelfMutate s v excl).active
            (getN (getL (induceFromSelfMutate s v excl).adjList n) m) = true) ∧
        (∀ m, getN (induceFromSelfMutate s v excl).activeTails n ≤ m →
          m < (getL (induceFromSelfMutate s v excl).adjList n).length →
          getB (induceFromSelfMutate s v excl).active
            (getN (getL (induceFromSelfMutate s v excl).adjList n) m) = false)) :=
  partition_after_induce (tableGraph dagT)
    (tableDag_nodup dagT (by decide)) (tableDag_noself dagT (by decide))

/-! ### Pivoting weights and abstract clique sums -/

/-- Weight that a node with p pivots and h held vertices contributes to clique
slot j on behalf of a clique of size m of its candidate graph. -/
def Wt (p j h m : Nat) : Nat :=
  if h + m ≤ j then Nat.choose p (j - h - m) else 0

theorem Wt_shift (p j h m : Nat) : Wt p j (h + 1) m = Wt p j h (m + 1) := by
  rw [Wt, Wt]
  by_cases hc : h + 1 + m ≤ j
  · rw [if_pos hc, if_pos (by omega)]
    have h2 : j - (h + 1) - m = j - h - (m + 1) := by omega
    rw [h2]
  · rw [if_neg hc, if_neg (by omega)]

theorem Wt_pascal (p j h m : Nat) :
    Wt p j h m + Wt p j h (m + 1) = Wt (p + 1) j h m := by
  by_cases h1 : h + m ≤ j
  · by_cases h2 : h + (m + 1) ≤ j
    · rw [Wt, Wt, Wt, if_pos h1, if_pos h2, if_pos h1]
      obtain ⟨c, hc⟩ : ∃ c, j - h - m = c + 1 := ⟨j - h - m - 1, by omega⟩
      rw [hc]
      have h3 : j - h - (m + 1) = c := by omega
      rw [h3, Nat.choose_succ_succ]
      simp only [Nat.succ_eq_add_one]
      omega
    · rw [Wt, Wt, Wt, if_pos h1, if_neg h2, if_pos h1]
      have h3 : j - h - m = 0 := by omega
      rw [h3]
      simp
  · rw [Wt, Wt, Wt, if_neg h1, if_neg (by omega), if_neg h1]

/-- Clique predicate over a boolean adjacency. -/
abbrev IsCliqueB (adjb : Nat → Nat → Bool) (S : Finset Nat) : Prop :=
  ∀ a ∈ S, ∀ b ∈ S, a ≠ b → adjb a b = true

/-- All cliques (of any size) inside the vertex set V. -/
def cliquesB (V : Finset Nat) (adjb : Nat → Nat → Bool) : Finset (Finset Nat) :=
  V.powerset.filter (IsCliqueB adjb)

/-- The weighted clique sum computed by a pivot-recursion node. -/
def cliqueWSum (V : Finset Nat) (adjb : Nat → Nat → Bool) (p j h : Nat) : Nat :=
  Finset.sum (cliquesB V adjb) (fun S => Wt p j h S.card)

theorem mem_cliquesB (V : Finset Nat) (adjb : Nat → Nat → Bool) (S : Finset Nat) :
    S ∈ cliquesB V adjb ↔ S ⊆ V ∧ IsCliqueB adjb S := by
  rw [cliquesB, Finset.mem_filter, Finset.mem_powerset]

theorem cliquesB_congr (V : Finset Nat) (adjb1 adjb2 : Nat → Nat → Bool)
    (h : ∀ a ∈ V, ∀ b ∈ V, adjb1 a b = adjb2 a b) :
    cliquesB V adjb1 = cliquesB V adjb2 := by
  rw [cliquesB, cliquesB]
  apply Finset.filter_congr
  intro S hS
  rw [Finset.mem_powerset] at hS
  constructor
  · intro hc a ha b hb hab
    rw [← h a (hS ha) b (hS hb)]
    exact hc a ha b hb hab
  · intro hc a ha b hb hab
    rw [h a (hS ha) b (hS hb)]
    exact hc a ha b hb hab

theorem cliqueWSum_congr (V : Finset Nat) (adjb1 adjb2 : Nat → Nat → Bool)
    (h : ∀ a ∈ V, ∀ b ∈ V, adjb1 a b = adjb2 a b) (p j hh : Nat) :
    cliqueWSum V adjb1 p j hh = cliqueWSum V adjb2 p j hh := by
  rw [cliqueWSum, cliqueWSum, cliquesB_congr V adjb1 adjb2 h]

theorem cliquesB_empty (adjb : Nat → Nat → Bool) : cliquesB ∅ adjb = {∅} := by
  rw [cliquesB, Finset.powerset_empty, Finset.filter_singleton,
    if_pos (fun a ha => absurd ha (Finset.not_mem_empty a))]

theorem cliqueWSum_empty (adjb : Nat → Nat → Bool) (p j h : Nat) :
    cliqueWSum ∅ adjb p j h = Wt p j h 0 := by
  rw [cliqueWSum, cliquesB_empty, Finset.sum_singleton, Finset.card_empty]

theorem cliqueWSum_prune (V : Finset Nat) (adjb : Nat → Nat → Bool) (p j h : Nat)
    (hbound : V.card + h + p < j) : cliqueWSum V adjb p j h = 0 := by
  rw [cliqueWSum]
  apply Finset.sum_eq_zero
  intro S hS
  rw [mem_cliquesB] at hS
  have hcard : S.card ≤ V.card := Finset.card_le_card hS.1
  rw [Wt, if_pos (by omega)]
  exact Nat.choose_eq_zero_of_lt (by omega)

theorem cliqueWSum_at_max (V : Finset Nat) (adjb : Nat → Nat → Bool) (p j : Nat) :
    cliqueWSum V adjb p j j = 1 := by
  have hmem : (∅ : Finset Nat) ∈ cliquesB V adjb := by
    rw [mem_cliquesB]
    exact ⟨Finset.empty_subset V, fun a ha => absurd ha (Finset.not_mem_empty a)⟩
  have hzero : ∀ S ∈ cliquesB V adjb, S ≠ ∅ → Wt p j j S.card = 0 := by
    intro S hS hSne
    have hpos : 0 < S.card := Finset.card_pos.mpr (Finset.nonempty_iff_ne_empty.mpr hSne)
    rw [Wt, if_neg (by omega)]
  have h1 := Finset.sum_eq_single_of_mem (∅ : Finset Nat) hmem hzero
  rw [cliqueWSum, h1, Finset.card_empty, Wt, if_pos (by omega)]
  have h2 : j - j - 0 = 0 := by omega
  rw [h2, Nat.choose_zero_right]

/-! ### The pivot partition of the clique family -/

/-- Fiber assignment of the pivot partition: a clique goes to the least
non-neighbour of the pivot it contains, or to the pivot itself. -/
def pivotAssign (U : Finset Nat) (pv : Nat) (S : Finset Nat) : Nat :=
  if hne : (S ∩ U.erase pv).Nonempty then (S ∩ U.erase pv).min' hne else pv

theorem pivotAssign_mem (U : Finset Nat) (pv : Nat) (S : Finset Nat) (hpv : pv ∈ U) :
    pivotAssign U pv S ∈ U := by
  rw [pivotAssign]
  split
  · next hne =>
    have h := Finset.min'_mem _ hne
    rw [Finset.mem_inter] at h
    exact Finset.mem_of_mem_erase h.2
  · next => exact hpv

theorem pivotAssign_eq_iff_ne (U : Finset Nat) (pv : Nat) (S : Finset Nat) (v : Nat)
    (hv : v ∈ U.erase pv) :
    pivotAssign U pv S = v ↔ v ∈ S ∧ ∀ w ∈ S ∩ U.erase pv, v ≤ w := by
  have hvpv : v ≠ pv := (Finset.mem_erase.mp hv).1
  constructor
  · intro h
    by_cases hne : (S ∩ U.erase pv).Nonempty
    · rw [pivotAssign, dif_pos hne] at h
      have hm := Finset.min'_mem _ hne
      rw [h, Finset.mem_inter] at hm
      refine ⟨hm.1, fun w hw => ?_⟩
      rw [← h]
      exact Finset.min'_le _ w hw
    · rw [pivotAssign, dif_neg hne] at h
      exact absurd h.symm hvpv
  · rintro ⟨hvS, hmin⟩
    have hvin : v ∈ S ∩ U.erase pv := Finset.mem_inter.mpr ⟨hvS, hv⟩
    have hne : (S ∩ U.erase pv).Nonempty := ⟨v, hvin⟩
    rw [pivotAssign, dif_pos hne]
    exact le_antisymm (Finset.min'_le _ v hvin) (Finset.le_min' _ _ _ hmin)

theorem pivotAssign_eq_pivot_iff (U : Finset Nat) (pv : Nat) (S : Finset Nat) :
    pivotAssign U pv S = pv ↔ S ∩ U.erase pv = ∅ := by
  by_cases hne : (S ∩ U.erase pv).Nonempty
  · rw [pivotAssign, dif_pos hne]
    constructor
    · intro h
      have hm := Finset.min'_mem _ hne
      rw [h, Finset.mem_inter, Finset.mem_erase] at hm
      exact absurd rfl hm.2.1
    · intro h
      rw [h] at hne
      exact absurd hne (by simp)
  · rw [pivotAssign, dif_neg hne]
    rw [Finset.not_nonempty_iff_eq_empty] at hne
    exact ⟨fun _ => hne, fun _ => rfl⟩

/-- Fiber of a non-pivot branch vertex v: cliques whose least pivot-non-neighbour
is v correspond to cliques of v's exclusion-filtered neighbourhood. -/
theorem fiber_branch (V : Finset Nat) (adjb : Nat → Nat → Bool)
    (hsym : ∀ a ∈ V, ∀ b ∈ V, adjb a b = adjb b a) (hirr : ∀ a, adjb a a = false)
    (pv : Nat) (v : Nat) (hvV : v ∈ V) (hvn : adjb pv v = false) (hvp : v ≠ pv)
    (p j h : Nat) :
    Finset.sum ((cliquesB V adjb).filter
        (fun S => pivotAssign (V.filter (fun x => adjb pv x = false)) pv S = v))
      (fun S => Wt p j h S.card) =
    cliqueWSum (V.filter (fun x => adjb v x = true ∧ ¬ (adjb pv x = false ∧ x < v)))
      adjb p j (h + 1) := by
  have hvU : v ∈ (V.filter (fun x => adjb pv x = false)).erase pv :=
    Finset.mem_erase.mpr ⟨hvp, Finset.mem_filter.mpr ⟨hvV, hvn⟩⟩
  have hfib : ∀ S, S ∈ (cliquesB V adjb).filter
      (fun S => pivotAssign (V.filter (fun x => adjb pv x = false)) pv S = v) ↔
      (S ⊆ V ∧ IsCliqueB adjb S) ∧ v ∈ S ∧
        ∀ w ∈ S ∩ (V.filter (fun x => adjb pv x = false)).erase pv, v ≤ w := by
    intro S
    rw [Finset.mem_filter, mem_cliquesB, pivotAssign_eq_iff_ne _ _ _ _ hvU]
  rw [cliqueWSum]
  refine Finset.sum_bij' (fun S _ => S.erase v) (fun S _ => insert v S) ?_ ?_ ?_ ?_ ?_
  · intro S hS
    rw [hfib S] at hS
    obtain ⟨⟨hsub, hclq⟩, hvS, hmin⟩ := hS
    rw [mem_cliquesB]
    constructor
    · intro x hx
      rw [Finset.mem_erase] at hx
      obtain ⟨hxv, hxS⟩ := hx
      rw [Finset.mem_filter]
      refine ⟨hsub hxS, hclq v hvS x hxS (fun hc => hxv hc.symm), ?_⟩
      rintro ⟨hpf, hlt⟩
      have hxpv : x ≠ pv := by
        intro hc
        subst hc
        have := hclq x hxS v hvS (Ne.symm hvp)
        rw [hvn] at this
        cases this
      have hxin : x ∈ S ∩ (V.filter fun y => adjb pv y = false).erase pv :=
        Finset.mem_inter.mpr ⟨hxS, Finset.mem_erase.mpr ⟨hxpv,
          Finset.mem_filter.mpr ⟨hsub hxS, hpf⟩⟩⟩
      exact absurd (hmin x hxin) (by omega)
    · intro a ha b hb hab
      rw [Finset.mem_erase] at ha hb
      exact hclq a ha.2 b hb.2 hab
  · intro S hS
    rw [mem_cliquesB] at hS
    obtain ⟨hsub, hclq⟩ := hS
    have hsubV : ∀ x ∈ S, x ∈ V := by
      intro x hx
      exact (Finset.mem_filter.mp (hsub hx)).1
    rw [hfib]
    refine ⟨⟨?_, ?_⟩, Finset.mem_insert_self v S, ?_⟩
    · intro x hx
      rcases Finset.mem_insert.mp hx with hx | hx
      · rw [hx]
        exact hvV
      · exact hsubV x hx
    · intro a ha b hb hab
      rcases Finset.mem_insert.mp ha with ha | ha <;>
        rcases Finset.mem_insert.mp hb with hb | hb
      · exact absurd (ha.trans hb.symm) hab
      · rw [ha]
        exact (Finset.mem_filter.mp (hsub hb)).2.1
      · rw [hb, hsym a (hsubV a ha) v hvV]
        exact (Finset.mem_filter.mp (hsub ha)).2.1
      · exact hclq a ha b hb hab
    · intro w hw
      rw [Finset.mem_inter] at hw
      obtain ⟨hwS, hwU⟩ := hw
      rcases Finset.mem_insert.mp hwS with hw2 | hw2
      · omega
      · have hCv := Finset.mem_filter.mp (hsub hw2)
        rw [Finset.mem_erase, Finset.mem_filter] at hwU
        by_contra hlt
        exact hCv.2.2 ⟨hwU.2.2, by omega⟩
  · intro S hS
    rw [hfib] at hS
    exact Finset.insert_erase hS.2.1
  · intro S hS
    rw [mem_cliquesB] at hS
    have hvnotS : v ∉ S := by
      intro hc
      have := (Finset.mem_filter.mp (hS.1 hc)).2.1
      rw [hirr v] at this
      cases this
    exact Finset.erase_insert hvnotS
  · intro S hS
    rw [hfib] at hS
    have hvS := hS.2.1
    have hcard : S.card = (S.erase v).card + 1 := by
      rw [Finset.card_erase_of_mem hvS]
      have := Finset.card_pos.mpr ⟨v, hvS⟩
      omega
    rw [hcard, ← Wt_shift]

/-- Fiber of the pivot itself: cliques inside the closed neighbourhood of the
pivot, which pair up to give the p+1 weight by Pascal. -/
theorem fiber_pivot (V : Finset Nat) (adjb : Nat → Nat → Bool)
    (hsym : ∀ a ∈ V, ∀ b ∈ V, adjb a b = adjb b a) (hirr : ∀ a, adjb a a = false)
    (pv : Nat) (hpv : pv ∈ V) (p j h : Nat) :
    Finset.sum ((cliquesB V adjb).filter
        (fun S => pivotAssign (V.filter (fun x => adjb pv x = false)) pv S = pv))
      (fun S => Wt p j h S.card) =
    cliqueWSum (V.filter (fun x => adjb pv x = true)) adjb (p + 1) j h := by
  have hfib : (cliquesB V adjb).filter
      (fun S => pivotAssign (V.filter (fun x => adjb pv x = false)) pv S = pv) =
      (cliquesB V adjb).filter
      (fun S => S ∩ (V.filter (fun x => adjb pv x = false)).erase pv = ∅) := by
    apply Finset.filter_congr
    intro S _
    rw [pivotAssign_eq_pivot_iff]
  have hsplit := Finset.sum_filter_add_sum_filter_not
    ((cliquesB V adjb).filter
      (fun S => S ∩ (V.filter (fun x => adjb pv x = false)).erase pv = ∅))
    (fun S => pv ∈ S) (fun S => Wt p j h S.card)
  rw [hfib, ← hsplit]
  have hwithout : ((cliquesB V adjb).filter
      (fun S => S ∩ (V.filter (fun x => adjb pv x = false)).erase pv = ∅)).filter
      (fun S => ¬ pv ∈ S) =
      cliquesB (V.filter (fun x => adjb pv x = true)) adjb := by
    apply Finset.ext
    intro S
    rw [Finset.mem_filter, Finset.mem_filter, mem_cliquesB, mem_cliquesB]
    constructor
    · rintro ⟨⟨⟨hsub, hclq⟩, hemp⟩, hnpv⟩
      refine ⟨?_, hclq⟩
      intro x hx
      rw [Finset.mem_filter]
      refine ⟨hsub hx, ?_⟩
      by_cases hb : adjb pv x = true
      · exact hb
      · exfalso
        have hxpv : x ≠ pv := fun hc => hnpv (hc ▸ hx)
        have hxin : x ∈ S ∩ (V.filter (fun y => adjb pv y = false)).erase pv :=
          Finset.mem_inter.mpr ⟨hx, Finset.mem_erase.mpr ⟨hxpv,
            Finset.mem_filter.mpr ⟨hsub hx, by simpa using hb⟩⟩⟩
        rw [hemp] at hxin
        exact absurd hxin (Finset.not_mem_empty x)
    · rintro ⟨hsub, hclq⟩
      have hsubV : S ⊆ V := fun x hx => (Finset.mem_filter.mp (hsub hx)).1
      have hpvS : pv ∉ S := by
        intro hc
        have := (Finset.mem_filter.mp (hsub hc)).2
        rw [hirr pv] at this
        cases this
      refine ⟨⟨⟨hsubV, hclq⟩, ?_⟩, hpvS⟩
      apply Finset.eq_empty_iff_forall_not_mem.mpr
      intro x hx
      rw [Finset.mem_inter, Finset.mem_erase, Finset.mem_filter] at hx
      have := (Finset.mem_filter.mp (hsub hx.1)).2
      rw [hx.2.2.2] at this
      cases this
  have hwith : Finset.sum (((cliquesB V adjb).filter
      (fun S => S ∩ (V.filter (fun x => adjb pv x = false)).erase pv = ∅)).filter
      (fun S => pv ∈ S)) (fun S => Wt p j h S.card) =
      Finset.sum (cliquesB (V.filter (fun x => adjb pv x = true)) adjb)
        (fun S => Wt p j h (S.card + 1)) := by
    refine Finset.sum_bij' (fun S _ => S.erase pv) (fun S _ => insert pv S) ?_ ?_ ?_ ?_ ?_
    · intro S hS
      rw [Finset.mem_filter, Finset.mem_filter, mem_cliquesB] at hS
      obtain ⟨⟨⟨hsub, hclq⟩, hemp⟩, hpvS⟩ := hS
      rw [mem_cliquesB]
      constructor
      · intro x hx
        rw [Finset.mem_erase] at hx
        obtain ⟨hxpv, hxS⟩ := hx
        rw [Finset.mem_filter]
        refine ⟨hsub hxS, ?_⟩
        by_cases hb : adjb pv x = true
        · exact hb
        · exfalso
          have hxin : x ∈ S ∩ (V.filter (fun y => adjb pv y = false)).erase pv :=
            Finset.mem_inter.mpr ⟨hxS, Finset.mem_erase.mpr ⟨hxpv,
              Finset.mem_filter.mpr ⟨hsub hxS, by simpa using hb⟩⟩⟩
          rw [hemp] at hxin
          exact absurd hxin (Finset.not_mem_empty x)
      · intro a ha b hb hab
        rw [Finset.mem_erase] at ha hb
        exact hclq a ha.2 b hb.2 hab
    · intro S hS
      rw [mem_cliquesB] at hS
      obtain ⟨hsub, hclq⟩ := hS
      have hsubV : ∀ x ∈ S, x ∈ V := fun x hx => (Finset.mem_filter.mp (hsub hx)).1
      have hpvS : pv ∉ S := by
        intro hc
        have := (Finset.mem_filter.mp (hsub hc)).2
        rw [hirr pv] at this
        cases this
      rw [Finset.mem_filter, Finset.mem_filter, mem_cliquesB]
      refine ⟨⟨⟨?_, ?_⟩, ?_⟩, Finset.mem_insert_self pv S⟩
      · intro x hx
        rcases Finset.mem_insert.mp hx with hx | hx
        · rw [hx]
          exact hpv
        · exact hsubV x hx
      · intro a ha b hb hab
        rcases Finset.mem_insert.mp ha with ha | ha <;>
          rcases Finset.mem_insert.mp hb with hb | hb
        · exact absurd (ha.trans hb.symm) hab
        · rw [ha]
          exact (Finset.mem_filter.mp (hsub hb)).2
        · rw [hb, hsym a (hsubV a ha) pv hpv]
          exact (Finset.mem_filter.mp (hsub ha)).2
        · exact hclq a ha b hb hab
      · apply Finset.eq_empty_iff_forall_not_mem.mpr
        intro x hx
        rw [Finset.mem_inter, Finset.mem_erase, Finset.mem_filter] at hx
        obtain ⟨hxS, hxpv, hxV, hxf⟩ := hx
        rcases Finset.mem_insert.mp hxS with hx2 | hx2
        · exact hxpv hx2
        · have := (Finset.mem_filter.mp (hsub hx2)).2
          rw [hxf] at this
          cases this
    · intro S hS
      rw [Finset.mem_filter] at hS
      exact Finset.insert_erase hS.2
    · intro S hS
      rw [mem_cliquesB] at hS
      have hpvS : pv ∉ S := by
        intro hc
        have := (Finset.mem_filter.mp (hS.1 hc)).2
        rw [hirr pv] at this
        cases this
      exact Finset.erase_insert hpvS
    · intro S hS
      rw [Finset.mem_filter] at hS
      have hpvS := hS.2
      have hcard : S.card = (S.erase pv).card + 1 := by
        rw [Finset.card_erase_of_mem hpvS]
        have := Finset.card_pos.mpr ⟨pv, hpvS⟩
        omega
      rw [hcard]
  rw [hwith, hwithout, cliqueWSum, ← Finset.sum_add_distrib]
  apply Finset.sum_congr rfl
  intro S _
  rw [Nat.add_comm (Wt p j h (S.card + 1)) (Wt p j h S.card)]
  exact Wt_pascal p j h S.card

/-- The pivot partition identity: the weighted clique sum of V splits over the
branches the recursion actually takes. -/
theorem cliqueWSum_pivot (V : Finset Nat) (adjb : Nat → Nat → Bool)
    (hsym : ∀ a ∈ V, ∀ b ∈ V, adjb a b = adjb b a) (hirr : ∀ a, adjb a a = false)
    (pv : Nat) (hpv : pv ∈ V) (p j h : Nat) :
    cliqueWSum V adjb p j h =
      Finset.sum (V.filter (fun x => adjb pv x = false))
        (fun v => if v = pv then
            cliqueWSum (V.filter (fun x => adjb pv x = true)) adjb (p + 1) j h
          else cliqueWSum (V.filter (fun x => adjb v x = true ∧
            ¬ (adjb pv x = false ∧ x < v))) adjb p j (h + 1)) := by
  have hpvU : pv ∈ V.filter (fun x => adjb pv x = false) :=
    Finset.mem_filter.mpr ⟨hpv, hirr pv⟩
  have hmaps : ∀ S ∈ cliquesB V adjb,
      pivotAssign (V.filter (fun x => adjb pv x = false)) pv S ∈
        V.filter (fun x => adjb pv x = false) :=
    fun S _ => pivotAssign_mem _ pv S hpvU
  rw [cliqueWSum, ← Finset.sum_fiberwise_of_maps_to hmaps (fun S => Wt p j h S.card)]
  apply Finset.sum_congr rfl
  intro v hv
  by_cases hvp : v = pv
  · rw [if_pos hvp, hvp]
    exact fiber_pivot V adjb hsym hirr pv hpv p j h
  · rw [if_neg hvp]
    rw [Finset.mem_filter] at hv
    exact fiber_branch V adjb hsym hirr pv v hv.1 hv.2 hvp p j h

/-! ### The abstract graph of a SubGraph state -/

/-- Vertex set of the abstract candidate graph. -/
def AV (s : SubGraph) : Finset Nat := s.activeList.toFinset

/-- Boolean adjacency of the abstract candidate graph: the neighbour spans. -/
def aAdj (s : SubGraph) (a b : Nat) : Bool := decide (b ∈ neighsOf s a)

theorem mem_AV (s : SubGraph) (x : Nat) : x ∈ AV s ↔ x ∈ s.activeList :=
  List.mem_toFinset

/-- An active vertex occurring anywhere in an active vertex's neighbour list
occurs in its span. -/
theorem active_adj_mem_neighs (s : SubGraph) (hWF : WF s) (b : Nat)
    (hb : b ∈ s.activeList) (a : Nat) (ha : a ∈ s.activeList)
    (hmem : a ∈ getL s.adjList b) : a ∈ neighsOf s b := by
  by_contra hc
  have hsplit : a ∈ (getL s.adjList b).take (getN s.activeTails b) ∨
      a ∈ (getL s.adjList b).drop (getN s.activeTails b) := by
    rw [← List.mem_append, List.take_append_drop]
    exact hmem
  rcases hsplit with h | h
  · exact hc h
  · obtain ⟨i, hi, hei⟩ := List.mem_iff_getElem.mp h
    have h2 : getN ((getL s.adjList b).drop (getN s.activeTails b)) i = a := by
      rw [getN_eq_getElem _ _ hi, hei]
    rw [getN_drop] at h2
    have hlen : getN s.activeTails b + i < (getL s.adjList b).length := by
      rw [List.length_drop] at hi
      omega
    have := hWF.tailInactive b hb (getN s.activeTails b + i) (by omega) hlen
    rw [h2] at this
    exact this ha

theorem neighs_symm (s : SubGraph) (hWF : WF s) (a b : Nat) (ha : a ∈ s.activeList)
    (hb : b ∈ s.activeList) : b ∈ neighsOf s a ↔ a ∈ neighsOf s b := by
  constructor
  · intro h
    exact active_adj_mem_neighs s hWF b hb a ha
      (hWF.symm a b (List.take_subset _ _ h))
  · intro h
    exact active_adj_mem_neighs s hWF a ha b hb
      (hWF.symm b a (List.take_subset _ _ h))

theorem aAdj_symm (s : SubGraph) (hWF : WF s) :
    ∀ a ∈ AV s, ∀ b ∈ AV s, aAdj s a b = aAdj s b a := by
  intro a ha b hb
  rw [mem_AV] at ha hb
  rw [aAdj, aAdj, decide_eq_decide]
  exact neighs_symm s hWF a b ha hb

theorem aAdj_irr (s : SubGraph) (hWF : WF s) : ∀ a, aAdj s a a = false := by
  intro a
  rw [aAdj, decide_eq_false_iff_not]
  intro hc
  exact hWF.no_self a (List.take_subset _ _ hc)

theorem equiv_AV (s s2 : SubGraph) (heq : EquivSG s s2) : AV s2 = AV s :=
  List.toFinset_eq_of_perm _ _ heq.2.1

theorem equiv_aAdj (s s2 : SubGraph) (heq : EquivSG s s2) :
    ∀ a ∈ AV s, ∀ b, aAdj s2 a b = aAdj s a b := by
  intro a ha b
  rw [mem_AV] at ha
  obtain ⟨a1, a2, a3, a4, a5, a6, a7, a8, a9⟩ := heq
  rw [aAdj, aAdj, decide_eq_decide, neighsOf, neighsOf, a3]
  exact (a8 a ha).1.mem_iff

theorem AV_card (s : SubGraph) (hWF : WF s) : (AV s).card = numActive s :=
  List.toFinset_card_of_nodup hWF.nodupA

/-- The abstract vertex set after an induce. -/
theorem induce_AV (s : SubGraph) (hWF : WF s) (v : Nat) (excl : List Nat) :
    AV (induceFromSelfMutate s v excl) =
      (AV s).filter (fun x => getB (inducedBitmap s v excl) x) := by
  obtain ⟨p1, p2, p3, p4, p5, p6, p7, p8⟩ := induce_parts s hWF v excl
  rw [AV, List.toFinset_eq_of_perm _ _ p2, List.toFinset_filter]
  rfl

/-- The abstract adjacency is unchanged on surviving vertices. -/
theorem induce_aAdj (s : SubGraph) (hWF : WF s) (v : Nat) (hv : v ∈ s.activeList)
    (excl : List Nat) :
    ∀ a ∈ AV (induceFromSelfMutate s v excl),
      ∀ b ∈ AV (induceFromSelfMutate s v excl),
        aAdj (induceFromSelfMutate s v excl) a b = aAdj s a b := by
  intro a ha b hb
  rw [induce_AV s hWF v excl, Finset.mem_filter, mem_AV] at ha hb
  rw [aAdj, aAdj, decide_eq_decide,
    induce_neighs_mem s hWF v excl a ha.1 ha.2 b]
  constructor
  · intro h
    exact h.1
  · intro h
    exact ⟨h, hb.2⟩

theorem foldl_max_mem (tails : List Nat) (l : List Nat) :
    ∀ (m : Nat) (L : List Nat), m ∈ L → (∀ x ∈ l, x ∈ L) →
      l.foldl (fun m n => if getN tails m < getN tails n then n else m) m ∈ L := by
  induction l with
  | nil =>
    intro m L hm _
    exact hm
  | cons x l ih =>
    intro m L hm hl
    rw [List.foldl_cons]
    have hstep : (if getN tails m < getN tails x then x else m) ∈ L := by
      split
    

      · exact hl x (List.mem_cons_self _ _)
      · exact hm
    exact ih _ L hstep (fun y hy => hl y (List.mem_cons_of_mem _ hy))

theorem findPivot_mem (s : SubGraph) (hne : s.activeList ≠ []) :
    findPivot s ∈ s.activeList := by
  obtain ⟨a, l, hal⟩ : ∃ a l, s.activeList = a :: l := by
    cases hc : s.activeList with
    | nil => exact absurd hc hne
    | cons a l => exact ⟨a, l, rfl⟩
  rw [findPivot, hal]
  exact foldl_max_mem s.activeTails (a :: l) ((a :: l).headD 0) (a :: l)
    (List.mem_cons_self _ _) (fun x hx => hx)

/-! ### The fixed-k pivot recursion (comb_cache.h PivotRecurse / PivotCount) -/

/-- The loop body of `PivotRecurse`: fold the branch results over the frame,
adding counts and undoing the state after each branch. -/
def pivotFold (g : SubGraph → Nat → Nat × SubGraph) (frame : List Nat)
    (init : Nat × SubGraph) : Nat × SubGraph :=
  frame.foldl (fun cs v => (cs.1 + (g cs.2 v).1, undoSelfMutate (g cs.2 v).2)) init

/-- `sg->PopNonNeighbors(); return count;`. -/
def finishPNN (r : Nat × SubGraph) : Nat × SubGraph := (r.1, popNonNeighbors r.2)

/-- `PivotRecurse(sg, max_k, clique_size, num_pivots)` of the fixed-k counter;
the fuel argument only bounds the recursion depth (each induce drops at least
the induced vertex, so `NumActive+1` fuel at the root is never exhausted). -/
def pivotRecurse (maxk : Nat) : Nat → SubGraph → Nat → Nat → Nat × SubGraph
  | 0, s, _, _ => (0, s)
  | fuel + 1, s, cliqueSize, numPivots =>
    if numActive s + cliqueSize < maxk then (0, s)
    else if numActive s = 0 ∨ cliqueSize - numPivots = maxk then
      (nChooseK numPivots (maxk - (cliqueSize - numPivots)), s)
    else
      finishPNN (pivotFold
        (fun st v =>
          if v = findPivot s then
            pivotRecurse maxk fuel (induceFromSelfMutate st v [])
              (cliqueSize + 1) (numPivots + 1)
          else
            pivotRecurse maxk fuel (induceFromSelfMutate st v
                (lastFrameIter (activeUnreachableFromPivot s
                  (findPivot s)).pivotNonNeighs))
              (cliqueSize + 1) numPivots)
        (lastFrameIter (activeUnreachableFromPivot s (findPivot s)).pivotNonNeighs)
        (0, activeUnreachableFromPivot s (findPivot s)))

/-- `PivotCount(dag, k)`: sum the per-root recursions (the parallel reduction
is modelled as a left fold over the roots). -/
def pivotCount (dag : GraphM) (k : Nat) : Nat :=
  (List.range dag.n).foldl
    (fun c v => c + (pivotRecurse k (numActive (induceFromDAG dag v) + 1)
      (induceFromDAG dag v) 1 0).1) 0

/-- Generic correctness of the branch fold: if every branch from an equivalent
state returns its abstract value and an equivalent state after undo, the fold
accumulates the sum over the frame. -/
theorem pivotFold_spec (sBase : SubGraph) (g : SubGraph → Nat → Nat × SubGraph)
    (bv : Nat → Nat) (F : List Nat)
    (hg : ∀ st v, EquivSG sBase st → v ∈ F →
      (g st v).1 = bv v ∧ EquivSG sBase (undoSelfMutate (g st v).2)) :
    ∀ (F2 : List Nat), F2.Sublist F → F2.Nodup →
      ∀ (init : Nat × SubGraph), EquivSG sBase init.2 →
      (pivotFold g F2 init).1 = init.1 + Finset.sum F2.toFinset bv ∧
      EquivSG sBase (pivotFold g F2 init).2 := by
  intro F2
  induction F2 with
  | nil =>
    intro _ _ init hinit
    constructor
    · rw [pivotFold, List.foldl_nil]
      simp
    · exact hinit
  | cons v F2 ih =>
    intro hsub hnd init hinit
    have hvF : v ∈ F := hsub.subset (List.mem_cons_self _ _)
    obtain ⟨hbv, hequiv⟩ := hg init.2 v hinit hvF
    have hstep : pivotFold g (v :: F2) init =
        pivotFold g F2 (init.1 + (g init.2 v).1, undoSelfMutate (g init.2 v).2) := by
      rw [pivotFold, List.foldl_cons, ← pivotFold]
    rw [hstep]
    obtain ⟨h1, h2⟩ := ih (List.sublist_of_cons_sublist hsub)
      (List.nodup_cons.mp hnd).2
      (init.1 + (g init.2 v).1, undoSelfMutate (g init.2 v).2) hequiv
    refine ⟨?_, h2⟩
    rw [h1]
    have hvnot : v ∉ F2.toFinset := by
      rw [List.mem_toFinset]
      exact (List.nodup_cons.mp hnd).1
    rw [List.toFinset_cons, Finset.sum_insert hvnot, hbv]
    have he : (∑ x ∈ F2.toFinset, bv x) = Finset.sum F2.toFinset bv := rfl
    rw [he]
    omega

/-- Popping the non-neighbour frame at the end of the loop restores a state
equivalent to the one before `ActiveUnreachableFromPivot`. -/
theorem equiv_after_pop (s : SubGraph) (hWF : WF s) (p : Nat) (hp : p ∈ s.activeList)
    (r : SubGraph) (hr : EquivSG (activeUnreachableFromPivot s p) r) :
    EquivSG s (popNonNeighbors r) := by
  obtain ⟨hact1, hpnn1⟩ := activeUnreachable_spec s hWF p hp
  obtain ⟨a1, a2, a3, a4, a5, a6, a7, a8, a9⟩ := hr
  refine ⟨?_, a2, a3, a4, ?_, a6, a7, a8, a9⟩
  · show r.active = s.active
    rw [a1]
    exact hact1
  · show (popFrame r.pivotNonNeighs) = s.pivotNonNeighs
    rw [a5, hpnn1, popFrame_push_new]

/-- Child vertex set for the pivot branch (empty exclusion list). -/
theorem child_AV_pivotcase (s st : SubGraph) (hWFst : WF st) (hAV : AV st = AV s)
    (hAdj : ∀ a ∈ AV s, ∀ b, aAdj st a b = aAdj s a b) (pv : Nat)
    (hpvs : pv ∈ AV s) :
    AV (induceFromSelfMutate st pv []) =
      (AV s).filter (fun x => aAdj s pv x = true) := by
  rw [induce_AV st hWFst pv [], hAV]
  apply Finset.filter_congr
  intro x hx
  have h2 : decide (x ∈ neighsOf st pv) = aAdj s pv x := hAdj pv hpvs x
  rw [getB_inducedBitmap st hWFst pv [] x, h2]
  simp

/-- Child vertex set for a non-pivot branch (frame exclusion list). -/
theorem child_AV_branchcase (s st : SubGraph) (hWFst : WF st) (hAV : AV st = AV s)
    (hAdj : ∀ a ∈ AV s, ∀ b, aAdj st a b = aAdj s a b) (pv v : Nat)
    (hvs : v ∈ AV s) (F : List Nat)
    (hF : ∀ x, x ∈ F ↔ x ∈ s.activeList ∧ aAdj s pv x = false) :
    AV (induceFromSelfMutate st v F) =
      (AV s).filter (fun x => aAdj s v x = true ∧
        ¬ (aAdj s pv x = false ∧ x < v)) := by
  rw [induce_AV st hWFst v F, hAV]
  apply Finset.filter_congr
  intro x hx
  have h2 : decide (x ∈ neighsOf st v) = aAdj s v x := hAdj v hvs x
  have hxa : x ∈ s.activeList := (mem_AV s x).mp hx
  rw [getB_inducedBitmap st hWFst v F x, h2]
  constructor
  · intro hb
    rw [Bool.and_eq_true, Bool.not_eq_true', Bool.and_eq_false_iff] at hb
    refine ⟨hb.1, ?_⟩
    rintro ⟨hf, hlt⟩
    rcases hb.2 with hb2 | hb2
    · rw [decide_eq_false_iff_not] at hb2
      exact hb2 ((hF x).mpr ⟨hxa, hf⟩)
    · rw [decide_eq_false_iff_not] at hb2
      exact hb2 hlt
  · rintro ⟨h1, h2b⟩
    rw [Bool.and_eq_true, Bool.not_eq_true', Bool.and_eq_false_iff]
    refine ⟨h1, ?_⟩
    by_cases hxF : x ∈ F
    · right
      rw [decide_eq_false_iff_not]
      intro hlt
      exact h2b ⟨((hF x).mp hxF).2, hlt⟩
    · left
      rw [decide_eq_false_iff_not]
      exact hxF

/-- Child adjacency agrees with the parent abstract adjacency. -/
theorem child_aAdj_eq (s st : SubGraph) (hWFst : WF st) (hAV : AV st = AV s)
    (hAdj : ∀ a ∈ AV s, ∀ b, aAdj st a b = aAdj s a b) (v : Nat)
    (hv : v ∈ st.activeList) (excl : List Nat) :
    ∀ a ∈ AV (induceFromSelfMutate st v excl),
      ∀ b ∈ AV (induceFromSelfMutate st v excl),
        aAdj (induceFromSelfMutate st v excl) a b = aAdj s a b := by
  intro a ha b hb
  rw [induce_aAdj st hWFst v hv excl a ha b hb]
  have haAV : a ∈ AV s := by
    rw [← hAV]
    rw [induce_AV st hWFst v excl] at ha
    exact (Finset.mem_filter.mp ha).1
  exact hAdj a haAV b

theorem finishPNN_fst (r : Nat × SubGraph) : (finishPNN r).1 = r.1 := rfl

theorem finishPNN_snd (r : Nat × SubGraph) : (finishPNN r).2 = popNonNeighbors r.2 := rfl

/-- Correctness of the fixed-k recursion: it returns the weighted clique sum of
the abstract candidate graph and leaves an equivalent state. -/
theorem pivotRecurse_spec (K : Nat) :
    ∀ (fuel : Nat) (s : SubGraph) (cs pvN : Nat), WF s → numActive s < fuel →
      pvN ≤ cs → cs - pvN ≤ K →
      (pivotRecurse K fuel s cs pvN).1 = cliqueWSum (AV s) (aAdj s) pvN K (cs - pvN) ∧
      EquivSG s (pivotRecurse K fuel s cs pvN).2 := by
  intro fuel
  induction fuel with
  | zero =>
    intro s cs pvN hWF hfuel hple hhK
    omega
  | succ fuel ih =>
    intro s cs pvN hWF hfuel hple hhK
    rw [pivotRecurse]
    by_cases hprune : numActive s + cs < K
    · rw [if_pos hprune]
      have hb : (AV s).card + (cs - pvN) + pvN < K := by
        rw [AV_card s hWF]
        omega
      exact ⟨(cliqueWSum_prune _ _ _ _ _ hb).symm, equivSG_refl s⟩
    · rw [if_neg hprune]
      by_cases hbase : numActive s = 0 ∨ cs - pvN = K
      · rw [if_pos hbase]
        refine ⟨?_, equivSG_refl s⟩
        show nChooseK pvN (K - (cs - pvN)) = cliqueWSum (AV s) (aAdj s) pvN K (cs - pvN)
        rcases hbase with h0 | hK
        · have hAVe : AV s = ∅ := by
            rw [AV, List.length_eq_zero.mp h0]
            rfl
          rw [hAVe, cliqueWSum_empty, Wt, if_pos (by omega)]
          have h1 : K - (cs - pvN) - 0 = K - (cs - pvN) := by omega
          rw [h1]
          exact nChooseK_eq_choose _ _ (by rw [numActive] at h0 hprune; omega)
        · rw [hK, Nat.sub_self, cliqueWSum_at_max,
            nChooseK_eq_choose pvN 0 (Nat.zero_le _), Nat.choose_zero_right]
      · rw [if_neg hbase]
        have hbase2 : numActive s ≠ 0 ∧ cs - pvN ≠ K := by
          constructor
          · intro hc
            exact hbase (Or.inl hc)
          · intro hc
            exact hbase (Or.inr hc)
        have hne : s.activeList ≠ [] := by
          intro hc
          apply hbase2.1
          rw [numActive, hc]
          rfl
        have hpv : findPivot s ∈ s.activeList := findPivot_mem s hne
        obtain ⟨hact1, hpnn1⟩ := activeUnreachable_spec s hWF (findPivot s) hpv
        have hWF1 : WF (activeUnreachableFromPivot s (findPivot s)) :=
          WF_transfer s _ hact1 rfl rfl rfl hWF
        have hframe : lastFrameIter (activeUnreachableFromPivot s
            (findPivot s)).pivotNonNeighs =
            s.activeList.filter (fun n => decide (n ∉ neighsOf s (findPivot s))) := by
          rw [hpnn1]
          exact lastFrameIter_push_new _ _ _
        have hFmem : ∀ x, x ∈ lastFrameIter (activeUnreachableFromPivot s
            (findPivot s)).pivotNonNeighs ↔
            x ∈ s.activeList ∧ aAdj s (findPivot s) x = false := by
          intro x
          rw [hframe, List.mem_filter]
          constructor
          · rintro ⟨h1, h2⟩
            rw [decide_eq_true_eq] at h2
            exact ⟨h1, by rw [aAdj]; exact decide_eq_false h2⟩
          · rintro ⟨h1, h2⟩
            refine ⟨h1, ?_⟩
            rw [decide_eq_true_eq]
            rw [aAdj, decide_eq_false_iff_not] at h2
            exact h2
        have hFnodup : (lastFrameIter (activeUnreachableFromPivot s
            (findPivot s)).pivotNonNeighs).Nodup := by
          rw [hframe]
          exact hWF.nodupA.filter _
        have hg : ∀ st v, EquivSG (activeUnreachableFromPivot s (findPivot s)) st →
            v ∈ lastFrameIter (activeUnreachableFromPivot s (findPivot s)).pivotNonNeighs →
            (if v = findPivot s then
                pivotRecurse K fuel (induceFromSelfMutate st v [])
                  (cs + 1) (pvN + 1)
              else
                pivotRecurse K fuel (induceFromSelfMutate st v
                    (lastFrameIter (activeUnreachableFromPivot s
                      (findPivot s)).pivotNonNeighs))
                  (cs + 1) pvN).1 =
              (if v = findPivot s then
                  cliqueWSum ((AV s).filter (fun x => aAdj s (findPivot s) x = true))
                    (aAdj s) (pvN + 1) K (cs - pvN)
                else
                  cliqueWSum ((AV s).filter (fun x => aAdj s v x = true ∧
                    ¬ (aAdj s (findPivot s) x = false ∧ x < v)))
                    (aAdj s) pvN K (cs - pvN + 1)) ∧
            EquivSG (activeUnreachableFromPivot s (findPivot s))
              (undoSelfMutate (if v = findPivot s then
                pivotRecurse K fuel (induceFromSelfMutate st v [])
                  (cs + 1) (pvN + 1)
              else
                pivotRecurse K fuel (induceFromSelfMutate st v
                    (lastFrameIter (activeUnreachableFromPivot s
                      (findPivot s)).pivotNonNeighs))
                  (cs + 1) pvN).2) := by
          intro st v heq hvF
          have hWFst : WF st := WF_equiv _ st heq hWF1
          have hAV : AV st = AV s :=
            equiv_AV (activeUnreachableFromPivot s (findPivot s)) st heq
          have hAdj : ∀ a ∈ AV s, ∀ b, aAdj st a b = aAdj s a b :=
            equiv_aAdj (activeUnreachableFromPivot s (findPivot s)) st heq
          obtain ⟨hvact, hvnn⟩ := (hFmem v).mp hvF
          have hvst : v ∈ st.activeList := heq.2.1.mem_iff.mpr hvact
          have hnum : numActive st = numActive s := heq.2.1.length_eq
          by_cases hvp : v = findPivot s
          · have hlt : numActive (induceFromSelfMutate st v []) < fuel := by
              have h1 := induce_numActive_lt st hWFst v hvst []
              omega
            obtain ⟨hval, hst2⟩ := ih (induceFromSelfMutate st v []) (cs + 1) (pvN + 1)
              (induce_WF st hWFst v hvst []) hlt (by omega) (by omega)
            have hundo : EquivSG st (undoSelfMutate (pivotRecurse K fuel
                (induceFromSelfMutate st v []) (cs + 1) (pvN + 1)).2) :=
              undo_restore st hWFst v hvst [] _ hst2
            refine ⟨?_, ?_⟩
            · rw [if_pos hvp, if_pos hvp, hval]
              have harith : cs + 1 - (pvN + 1) = cs - pvN := by omega
              rw [harith,
                cliqueWSum_congr _ _ (aAdj s)
                  (child_aAdj_eq s st hWFst hAV hAdj v hvst []),
                child_AV_pivotcase s st hWFst hAV hAdj v
                  (by rw [hvp]; exact (mem_AV s _).mpr hpv)]
              rw [hvp]
            · rw [if_pos hvp]
              exact equivSG_trans _ st _ heq hundo
          · have hlt : numActive (induceFromSelfMutate st v
                (lastFrameIter (activeUnreachableFromPivot s
                  (findPivot s)).pivotNonNeighs)) < fuel := by
              have h1 := induce_numActive_lt st hWFst v hvst
                (lastFrameIter (activeUnreachableFromPivot s
                  (findPivot s)).pivotNonNeighs)
              omega
            obtain ⟨hval, hst2⟩ := ih (induceFromSelfMutate st v
                (lastFrameIter (activeUnreachableFromPivot s
                  (findPivot s)).pivotNonNeighs)) (cs + 1) pvN
              (induce_WF st hWFst v hvst _) hlt (by omega) (by omega)
            have hundo : EquivSG st (undoSelfMutate (pivotRecurse K fuel
                (induceFromSelfMutate st v (lastFrameIter (activeUnreachableFromPivot s
                  (findPivot s)).pivotNonNeighs)) (cs + 1) pvN).2) :=
              undo_restore st hWFst v hvst _ _ hst2
            refine ⟨?_, ?_⟩
            · rw [if_neg hvp, if_neg hvp, hval]
              have harith : cs + 1 - pvN = cs - pvN + 1 := by omega
              rw [harith,
                cliqueWSum_congr _ _ (aAdj s)
                  (child_aAdj_eq s st hWFst hAV hAdj v hvst _),
                child_AV_branchcase s st hWFst hAV hAdj (findPivot s) v
                  ((mem_AV s v).mpr hvact) _ hFmem]
            · rw [if_neg hvp]
              exact equivSG_trans _ st _ heq hundo
        obtain ⟨hsum, hend⟩ := pivotFold_spec (activeUnreachableFromPivot s (findPivot s))
          (fun st v =>
            if v = findPivot s then
              pivotRecurse K fuel (induceFromSelfMutate st v [])
                (cs + 1) (pvN + 1)
            else
              pivotRecurse K fuel (induceFromSelfMutate st v
                  (lastFrameIter (activeUnreachableFromPivot s
                    (findPivot s)).pivotNonNeighs))
                (cs + 1) pvN)
          (fun v =>
            if v = findPivot s then
              cliqueWSum ((AV s).filter (fun x => aAdj s (findPivot s) x = true))
                (aAdj s) (pvN + 1) K (cs - pvN)
            else
              cliqueWSum ((AV s).filter (fun x => aAdj s v x = true ∧
                ¬ (aAdj s (findPivot s) x = false ∧ x < v)))
                (aAdj s) pvN K (cs - pvN + 1))
          (lastFrameIter (activeUnreachableFromPivot s (findPivot s)).pivotNonNeighs)
          (fun st v heq2 hvF2 => hg st v heq2 hvF2)
          (lastFrameIter (activeUnreachableFromPivot s (findPivot s)).pivotNonNeighs)
          (List.Sublist.refl _) hFnodup
          (0, activeUnreachableFromPivot s (findPivot s)) (equivSG_refl _)
        refine ⟨?_, ?_⟩
        · rw [finishPNN_fst, hsum, Nat.zero_add]
          have hU : (lastFrameIter (activeUnreachableFromPivot s
              (findPivot s)).pivotNonNeighs).toFinset =
              (AV s).filter (fun x => aAdj s (findPivot s) x = false) := by
            apply Finset.ext
            intro x
            rw [List.mem_toFinset, hFmem x, Finset.mem_filter, mem_AV]
          rw [hU]
          exact (cliqueWSum_pivot (AV s) (aAdj s) (aAdj_symm s hWF) (aAdj_irr s hWF)
            (findPivot s) ((mem_AV s _).mpr hpv) pvN K (cs - pvN)).symm
        · rw [finishPNN_snd]
          exact equiv_after_pop s hWF (findPivot s) hpv _ hend

/-! ### The sweep recursion (PivotScale-Sweep PivotRecurse / PivotCount) -/

/-- Base case of the sweep recursion: add `C(pivots, p)` to `counts[holds+p]`
for every p from 0 to the bound inclusive. -/
def sweepBase (counts : List Nat) (holds pivots bound : Nat) : List Nat :=
  (List.range (bound + 1)).foldl
    (fun cst p => cst.set (holds + p) (getN cst (holds + p) + nChooseK pivots p)) counts

/-- Loop body of the sweep recursion, threading the counts vector. -/
def sweepFold (g : SubGraph → List Nat → Nat → List Nat × SubGraph) (frame : List Nat)
    (init : List Nat × SubGraph) : List Nat × SubGraph :=
  frame.foldl (fun cs v => ((g cs.2 cs.1 v).1, undoSelfMutate (g cs.2 cs.1 v).2)) init

/-- `sg.PopNonNeighbors(); return;` for the sweep. -/
def finishPNNL (r : List Nat × SubGraph) : List Nat × SubGraph :=
  (r.1, popNonNeighbors r.2)

/-- `PivotRecurse(sg, max_k, counts, clique_size, pivots)` of the sweep variant. -/
def sweepRecurse (maxk : Nat) : Nat → SubGraph → List Nat → Nat → Nat → List Nat × SubGraph
  | 0, s, counts, _, _ => (counts, s)
  | fuel + 1, s, counts, cliqueSize, pivots =>
    if numActive s = 0 ∨ cliqueSize - pivots = maxk then
      (sweepBase counts (cliqueSize - pivots) pivots
        (min pivots (maxk - (cliqueSize - pivots))), s)
    else
      finishPNNL (sweepFold
        (fun st cst v =>
          if v = findPivot s then
            sweepRecurse maxk fuel (induceFromSelfMutate st v []) cst
              (cliqueSize + 1) (pivots + 1)
          else
            sweepRecurse maxk fuel (induceFromSelfMutate st v
                (lastFrameIter (activeUnreachableFromPivot s
                  (findPivot s)).pivotNonNeighs))
              cst (cliqueSize + 1) pivots)
        (lastFrameIter (activeUnreachableFromPivot s (findPivot s)).pivotNonNeighs)
        (counts, activeUnreachableFromPivot s (findPivot s)))

/-- `PivotCount(dag, max_k)` of the sweep variant (atomic accumulation of the
thread-local vectors is modelled by threading one counts vector). -/
def sweepPivotCount (dag : GraphM) (maxk : Nat) : List Nat :=
  (List.range dag.n).foldl
    (fun counts v => (sweepRecurse maxk (numActive (induceFromDAG dag v) + 1)
      (induceFromDAG dag v) counts 1 0).1)
    (List.replicate (maxk + 1) 0)

theorem sweepBase_length (counts : List Nat) (holds pivots bound : Nat) :
    (sweepBase counts holds pivots bound).length = counts.length := by
  rw [sweepBase]
  generalize List.range (bound + 1) = l
  induction l generalizing counts with
  | nil => rfl
  | cons p l ih =>
    rw [List.foldl_cons]
    rw [ih]
    rw [List.length_set]

theorem sweepBase_getN (holds pivots : Nat) :
    ∀ (bound : Nat) (counts : List Nat), bound ≤ pivots →
      holds + bound < counts.length → ∀ j,
      getN (sweepBase counts holds pivots bound) j =
        getN counts j +
          (if holds ≤ j ∧ j ≤ holds + bound then Nat.choose pivots (j - holds) else 0) := by
  intro bound
  induction bound with
  | zero =>
    intro counts hb hlen j
    have h1 : sweepBase counts holds pivots 0 =
        counts.set (holds + 0) (getN counts (holds + 0) + nChooseK pivots 0) := by
      rw [sweepBase]
      rfl
    rw [h1, getN_set]
    by_cases hj : holds + 0 = j
    · rw [if_pos ⟨hj, by omega⟩, if_pos (by omega)]
      have h2 : j - holds = 0 := by omega
      rw [h2, ← hj, nChooseK_eq_choose pivots 0 (Nat.zero_le _)]
    · rw [if_neg (fun hc => hj hc.1), if_neg (by omega)]
      omega
  | succ bound ih =>
    intro counts hb hlen j
    have h1 : sweepBase counts holds pivots (bound + 1) =
        (sweepBase counts holds pivots bound).set (holds + (bound + 1))
          (getN (sweepBase counts holds pivots bound) (holds + (bound + 1)) +
            nChooseK pivots (bound + 1)) := by
      rw [sweepBase, sweepBase, List.range_succ, List.foldl_append, List.foldl_cons,
        List.foldl_nil]
    rw [h1, getN_set]
    by_cases hj : holds + (bound + 1) = j
    · rw [if_pos ⟨hj, by rw [sweepBase_length]; omega⟩]
      rw [ih counts (by omega) (by omega) (holds + (bound + 1))]
      rw [if_neg (by omega), if_pos (by omega)]
      have h2 : j - holds = bound + 1 := by omega
      rw [h2, ← hj, nChooseK_eq_choose pivots (bound + 1) (by omega)]
      omega
    · rw [if_neg (fun hc => hj hc.1)]
      rw [ih counts (by omega) (by omega) j]
      by_cases hcond : holds ≤ j ∧ j ≤ holds + bound
      · rw [if_pos hcond, if_pos (by omega)]
      · rw [if_neg hcond, if_neg (by omega)]

/-- Slot value of the clique sum when every vertex is already held. -/
theorem cliqueWSum_slot_at_max (V : Finset Nat) (adjb : Nat → Nat → Bool)
    (pv j K : Nat) (hj : j ≤ K) :
    cliqueWSum V adjb pv j K = if j = K then 1 else 0 := by
  by_cases hjK : j = K
  · rw [if_pos hjK, hjK, cliqueWSum_at_max]
  · rw [if_neg hjK, cliqueWSum]
    apply Finset.sum_eq_zero
    intro S hS
    rw [Wt, if_neg (by omega)]

/-- The sweep fold accumulates the per-branch slot contributions. -/
theorem sweepFold_spec (sBase : SubGraph)
    (g : SubGraph → List Nat → Nat → List Nat × SubGraph)
    (bv : Nat → Nat → Nat) (K : Nat) (F : List Nat)
    (hg : ∀ st cst v, EquivSG sBase st → v ∈ F → cst.length = K + 1 →
      (∀ j, j ≤ K → getN (g st cst v).1 j = getN cst j + bv v j) ∧
      (g st cst v).1.length = cst.length ∧
      EquivSG sBase (undoSelfMutate (g st cst v).2)) :
    ∀ (F2 : List Nat), F2.Sublist F → F2.Nodup →
      ∀ (init : List Nat × SubGraph), EquivSG sBase init.2 → init.1.length = K + 1 →
      (∀ j, j ≤ K → getN (sweepFold g F2 init).1 j =
        getN init.1 j + Finset.sum F2.toFinset (fun v => bv v j)) ∧
      (sweepFold g F2 init).1.length = init.1.length ∧
      EquivSG sBase (sweepFold g F2 init).2 := by
  intro F2
  induction F2 with
  | nil =>
    intro _ _ init hinit hlen
    refine ⟨?_, rfl, hinit⟩
    intro j hj
    simp [sweepFold]
  | cons v F2 ih =>
    intro hsub hnd init hinit hlen
    have hvF : v ∈ F := hsub.subset (List.mem_cons_self _ _)
    obtain ⟨hbv, hglen, hequiv⟩ := hg init.2 init.1 v hinit hvF hlen
    have hstep : sweepFold g (v :: F2) init =
        sweepFold g F2 ((g init.2 init.1 v).1, undoSelfMutate (g init.2 init.1 v).2) := by
      rw [sweepFold, List.foldl_cons, ← sweepFold]
    rw [hstep]
    obtain ⟨h1, h2, h3⟩ := ih (List.sublist_of_cons_sublist hsub)
      (List.nodup_cons.mp hnd).2
      ((g init.2 init.1 v).1, undoSelfMutate (g init.2 init.1 v).2) hequiv
      (by rw [hglen, hlen])
    refine ⟨?_, by rw [h2, hglen], h3⟩
    intro j hj
    rw [h1 j hj]
    have hvnot : v ∉ F2.toFinset := by
      rw [List.mem_toFinset]
      exact (List.nodup_cons.mp hnd).1
    rw [List.toFinset_cons, Finset.sum_insert hvnot, hbv j hj]
    have he : (∑ x ∈ F2.toFinset, bv x j) = Finset.sum F2.toFinset (fun v => bv v j) := rfl
    rw [he]
    omega

theorem finishPNNL_fst (r : List Nat × SubGraph) : (finishPNNL r).1 = r.1 := rfl

theorem finishPNNL_snd (r : List Nat × SubGraph) :
    (finishPNNL r).2 = popNonNeighbors r.2 := rfl

/-- Correctness of the sweep recursion: every slot j ≤ max_k receives exactly
the weighted clique sum of the abstract candidate graph at that slot. -/
theorem sweepRecurse_spec (K : Nat) :
    ∀ (fuel : Nat) (s : SubGraph) (counts : List Nat) (cs pvN : Nat),
      WF s → numActive s < fuel → pvN ≤ cs → cs - pvN ≤ K → counts.length = K + 1 →
      (∀ j, j ≤ K → getN (sweepRecurse K fuel s counts cs pvN).1 j =
        getN counts j + cliqueWSum (AV s) (aAdj s) pvN j (cs - pvN)) ∧
      (sweepRecurse K fuel s counts cs pvN).1.length = counts.length ∧
      EquivSG s (sweepRecurse K fuel s counts cs pvN).2 := by
  intro fuel
  induction fuel with
  | zero =>
    intro s counts cs pvN hWF hfuel hple hhK hlen
    omega
  | succ fuel ih =>
    intro s counts cs pvN hWF hfuel hple hhK hlen
    rw [sweepRecurse]
    by_cases hbase : numActive s = 0 ∨ cs - pvN = K
    · rw [if_pos hbase]
      refine ⟨?_, sweepBase_length _ _ _ _, equivSG_refl s⟩
      intro j hj
      have hminle : min pvN (K - (cs - pvN)) ≤ pvN := Nat.min_le_left _ _
      have hlen2 : (cs - pvN) + min pvN (K - (cs - pvN)) < counts.length := by
        have := Nat.min_le_right pvN (K - (cs - pvN))
        omega
      rw [sweepBase_getN (cs - pvN) pvN (min pvN (K - (cs - pvN))) counts hminle hlen2 j]
      rcases hbase with h0 | hK
      · have hAVe : AV s = ∅ := by
          rw [AV, List.length_eq_zero.mp h0]
          rfl
        rw [hAVe, cliqueWSum_empty, Wt]
        by_cases hcond : (cs - pvN) ≤ j ∧ j ≤ (cs - pvN) + min pvN (K - (cs - pvN))
        · rw [if_pos hcond, if_pos (by omega)]
          congr 2
        · rw [if_neg hcond]
          by_cases h2 : (cs - pvN) + 0 ≤ j
          · rw [if_pos h2]
            rcases Nat.le_total pvN (K - (cs - pvN)) with hmm | hmm
            · rw [Nat.min_eq_left hmm] at hcond
              have hz : Nat.choose pvN (j - (cs - pvN) - 0) = 0 :=
                Nat.choose_eq_zero_of_lt (by omega)
              rw [hz]
            · rw [Nat.min_eq_right hmm] at hcond
              omega
          · rw [if_neg h2]
      · rw [hK, Nat.sub_self, Nat.min_zero, Nat.add_zero,
          cliqueWSum_slot_at_max (AV s) (aAdj s) pvN j K hj]
        by_cases hjK : j = K
        · rw [if_pos (by omega), if_pos hjK]
          have h3 : j - K = 0 := by omega
          rw [h3, Nat.choose_zero_right]
        · rw [if_neg (by omega), if_neg hjK]
    · rw [if_neg hbase]
      have hbase2 : numActive s ≠ 0 ∧ cs - pvN ≠ K := by
        constructor
        · intro hc
          exact hbase (Or.inl hc)
        · intro hc
          exact hbase (Or.inr hc)
      have hne : s.activeList ≠ [] := by
        intro hc
        apply hbase2.1
        rw [numActive, hc]
        rfl
      have hpv : findPivot s ∈ s.activeList := findPivot_mem s hne
      obtain ⟨hact1, hpnn1⟩ := activeUnreachable_spec s hWF (findPivot s) hpv
      have hWF1 : WF (activeUnreachableFromPivot s (findPivot s)) :=
        WF_transfer s _ hact1 rfl rfl rfl hWF
      have hframe : lastFrameIter (activeUnreachableFromPivot s
          (findPivot s)).pivotNonNeighs =
          s.activeList.filter (fun n => decide (n ∉ neighsOf s (findPivot s))) := by
        rw [hpnn1]
        exact lastFrameIter_push_new _ _ _
      have hFmem : ∀ x, x ∈ lastFrameIter (activeUnreachableFromPivot s
          (findPivot s)).pivotNonNeighs ↔
          x ∈ s.activeList ∧ aAdj s (findPivot s) x = false := by
        intro x
        rw [hframe, List.mem_filter]
        constructor
        · rintro ⟨h1, h2⟩
          rw [decide_eq_true_eq] at h2
          exact ⟨h1, by rw [aAdj]; exact decide_eq_false h2⟩
        · rintro ⟨h1, h2⟩
          refine ⟨h1, ?_⟩
          rw [decide_eq_true_eq]
          rw [aAdj, decide_eq_false_iff_not] at h2
          exact h2
      have hFnodup : (lastFrameIter (activeUnreachableFromPivot s
          (findPivot s)).pivotNonNeighs).Nodup := by
        rw [hframe]
        exact hWF.nodupA.filter _
      have hg : ∀ st cst v, EquivSG (activeUnreachableFromPivot s (findPivot s)) st →
          v ∈ lastFrameIter (activeUnreachableFromPivot s (findPivot s)).pivotNonNeighs →
          cst.length = K + 1 →
          (∀ j, j ≤ K →
            getN (if v = findPivot s then
                sweepRecurse K fuel (induceFromSelfMutate st v []) cst
                  (cs + 1) (pvN + 1)
              else
                sweepRecurse K fuel (induceFromSelfMutate st v
                    (lastFrameIter (activeUnreachableFromPivot s
                      (findPivot s)).pivotNonNeighs))
                  cst (cs + 1) pvN).1 j =
              getN cst j +
              (if v = findPivot s then
                  cliqueWSum ((AV s).filter (fun x => aAdj s (findPivot s) x = true))
                    (aAdj s) (pvN + 1) j (cs - pvN)
                else
                  cliqueWSum ((AV s).filter (fun x => aAdj s v x = true ∧
                    ¬ (aAdj s (findPivot s) x = false ∧ x < v)))
                    (aAdj s) pvN j (cs - pvN + 1))) ∧
          (if v = findPivot s then
              sweepRecurse K fuel (induceFromSelfMutate st v []) cst
                (cs + 1) (pvN + 1)
            else
              sweepRecurse K fuel (induceFromSelfMutate st v
                  (lastFrameIter (activeUnreachableFromPivot s
                    (findPivot s)).pivotNonNeighs))
                cst (cs + 1) pvN).1.length = cst.length ∧
          EquivSG (activeUnreachableFromPivot s (findPivot s))
            (undoSelfMutate (if v = findPivot s then
                sweepRecurse K fuel (induceFromSelfMutate st v []) cst
                  (cs + 1) (pvN + 1)
              else
                sweepRecurse K fuel (induceFromSelfMutate st v
                    (lastFrameIter (activeUnreachableFromPivot s
                      (findPivot s)).pivotNonNeighs))
                  cst (cs + 1) pvN).2) := by
        intro st cst v heq hvF hclen
        have hWFst : WF st := WF_equiv _ st heq hWF1
        have hAV : AV st = AV s :=
          equiv_AV (activeUnreachableFromPivot s (findPivot s)) st heq
        have hAdj : ∀ a ∈ AV s, ∀ b, aAdj st a b = aAdj s a b :=
          equiv_aAdj (activeUnreachableFromPivot s (findPivot s)) st heq
        obtain ⟨hvact, hvnn⟩ := (hFmem v).mp hvF
        have hvst : v ∈ st.activeList := heq.2.1.mem_iff.mpr hvact
        have hnum : numActive st = numActive s := heq.2.1.length_eq
        by_cases hvp : v = findPivot s
        · have hlt : numActive (induceFromSelfMutate st v []) < fuel := by
            have h1 := induce_numActive_lt st hWFst v hvst []
            omega
          obtain ⟨hval, hrlen, hst2⟩ := ih (induceFromSelfMutate st v []) cst
            (cs + 1) (pvN + 1) (induce_WF st hWFst v hvst []) hlt (by omega)
            (by omega) hclen
          have hundo : EquivSG st (undoSelfMutate (sweepRecurse K fuel
              (induceFromSelfMutate st v []) cst (cs + 1) (pvN + 1)).2) :=
            undo_restore st hWFst v hvst [] _ hst2
          refine ⟨?_, ?_, ?_⟩
          · intro j hj
            rw [if_pos hvp, if_pos hvp, hval j hj]
            have harith : cs + 1 - (pvN + 1) = cs - pvN := by omega
            rw [harith,
              cliqueWSum_congr _ _ (aAdj s)
                (child_aAdj_eq s st hWFst hAV hAdj v hvst []),
              child_AV_pivotcase s st hWFst hAV hAdj v
                (by rw [hvp]; exact (mem_AV s _).mpr hpv)]
            rw [hvp]
          · rw [if_pos hvp]
            exact hrlen
          · rw [if_pos hvp]
            exact equivSG_trans _ st _ heq hundo
        · have hlt : numActive (induceFromSelfMutate st v
              (lastFrameIter (activeUnreachableFromPivot s
                (findPivot s)).pivotNonNeighs)) < fuel := by
            have h1 := induce_numActive_lt st hWFst v hvst
              (lastFrameIter (activeUnreachableFromPivot s
                (findPivot s)).pivotNonNeighs)
            omega
          obtain ⟨hval, hrlen, hst2⟩ := ih (induceFromSelfMutate st v
              (lastFrameIter (activeUnreachableFromPivot s
                (findPivot s)).pivotNonNeighs)) cst (cs + 1) pvN
            (induce_WF st hWFst v hvst _) hlt (by omega) (by omega) hclen
          have hundo : EquivSG st (undoSelfMutate (sweepRecurse K fuel
              (induceFromSelfMutate st v (lastFrameIter (activeUnreachableFromPivot s
                (findPivot s)).pivotNonNeighs)) cst (cs + 1) pvN).2) :=
            undo_restore st hWFst v hvst _ _ hst2
          refine ⟨?_, ?_, ?_⟩
          · intro j hj
            rw [if_neg hvp, if_neg hvp, hval j hj]
            have harith : cs + 1 - pvN = cs - pvN + 1 := by omega
            rw [harith,
              cliqueWSum_congr _ _ (aAdj s)
                (child_aAdj_eq s st hWFst hAV hAdj v hvst _),
              child_AV_branchcase s st hWFst hAV hAdj (findPivot s) v
                ((mem_AV s v).mpr hvact) _ hFmem]
          · rw [if_neg hvp]
            exact hrlen
          · rw [if_neg hvp]
            exact equivSG_trans _ st _ heq hundo
      obtain ⟨hsum, hflen, hend⟩ := sweepFold_spec
        (activeUnreachableFromPivot s (findPivot s))
        (fun st cst v =>
          if v = findPivot s then
            sweepRecurse K fuel (induceFromSelfMutate st v []) cst
              (cs + 1) (pvN + 1)
          else
            sweepRecurse K fuel (induceFromSelfMutate st v
                (lastFrameIter (activeUnreachableFromPivot s
                  (findPivot s)).pivotNonNeighs))
              cst (cs + 1) pvN)
        (fun v j =>
          if v = findPivot s then
            cliqueWSum ((AV s).filter (fun x => aAdj s (findPivot s) x = true))
              (aAdj s) (pvN + 1) j (cs - pvN)
          else
            cliqueWSum ((AV s).filter (fun x => aAdj s v x = true ∧
              ¬ (aAdj s (findPivot s) x = false ∧ x < v)))
              (aAdj s) pvN j (cs - pvN + 1)) K
        (lastFrameIter (activeUnreachableFromPivot s (findPivot s)).pivotNonNeighs)
        (fun st cst v heq2 hvF2 hclen2 => hg st cst v heq2 hvF2 hclen2)
        (lastFrameIter (activeUnreachableFromPivot s (findPivot s)).pivotNonNeighs)
        (List.Sublist.refl _) hFnodup
        (counts, activeUnreachableFromPivot s (findPivot s)) (equivSG_refl _) hlen
      refine ⟨?_, ?_, ?_⟩
      · intro j hj
        rw [finishPNNL_fst, hsum j hj]
        have hU : (lastFrameIter (activeUnreachableFromPivot s
            (findPivot s)).pivotNonNeighs).toFinset =
            (AV s).filter (fun x => aAdj s (findPivot s) x = false) := by
          apply Finset.ext
          intro x
          rw [List.mem_toFinset, hFmem x, Finset.mem_filter, mem_AV]
        rw [hU]
        rw [(cliqueWSum_pivot (AV s) (aAdj s) (aAdj_symm s hWF) (aAdj_irr s hWF)
          (findPivot s) ((mem_AV s _).mpr hpv) pvN j (cs - pvN))]
      · rw [finishPNNL_fst]
        exact hflen
      · rw [finishPNNL_snd]
        exact equiv_after_pop s hWF (findPivot s) hpv _ hend

theorem directionalize_sorted (g : GraphM) (hg : USimple g) (u : Nat) :
    ((directionalize g).adj u).Pairwise (· < ·) := by
  rw [directionalize]
  by_cases hb : coreIsAdvantageous g = true
  · rw [if_pos hb]
    exact directGraphByFunc_sorted g hg _ u
  · rw [if_neg hb]
    exact directGraphByFunc_sorted g hg _ u

theorem directionalize_no_self (g : GraphM) (u : Nat) :
    u ∉ (directionalize g).adj u := by
  rw [directionalize]
  by_cases hb : coreIsAdvantageous g = true
  · rw [if_pos hb]
    exact directGraphByFunc_no_self g _ (rankThenDeg_strict g _) u
  · rw [if_neg hb]
    exact directGraphByFunc_no_self g _ (greaterDegreeOrID_strict g) u

theorem directionalize_n (g : GraphM) : (directionalize g).n = g.n := by
  rw [directionalize]
  by_cases hb : coreIsAdvantageous g = true
  · rw [if_pos hb]
    rfl
  · rw [if_neg hb]
    rfl

theorem getN_replicate (m i : Nat) : getN (List.replicate m 0) i = 0 := by
  induction m generalizing i with
  | zero => rfl
  | succ m ih =>
    cases i with
    | zero => rfl
    | succ i =>
      show getN (List.replicate m 0) i = 0
      exact ih i

/-- One root of the sweep driver adds exactly 1 to slot 1 and keeps the length. -/
theorem sweepRoot_spec (dag : GraphM) (v maxk : Nat) (counts : List Nat)
    (hnd : (dag.adj v).Nodup) (hns : ∀ x, x ∉ dag.adj x) (hk : 1 ≤ maxk)
    (hlen : counts.length = maxk + 1) :
    getN ((sweepRecurse maxk (numActive (induceFromDAG dag v) + 1)
        (induceFromDAG dag v) counts 1 0).1) 1 = getN counts 1 + 1 ∧
    ((sweepRecurse maxk (numActive (induceFromDAG dag v) + 1)
        (induceFromDAG dag v) counts 1 0).1).length = counts.length := by
  have hWF := induceFromDAG_WF dag v hnd hns
  obtain ⟨hval, hlen2, _⟩ := sweepRecurse_spec maxk
    (numActive (induceFromDAG dag v) + 1) (induceFromDAG dag v) counts 1 0
    hWF (Nat.lt_succ_self _) (by omega) (by omega) hlen
  refine ⟨?_, hlen2⟩
  rw [hval 1 hk]
  simp only [Nat.sub_zero]
  rw [cliqueWSum_at_max]

/-- The root fold of the sweep driver adds the number of roots to slot 1. -/
theorem sweepFoldRoots_spec (dag : GraphM)
    (hnd : ∀ u, (dag.adj u).Nodup) (hns : ∀ x, x ∉ dag.adj x)
    (maxk : Nat) (hk : 1 ≤ maxk) :
    ∀ (l : List Nat) (counts : List Nat), counts.length = maxk + 1 →
      getN (l.foldl (fun cst v => (sweepRecurse maxk
          (numActive (induceFromDAG dag v) + 1)
          (induceFromDAG dag v) cst 1 0).1) counts) 1 =
        getN counts 1 + l.length ∧
      (l.foldl (fun cst v => (sweepRecurse maxk
          (numActive (induceFromDAG dag v) + 1)
          (induceFromDAG dag v) cst 1 0).1) counts).length = maxk + 1 := by
  intro l
  induction l with
  | nil =>
    intro counts hlen
    exact ⟨rfl, hlen⟩
  | cons v l ih =>
    intro counts hlen
    obtain ⟨h1, h2⟩ := sweepRoot_spec dag v maxk counts (hnd v) hns hk hlen
    obtain ⟨h3, h4⟩ := ih _ (h2.trans hlen)
    rw [List.foldl_cons]
    refine ⟨?_, h4⟩
    rw [h3, h1, List.length_cons]
    omega

/-- C5: in the sweep variant, for every undirected simple graph G and every
max_k >= 1 the returned vector has counts[1] = |V(G)|: each root of the
directionalized DAG contributes exactly 1 to slot 1 through the base-case
additions of C(num_pivots, p) to counts[holds + p] for
p in 0..min(num_pivots, max_k - holds). -/
theorem sweep_counts_one (g : GraphM) (hg : USimple g) (maxk : Nat)
    (hk : 1 ≤ maxk) :
    getN (sweepPivotCount (directionalize g) maxk) 1 = g.n := by
  have hnd : ∀ u, ((directionalize g).adj u).Nodup :=
    fun u => (directionalize_sorted g hg u).imp (fun h => Nat.ne_of_lt h)
  obtain ⟨h1, _⟩ := sweepFoldRoots_spec (directionalize g) hnd
    (fun x => directionalize_no_self g x) maxk hk
    (List.range (directionalize g).n) (List.replicate (maxk + 1) 0)
    (by simp)
  rw [sweepPivotCount, h1, getN_replicate, List.length_range, directionalize_n]
  omega

theorem sweep_counts_one_witness :
    USimple (tableGraph triTable) ∧ 1 ≤ 2 ∧
      getN (sweepPivotCount (directionalize (tableGraph triTable)) 2) 1 =
        (tableGraph triTable).n :=
  ⟨tableGraph_uSimple triTable (by decide), by omega,
    sweep_counts_one (tableGraph triTable)
      (tableGraph_uSimple triTable (by decide)) 2 (by omega)⟩

/-! ### k-cliques of the undirected input graph and the source partition -/

theorem toFinset_range (n : Nat) : (List.range n).toFinset = Finset.range n := by
  ext x
  simp [List.mem_range]

/-- The k-cliques of the undirected graph g (spec-side counting notion). -/
def kCliques (g : GraphM) (k : Nat) : Finset (Finset Nat) :=
  ((Finset.range g.n).powersetCard k).filter
    (fun S => ∀ x ∈ S, ∀ y ∈ S, x ≠ y → y ∈ g.adj x)

def kCliqueCount (g : GraphM) (k : Nat) : Nat := (kCliques g k).card

theorem mem_kCliques (g : GraphM) (k : Nat) (S : Finset Nat) :
    S ∈ kCliques g k ↔ S ⊆ Finset.range g.n ∧ S.card = k ∧
      ∀ x ∈ S, ∀ y ∈ S, x ≠ y → y ∈ g.adj x := by
  rw [kCliques, Finset.mem_filter, Finset.mem_powersetCard]
  tauto

theorem strictFilter_asymm (f : Nat → Nat → Bool) (hf : StrictFilter f)
    (u v : Nat) (h1 : f u v = true) (h2 : f v u = true) : False := by
  have h3 := hf.trans u v u h1 h2
  rw [hf.irrefl u] at h3
  exact Bool.false_ne_true h3

/-- Every nonempty finite set has an f-source (beats every other member). -/
theorem exists_source (f : Nat → Nat → Bool) (hf : StrictFilter f) :
    ∀ (S : Finset Nat), S.Nonempty → ∃ s ∈ S, ∀ y ∈ S, y ≠ s → f s y = true := by
  intro S
  induction S using Finset.induction_on with
  | empty =>
    intro h
    exact absurd h (by simp)
  | @insert a S ha ih =>
    intro _
    by_cases hSne : S.Nonempty
    · obtain ⟨s, hsS, hsrc⟩ := ih hSne
      have has : a ≠ s := fun h => ha (h ▸ hsS)
      rcases hf.total a s has with hfa | hfs
      · refine ⟨a, Finset.mem_insert_self a S, ?_⟩
        intro y hy hya
        rcases Finset.mem_insert.mp hy with h | h
        · exact absurd h hya
        · by_cases hys : y = s
          · rw [hys]
            exact hfa
          · exact hf.trans a s y hfa (hsrc y h hys)
      · refine ⟨s, Finset.mem_insert_of_mem hsS, ?_⟩
        intro y hy hys
        rcases Finset.mem_insert.mp hy with h | h
        · rw [h]
          exact hfs
        · exact hsrc y h hys
    · refine ⟨a, Finset.mem_insert_self a S, ?_⟩
      intro y hy hya
      rcases Finset.mem_insert.mp hy with h | h
      · exact absurd h hya
      · exact absurd ⟨y, h⟩ hSne

theorem source_unique (f : Nat → Nat → Bool) (hf : StrictFilter f) (S : Finset Nat)
    (s1 s2 : Nat) (h1 : s1 ∈ S) (h2 : s2 ∈ S)
    (hs1 : ∀ y ∈ S, y ≠ s1 → f s1 y = true)
    (hs2 : ∀ y ∈ S, y ≠ s2 → f s2 y = true) : s1 = s2 := by
  by_contra hne
  exact strictFilter_asymm f hf s1 s2
    (hs1 s2 h2 (fun h => hne h.symm)) (hs2 s1 h1 hne)

/-- The source vertex of a set under filter f (the unique f-minimum). -/
def srcOf (f : Nat → Nat → Bool) (S : Finset Nat) : Nat :=
  if h : (S.filter (fun x => ∀ y ∈ S, y ≠ x → f x y = true)).Nonempty then
    (S.filter (fun x => ∀ y ∈ S, y ≠ x → f x y = true)).min' h
  else 0

theorem srcOf_spec (f : Nat → Nat → Bool) (hf : StrictFilter f) (S : Finset Nat)
    (hS : S.Nonempty) :
    srcOf f S ∈ S ∧ ∀ y ∈ S, y ≠ srcOf f S → f (srcOf f S) y = true := by
  obtain ⟨s, hsS, hsrc⟩ := exists_source f hf S hS
  have hne : (S.filter (fun x => ∀ y ∈ S, y ≠ x → f x y = true)).Nonempty :=
    ⟨s, Finset.mem_filter.mpr ⟨hsS, hsrc⟩⟩
  rw [srcOf, dif_pos hne]
  have hmem := Finset.min'_mem _ hne
  rw [Finset.mem_filter] at hmem
  exact hmem

theorem srcOf_eq (f : Nat → Nat → Bool) (hf : StrictFilter f) (S : Finset Nat)
    (s : Nat) (hsS : s ∈ S) (hsrc : ∀ y ∈ S, y ≠ s → f s y = true) :
    srcOf f S = s := by
  obtain ⟨hm, hs2⟩ := srcOf_spec f hf S ⟨s, hsS⟩
  exact source_unique f hf S _ s hm hsS hs2 hsrc

/-! ### The root subgraph as an abstract graph -/

theorem root_AV (dag : GraphM) (u : Nat) :
    AV (induceFromDAG dag u) = Finset.range (dag.adj u).length := by
  have e2 : (induceFromDAG dag u).activeList = List.range (dag.adj u).length := rfl
  rw [AV, e2]
  exact toFinset_range _

theorem root_neighsOf (dag : GraphM) (u a : Nat) :
    neighsOf (induceFromDAG dag u) a = getL (dagAdj dag u) a := by
  have e3 : (induceFromDAG dag u).adjList = dagAdj dag u := rfl
  have e4 : (induceFromDAG dag u).activeTails =
      (dagAdj dag u).map (fun l => l.length) := rfl
  rw [neighsOf, e3, e4]
  by_cases h : a < (dagAdj dag u).length
  · rw [getN_map_length _ _ h]
    exact List.take_length _
  · have h1 : getL (dagAdj dag u) a = [] := by
      rw [getL]
      exact List.getD_eq_default _ _ (by omega)
    have h2 : getN ((dagAdj dag u).map (fun l => l.length)) a = 0 := by
      rw [getN]
      exact List.getD_eq_default _ _ (by rw [List.length_map]; omega)
    rw [h1, h2, List.take_zero]

theorem root_aAdj (dag : GraphM) (u a b : Nat) :
    aAdj (induceFromDAG dag u) a b = decide (b ∈ getL (dagAdj dag u) a) := by
  rw [aAdj, root_neighsOf]

/-- Local adjacency in the root subgraph is the two-sided DAG edge relation
between the corresponding original vertices. -/
theorem root_adj_iff (dag : GraphM) (u : Nat) (hnd : (dag.adj u).Nodup)
    (a b : Nat) (ha : a < (dag.adj u).length) (hb : b < (dag.adj u).length) :
    b ∈ getL (dagAdj dag u) a ↔
      (getN (dag.adj u) b ∈ dag.adj (getN (dag.adj u) a) ∨
       getN (dag.adj u) a ∈ dag.adj (getN (dag.adj u) b)) := by
  rw [mem_dagAdj]
  constructor
  · rintro ⟨v, hv, w, hw, hwu, hcase⟩
    rcases hcase with ⟨hav, hbw⟩ | ⟨haw, hbv⟩
    · have h1 : getN (dag.adj u) a = v := by
        rw [hav, getN_eq_getElem _ _ (List.indexOf_lt_length.mpr hv)]
        exact List.getElem_indexOf _
      have h2 : getN (dag.adj u) b = w := by
        rw [hbw, getN_eq_getElem _ _ (List.indexOf_lt_length.mpr hwu)]
        exact List.getElem_indexOf _
      left
      rw [h1, h2]
      exact hw
    · have h1 : getN (dag.adj u) a = w := by
        rw [haw, getN_eq_getElem _ _ (List.indexOf_lt_length.mpr hwu)]
        exact List.getElem_indexOf _
      have h2 : getN (dag.adj u) b = v := by
        rw [hbv, getN_eq_getElem _ _ (List.indexOf_lt_length.mpr hv)]
        exact List.getElem_indexOf _
      right
      rw [h1, h2]
      exact hw
  · intro hcase
    rcases hcase with h | h
    · refine ⟨getN (dag.adj u) a, ?_, getN (dag.adj u) b, h, ?_, Or.inl ⟨?_, ?_⟩⟩
      · rw [getN_eq_getElem _ _ ha]
        exact List.getElem_mem _
      · rw [getN_eq_getElem _ _ hb]
        exact List.getElem_mem _
      · rw [getN_eq_getElem _ _ ha]
        exact (List.indexOf_getElem hnd a ha).symm
      · rw [getN_eq_getElem _ _ hb]
        exact (List.indexOf_getElem hnd b hb).symm
    · refine ⟨getN (dag.adj u) b, ?_, getN (dag.adj u) a, h, ?_, Or.inr ⟨?_, ?_⟩⟩
      · rw [getN_eq_getElem _ _ hb]
        exact List.getElem_mem _
      · rw [getN_eq_getElem _ _ ha]
        exact List.getElem_mem _
      · rw [getN_eq_getElem _ _ ha]
        exact (List.indexOf_getElem hnd a ha).symm
      · rw [getN_eq_getElem _ _ hb]
        exact (List.indexOf_getElem hnd b hb).symm

/-- An undirected edge of g is present in exactly the one f-chosen direction
of the oriented graph; in particular the two-sided relation recovers g. -/
theorem dagEdge_iff (g : GraphM) (hg : USimple g) (f : Nat → Nat → Bool)
    (hf : StrictFilter f) (x y : Nat) (hx : x < g.n) (hxy : x ≠ y) :
    (y ∈ (directGraphByFunc g f).adj x ∨ x ∈ (directGraphByFunc g f).adj y) ↔
      y ∈ g.adj x := by
  constructor
  · rintro (h | h)
    · exact ((mem_directGraphByFunc g f x y).mp h).2.1
    · exact hg.symm y x ((mem_directGraphByFunc g f y x).mp h).2.1
  · intro h
    rcases hf.total x y hxy with h1 | h1
    · exact Or.inl ((mem_directGraphByFunc g f x y).mpr ⟨hx, h, h1⟩)
    · exact Or.inr ((mem_directGraphByFunc g f y x).mpr
        ⟨hg.mem_lt x y h, hg.symm x y h, h1⟩)

/-- At the root call (p = 0, h = 1) the weighted sum counts the cliques of
size exactly K - 1. -/
theorem cliqueWSum_root (V : Finset Nat) (adjb : Nat → Nat → Bool) (K : Nat)
    (hK : 1 ≤ K) :
    cliqueWSum V adjb 0 K 1 =
      ((cliquesB V adjb).filter (fun S => S.card = K - 1)).card := by
  rw [cliqueWSum, Finset.card_filter]
  apply Finset.sum_congr rfl
  intro S hS
  rw [Wt]
  by_cases h : S.card = K - 1
  · rw [if_pos (by omega), if_pos h]
    have h2 : K - 1 - S.card = 0 := by omega
    rw [h2, Nat.choose_zero_right]
  · rw [if_neg h]
    by_cases h2 : 1 + S.card ≤ K
    · rw [if_pos h2]
      obtain ⟨m, hm⟩ : ∃ m, K - 1 - S.card = m + 1 := ⟨K - 1 - S.card - 1, by omega⟩
      rw [hm, Nat.choose_zero_succ]
    · rw [if_neg h2]

/-- The (K-1)-cliques of the root-v local graph correspond exactly to the
K-cliques of g whose f-source is v. -/
theorem root_clique_card (g : GraphM) (hg : USimple g) (f : Nat → Nat → Bool)
    (hf : StrictFilter f) (v : Nat) (hv : v < g.n) (K : Nat) (hK : 1 ≤ K) :
    ((cliquesB (Finset.range ((directGraphByFunc g f).adj v).length)
        (fun a b => decide (b ∈ getL (dagAdj (directGraphByFunc g f) v) a))).filter
      (fun S => S.card = K - 1)).card =
    ((kCliques g K).filter (fun S => srcOf f S = v)).card := by
  have hnd : ((directGraphByFunc g f).adj v).Nodup :=
    (directGraphByFunc_sorted g hg f v).imp (fun h => Nat.ne_of_lt h)
  have hvn : v ∉ (directGraphByFunc g f).adj v := directGraphByFunc_no_self g f hf v
  have hIdxElem : ∀ w ∈ (directGraphByFunc g f).adj v,
      getN ((directGraphByFunc g f).adj v)
        (((directGraphByFunc g f).adj v).indexOf w) = w := by
    intro w hw
    rw [getN_eq_getElem _ _ (List.indexOf_lt_length.mpr hw)]
    exact List.getElem_indexOf _
  have hElemIdx : ∀ a, a < ((directGraphByFunc g f).adj v).length →
      ((directGraphByFunc g f).adj v).indexOf
        (getN ((directGraphByFunc g f).adj v) a) = a := by
    intro a ha
    rw [getN_eq_getElem _ _ ha]
    exact List.indexOf_getElem hnd a ha
  have hElemMem : ∀ a, a < ((directGraphByFunc g f).adj v).length →
      getN ((directGraphByFunc g f).adj v) a ∈ (directGraphByFunc g f).adj v := by
    intro a ha
    rw [getN_eq_getElem _ _ ha]
    exact List.getElem_mem _
  have hmemImg : ∀ (S2 : Finset Nat),
      S2 ⊆ Finset.range ((directGraphByFunc g f).adj v).length →
      ∀ w ∈ S2.image (fun a => getN ((directGraphByFunc g f).adj v) a),
        w ∈ (directGraphByFunc g f).adj v := by
    intro S2 hsub w hw
    obtain ⟨a, haS, hEq⟩ := Finset.mem_image.mp hw
    have hEq2 : getN ((directGraphByFunc g f).adj v) a = w := hEq
    rw [← hEq2]
    exact hElemMem a (Finset.mem_range.mp (hsub haS))
  have hErase : ∀ (S : Finset Nat),
      S ∈ (kCliques g K).filter (fun S => srcOf f S = v) →
      v ∈ S ∧ ∀ w ∈ S.erase v, w ∈ (directGraphByFunc g f).adj v := by
    intro S hS
    rw [Finset.mem_filter, mem_kCliques] at hS
    obtain ⟨⟨hsubg, hcardK, hclqg⟩, hsrc⟩ := hS
    have hSne : S.Nonempty := Finset.card_pos.mp (by omega)
    obtain ⟨hsrcMem, hbeats⟩ := srcOf_spec f hf S hSne
    rw [hsrc] at hsrcMem hbeats
    refine ⟨hsrcMem, ?_⟩
    intro w hw
    have hwS := Finset.mem_of_mem_erase hw
    have hwv : w ≠ v := Finset.ne_of_mem_erase hw
    rw [mem_directGraphByFunc]
    exact ⟨hv, hclqg v hsrcMem w hwS (fun h => hwv h.symm), hbeats w hwS hwv⟩
  refine Finset.card_bij'
    (fun S2 h2 => insert v (S2.image (fun a => getN ((directGraphByFunc g f).adj v) a)))
    (fun S h2 => (S.erase v).image (fun w => ((directGraphByFunc g f).adj v).indexOf w))
    ?_ ?_ ?_ ?_
  · intro S2 hS2
    rw [Finset.mem_filter, mem_cliquesB] at hS2
    obtain ⟨⟨hsub, hclq⟩, hcard⟩ := hS2
    have hvImg : v ∉ S2.image (fun a => getN ((directGraphByFunc g f).adj v) a) := by
      intro hmem
      exact hvn (hmemImg S2 hsub v hmem)
    have hinj : Set.InjOn (fun a => getN ((directGraphByFunc g f).adj v) a) S2 := by
      intro a haS b hbS hEq
      rw [Finset.mem_coe] at haS hbS
      have hEq2 : getN ((directGraphByFunc g f).adj v) a =
          getN ((directGraphByFunc g f).adj v) b := hEq
      have ha := Finset.mem_range.mp (hsub haS)
      have hb := Finset.mem_range.mp (hsub hbS)
      rw [← hElemIdx a ha, ← hElemIdx b hb, hEq2]
    rw [Finset.mem_filter, mem_kCliques]
    refine ⟨⟨?_, ?_, ?_⟩, ?_⟩
    · intro x hx
      rcases Finset.mem_insert.mp hx with h | h
      · rw [h]
        exact Finset.mem_range.mpr hv
      · have h2 := hmemImg S2 hsub x h
        rw [mem_directGraphByFunc] at h2
        exact Finset.mem_range.mpr (hg.mem_lt v x h2.2.1)
    · rw [Finset.card_insert_of_not_mem hvImg, Finset.card_image_of_injOn hinj, hcard]
      omega
    · intro x hx y hy hxy
      rcases Finset.mem_insert.mp hx with hx1 | hx1 <;>
        rcases Finset.mem_insert.mp hy with hy1 | hy1
      · exact absurd (hx1.trans hy1.symm) hxy
      · have h2 := hmemImg S2 hsub y hy1
        rw [mem_directGraphByFunc] at h2
        rw [hx1]
        exact h2.2.1
      · have h2 := hmemImg S2 hsub x hx1
        rw [mem_directGraphByFunc] at h2
        rw [hy1]
        exact hg.symm v x h2.2.1
      · obtain ⟨a, haS, hax⟩ := Finset.mem_image.mp hx1
        obtain ⟨b, hbS, hby⟩ := Finset.mem_image.mp hy1
        have hax2 : getN ((directGraphByFunc g f).adj v) a = x := hax
        have hby2 : getN ((directGraphByFunc g f).adj v) b = y := hby
        have ha := Finset.mem_range.mp (hsub haS)
        have hb := Finset.mem_range.mp (hsub hbS)
        have hab : a ≠ b := by
          intro h
          rw [h, hby2] at hax2
          exact hxy hax2.symm
        have hloc := hclq a haS b hbS hab
        rw [decide_eq_true_eq] at hloc
        have hdich := (root_adj_iff (directGraphByFunc g f) v hnd a b ha hb).mp hloc
        rw [hax2, hby2] at hdich
        have hxg : x < g.n := by
          have h2 := hmemImg S2 hsub x hx1
          rw [mem_directGraphByFunc] at h2
          exact hg.mem_lt v x h2.2.1
        exact (dagEdge_iff g hg f hf x y hxg hxy).mp hdich
    · apply srcOf_eq f hf _ v (Finset.mem_insert_self v _)
      intro y hy hyv
      rcases Finset.mem_insert.mp hy with h | h
      · exact absurd h hyv
      · have h2 := hmemImg S2 hsub y h
        rw [mem_directGraphByFunc] at h2
        exact h2.2.2
  · intro S hS
    obtain ⟨hvS, herase⟩ := hErase S hS
    rw [Finset.mem_filter, mem_kCliques] at hS
    obtain ⟨⟨hsubg, hcardK, hclqg⟩, hsrc⟩ := hS
    rw [Finset.mem_filter, mem_cliquesB]
    refine ⟨⟨?_, ?_⟩, ?_⟩
    · intro a ha
      obtain ⟨w, hw, hwa⟩ := Finset.mem_image.mp ha
      have hwa2 : ((directGraphByFunc g f).adj v).indexOf w = a := hwa
      rw [Finset.mem_range, ← hwa2]
      exact List.indexOf_lt_length.mpr (herase w hw)
    · intro a ha b hb hab
      obtain ⟨w1, hw1, hw1a⟩ := Finset.mem_image.mp ha
      obtain ⟨w2, hw2, hw2b⟩ := Finset.mem_image.mp hb
      have hw1a2 : ((directGraphByFunc g f).adj v).indexOf w1 = a := hw1a
      have hw2b2 : ((directGraphByFunc g f).adj v).indexOf w2 = b := hw2b
      have hw1n := herase w1 hw1
      have hw2n := herase w2 hw2
      have ha2 : a < ((directGraphByFunc g f).adj v).length := by
        rw [← hw1a2]
        exact List.indexOf_lt_length.mpr hw1n
      have hb2 : b < ((directGraphByFunc g f).adj v).length := by
        rw [← hw2b2]
        exact List.indexOf_lt_length.mpr hw2n
      rw [decide_eq_true_eq, root_adj_iff (directGraphByFunc g f) v hnd a b ha2 hb2]
      have hga : getN ((directGraphByFunc g f).adj v) a = w1 := by
        rw [← hw1a2]
        exact hIdxElem w1 hw1n
      have hgb : getN ((directGraphByFunc g f).adj v) b = w2 := by
        rw [← hw2b2]
        exact hIdxElem w2 hw2n
      rw [hga, hgb]
      have hw12 : w1 ≠ w2 := by
        intro h
        rw [h, hw2b2] at hw1a2
        exact hab hw1a2.symm
      have hw1g : w1 < g.n :=
        Finset.mem_range.mp (hsubg (Finset.mem_of_mem_erase hw1))
      have hedge : w2 ∈ g.adj w1 :=
        hclqg w1 (Finset.mem_of_mem_erase hw1) w2 (Finset.mem_of_mem_erase hw2) hw12
      exact (dagEdge_iff g hg f hf w1 w2 hw1g hw12).mpr hedge
    · have hinj : Set.InjOn (fun w => ((directGraphByFunc g f).adj v).indexOf w)
          (S.erase v) := by
        intro w1 h1 w2 h2 hEq
        rw [Finset.mem_coe] at h1 h2
        have hEq2 : ((directGraphByFunc g f).adj v).indexOf w1 =
            ((directGraphByFunc g f).adj v).indexOf w2 := hEq
        exact (List.indexOf_inj (herase w1 h1) (herase w2 h2)).mp hEq2
      rw [Finset.card_image_of_injOn hinj, Finset.card_erase_of_mem hvS, hcardK]
  · intro S2 hS2
    beta_reduce
    rw [Finset.mem_filter, mem_cliquesB] at hS2
    obtain ⟨⟨hsub, _⟩, _⟩ := hS2
    have hvImg : v ∉ S2.image (fun a => getN ((directGraphByFunc g f).adj v) a) := by
      intro hmem
      exact hvn (hmemImg S2 hsub v hmem)
    rw [Finset.erase_insert hvImg, Finset.image_image]
    have hcong : ∀ a ∈ S2, ((fun w => ((directGraphByFunc g f).adj v).indexOf w) ∘
        (fun a => getN ((directGraphByFunc g f).adj v) a)) a = id a := by
      intro a haS
      show ((directGraphByFunc g f).adj v).indexOf
        (getN ((directGraphByFunc g f).adj v) a) = a
      exact hElemIdx a (Finset.mem_range.mp (hsub haS))
    rw [Finset.image_congr hcong, Finset.image_id]
  · intro S hS
    beta_reduce
    obtain ⟨hvS, herase⟩ := hErase S hS
    rw [Finset.image_image]
    have hcong : ∀ w ∈ S.erase v,
        ((fun a => getN ((directGraphByFunc g f).adj v) a) ∘
          (fun w => ((directGraphByFunc g f).adj v).indexOf w)) w = id w := by
      intro w hw
      show getN ((directGraphByFunc g f).adj v)
        (((directGraphByFunc g f).adj v).indexOf w) = w
      exact hIdxElem w (herase w hw)
    rw [Finset.image_congr hcong, Finset.image_id, Finset.insert_erase hvS]

/-- The root call of the fixed-k recursion counts the K-cliques of g whose
f-source is the root. -/
theorem pivotRoot_value (g : GraphM) (hg : USimple g) (f : Nat → Nat → Bool)
    (hf : StrictFilter f) (v : Nat) (hv : v < g.n) (K : Nat) (hK : 1 ≤ K) :
    (pivotRecurse K (numActive (induceFromDAG (directGraphByFunc g f) v) + 1)
      (induceFromDAG (directGraphByFunc g f) v) 1 0).1 =
    ((kCliques g K).filter (fun S => srcOf f S = v)).card := by
  have hnd : ((directGraphByFunc g f).adj v).Nodup :=
    (directGraphByFunc_sorted g hg f v).imp (fun h => Nat.ne_of_lt h)
  have hns : ∀ x, x ∉ (directGraphByFunc g f).adj x :=
    fun x => directGraphByFunc_no_self g f hf x
  have hWF := induceFromDAG_WF (directGraphByFunc g f) v hnd hns
  obtain ⟨hval, _⟩ := pivotRecurse_spec K
    (numActive (induceFromDAG (directGraphByFunc g f) v) + 1)
    (induceFromDAG (directGraphByFunc g f) v) 1 0 hWF (Nat.lt_succ_self _)
    (by omega) (by omega)
  rw [hval]
  simp only [Nat.sub_zero]
  rw [root_AV, cliqueWSum_congr _ _
    (fun a b => decide (b ∈ getL (dagAdj (directGraphByFunc g f) v) a))
    (fun a _ b _ => root_aAdj (directGraphByFunc g f) v a b) 0 K 1,
    cliqueWSum_root _ _ K hK]
  exact root_clique_card g hg f hf v hv K hK

theorem pivotCount_eq_sum (dag : GraphM) (k : Nat) :
    pivotCount dag k = ∑ v ∈ Finset.range dag.n,
      (pivotRecurse k (numActive (induceFromDAG dag v) + 1)
        (induceFromDAG dag v) 1 0).1 := by
  rw [pivotCount]
  have h : ∀ (l : List Nat) (c : Nat),
      l.foldl (fun c v => c + (pivotRecurse k (numActive (induceFromDAG dag v) + 1)
        (induceFromDAG dag v) 1 0).1) c =
      c + (l.map (fun v => (pivotRecurse k (numActive (induceFromDAG dag v) + 1)
        (induceFromDAG dag v) 1 0).1)).sum := by
    intro l
    induction l with
    | nil =>
      intro c
      simp
    | cons a l ih =>
      intro c
      rw [List.foldl_cons, ih, List.map_cons, List.sum_cons]
      omega
  rw [h]
  have h2 : ∑ v ∈ Finset.range dag.n,
      (pivotRecurse k (numActive (induceFromDAG dag v) + 1)
        (induceFromDAG dag v) 1 0).1 =
      ((List.range dag.n).map (fun v =>
        (pivotRecurse k (numActive (induceFromDAG dag v) + 1)
          (induceFromDAG dag v) 1 0).1)).sum := rfl
  rw [h2]
  omega

/-- Every K-clique is counted exactly once, at its unique f-source. -/
theorem kCliqueCount_fibers (g : GraphM) (f : Nat → Nat → Bool)
    (hf : StrictFilter f) (K : Nat) (hK : 1 ≤ K) :
    kCliqueCount g K = ∑ v ∈ Finset.range g.n,
      ((kCliques g K).filter (fun S => srcOf f S = v)).card := by
  rw [kCliqueCount]
  apply Finset.card_eq_sum_card_fiberwise
  intro S hS
  rw [mem_kCliques] at hS
  obtain ⟨hsub, hcard, _⟩ := hS
  have hSne : S.Nonempty := Finset.card_pos.mp (by omega)
  obtain ⟨hm, _⟩ := srcOf_spec f hf S hSne
  exact hsub hm

/-- Pivot counting over any strict-filter orientation of g returns the
number of K-cliques of g, for every K >= 1. -/
theorem pivotCount_eq_kCliqueCount (g : GraphM) (hg : USimple g)
    (f : Nat → Nat → Bool) (hf : StrictFilter f) (K : Nat) (hK : 1 ≤ K) :
    pivotCount (directGraphByFunc g f) K = kCliqueCount g K := by
  rw [pivotCount_eq_sum, kCliqueCount_fibers g f hf K hK]
  have hn : (directGraphByFunc g f).n = g.n := rfl
  rw [hn]
  apply Finset.sum_congr rfl
  intro v hvr
  exact pivotRoot_value g hg f hf v (Finset.mem_range.mp hvr) K hK

/-- C1: for every undirected simple graph G, the fixed-k counter (PivotCount
applied to the DAG produced by Directionalize(G)) with k = 3 returns exactly
the number of triangles of G (the 3-cliques). -/
theorem pivotCount_three_eq_triangles (g : GraphM) (hg : USimple g) :
    pivotCount (directionalize g) 3 = kCliqueCount g 3 := by
  rw [directionalize]
  by_cases hb : coreIsAdvantageous g = true
  · rw [if_pos hb, directGraphCore]
    exact pivotCount_eq_kCliqueCount g hg _
      (rankThenDeg_strict g (getZ (coreApprox g (-1/2)))) 3 (by omega)
  · rw [if_neg hb, directGraphDegree]
    exact pivotCount_eq_kCliqueCount g hg _ (greaterDegreeOrID_strict g) 3 (by omega)

theorem pivotCount_three_eq_triangles_witness :
    USimple (tableGraph triTable) ∧
      pivotCount (directionalize (tableGraph triTable)) 3 =
        kCliqueCount (tableGraph triTable) 3 :=
  ⟨tableGraph_uSimple triTable (by decide),
    pivotCount_three_eq_triangles (tableGraph triTable)
      (tableGraph_uSimple triTable (by decide))⟩

/-- C7: for every undirected simple graph G and every k >= 1, the degree
ordering and the approximate-coreness ordering (CoreApprox ranking with
epsilon = -0.5) produce the same final k-clique count. -/
theorem pivotCount_ordering_independent (g : GraphM) (hg : USimple g)
    (k : Nat) (hk : 1 ≤ k) :
    pivotCount (directGraphDegree g) k =
      pivotCount (directGraphCore g (coreApprox g (-1/2))) k := by
  rw [directGraphDegree, directGraphCore,
    pivotCount_eq_kCliqueCount g hg _ (greaterDegreeOrID_strict g) k hk,
    pivotCount_eq_kCliqueCount g hg _
      (rankThenDeg_strict g (getZ (coreApprox g (-1/2)))) k hk]

theorem pivotCount_ordering_independent_witness :
    USimple (tableGraph triTable) ∧ 1 ≤ 3 ∧
      pivotCount (directGraphDegree (tableGraph triTable)) 3 =
        pivotCount (directGraphCore (tableGraph triTable)
          (coreApprox (tableGraph triTable) (-1/2))) 3 :=
  ⟨tableGraph_uSimple triTable (by decide), by omega,
    pivotCount_ordering_independent (tableGraph triTable)
      (tableGraph_uSimple triTable (by decide)) 3 (by omega)⟩

end PivotScale
